import Mathlib

/-!
# Circular doubly-linked queue (`queue.c`)

A shallow embedding of the queue operations of `queue.c` over an explicit heap,
followed by theorems about them.

* Addresses are natural numbers, `0` is `NULL`.
* An `element_t` is identified with the address of its embedded `list_head`
  (`list_entry` is a constant offset), so `value` is indexed by node address.
* Loops and the recursion of `mergesort` take a fuel argument and return `none`
  when it runs out; the theorems give a fuel bound under which they return.
* `malloc` results are arguments of the operations (`0` / `none` = failure).
* A freshly allocated element has an unassigned `value` pointer (`hasValue = false`) until
  `ele->value = str` is executed. Dereferencing or freeing an unassigned pointer is undefined
  behaviour in C; `value` is the string block only where `hasValue` holds, and `Owned` says
  that every element of a queue owns its payload.
* The `int` counter of `q_size` is a natural number: overflowing it needs more
  than `2^31 - 1` linked elements.
-/

namespace Queue

/-- A machine address; `0` is the null pointer. -/
abbrev Ptr := Nat

/-- A C string as the raw bytes of its block; a read past the end yields the terminator `0`. -/
abbrev CStr := List Nat

/-- The heap: the `next` and `prev` fields of every `list_head`, the string block that the
`value` pointer of every element points to, which element blocks are currently allocated, and
for which elements the `value` pointer has been assigned (it is indeterminate in a fresh
block, and `value` says nothing about such an element). -/
structure Heap where
  next : Ptr → Ptr
  prev : Ptr → Ptr
  value : Ptr → CStr
  alloc : Ptr → Bool
  hasValue : Ptr → Bool

/-- Store `p->next = v`. -/
def Heap.setNext (h : Heap) (p v : Ptr) : Heap :=
  { h with next := fun x => if x = p then v else h.next x }

/-- Store `p->prev = v`. -/
def Heap.setPrev (h : Heap) (p v : Ptr) : Heap :=
  { h with prev := fun x => if x = p then v else h.prev x }

/-- Assign the `value` pointer of element `p` to a string block holding `s`. -/
def Heap.setValue (h : Heap) (p : Ptr) (s : CStr) : Heap :=
  { h with
    value := fun x => if x = p then s else h.value x
    hasValue := fun x => if x = p then true else h.hasValue x }

/-- Mark the block at `p` as allocated (a successful `malloc` returning `p`); the `value`
pointer inside the fresh block is unassigned. -/
def Heap.malloc (h : Heap) (p : Ptr) : Heap :=
  { h with
    alloc := fun x => if x = p then true else h.alloc x
    hasValue := fun x => if x = p then false else h.hasValue x }

/-- Mark the block at `p` as released (`free(p)`), its string block included. -/
def Heap.free (h : Heap) (p : Ptr) : Heap :=
  { h with
    alloc := fun x => if x = p then false else h.alloc x
    hasValue := fun x => if x = p then false else h.hasValue x }

/-- The constant `MAX_STR_SIZE` of `queue.c`. -/
def MAX_STR_SIZE : Nat := 1024

/-! ## C string library -/

/-- The C library `strlen`: number of bytes before the first terminator. -/
def strlen : CStr → Nat
  | [] => 0
  | c :: s => if c = 0 then 0 else strlen s + 1

/-- The C library `strncmp`: compares at most `n` bytes, stopping at the first difference or
at a terminator; the result is the difference of the two bytes where it stopped. -/
def strncmp : CStr → CStr → Nat → Int
  | _, _, 0 => 0
  | a, b, n + 1 =>
    if a.headD 0 ≠ b.headD 0 then (a.headD 0 : Int) - (b.headD 0 : Int)
    else if a.headD 0 = 0 then 0
    else strncmp a.tail b.tail n

/-- The `n` bytes that `strncpy` writes: the bytes of `src` up to its terminator, then zeros. -/
def strncpyBytes : CStr → Nat → List Nat
  | _, 0 => []
  | src, n + 1 =>
    if src.headD 0 = 0 then List.replicate (n + 1) 0
    else src.headD 0 :: strncpyBytes src.tail n

/-- The C library `strncpy(dst, src, n)`: overwrites the first `n` bytes of `dst`. -/
def strncpy (dst src : CStr) (n : Nat) : CStr :=
  strncpyBytes src n ++ dst.drop n

/-! ## `list.h` helpers -/

/-- Modelled from the spec: `INIT_LIST_HEAD` of `list.h`, which is not among the sources;
the empty state has the sentinel's next and prev both pointing to itself. -/
def INIT_LIST_HEAD (h : Heap) (head : Ptr) : Heap :=
  (h.setNext head head).setPrev head head

/-- Modelled from the spec: `list_empty` of `list.h`, which is not among the sources;
a queue is empty when the sentinel's next is the sentinel. -/
def list_empty (h : Heap) (head : Ptr) : Bool :=
  h.next head == head

/-- Modelled from the spec: `list_add` of `list.h`, which is not among the sources;
links `node` immediately after `head`. -/
def list_add (h : Heap) (node head : Ptr) : Heap :=
  let next := h.next head
  let h := h.setPrev next node
  let h := h.setNext node next
  let h := h.setPrev node head
  h.setNext head node

/-- Modelled from the spec: `list_add_tail` of `list.h`, which is not among the sources;
links `node` immediately before `head`. -/
def list_add_tail (h : Heap) (node head : Ptr) : Heap :=
  let prev := h.prev head
  let h := h.setNext prev node
  let h := h.setNext node head
  let h := h.setPrev node prev
  h.setPrev head node

/-- Modelled from the spec: `list_del` of `list.h`, which is not among the sources;
unlinks `node` by pure relinking of its two neighbours. -/
def list_del (h : Heap) (node : Ptr) : Heap :=
  let next := h.next node
  let prev := h.prev node
  let h := h.setPrev next prev
  h.setNext prev next

/-- Modelled from the spec: `list_first_entry` of `list.h`, which is not among the sources;
the element at the head end, immediately after the sentinel. -/
def list_first_entry (h : Heap) (head : Ptr) : Ptr :=
  h.next head

/-- Modelled from the spec: `list_last_entry` of `list.h`, which is not among the sources;
the element at the tail end, immediately before the sentinel. -/
def list_last_entry (h : Heap) (head : Ptr) : Ptr :=
  h.prev head

/-! ## Lifecycle, insertion, removal, size -/

/-- The function `q_new`; `head` is the result of its `malloc`. -/
def q_new (h : Heap) (head : Ptr) : Heap × Ptr :=
  if head = 0 then (h, 0)
  else (INIT_LIST_HEAD (h.malloc head) head, head)

/-- The function `q_release_element`: frees the string and the element, which no longer
owns a payload. -/
def q_release_element (h : Heap) (e : Ptr) : Heap :=
  h.free e

/-- The function `q_insert_head`; `ele` is the result of the element `malloc` and `str` the
block returned by the string `malloc` (`none` when it fails). When the string allocation
fails the element is already linked and its `value` pointer is left unassigned
(`hasValue ele = false`). -/
def q_insert_head (h : Heap) (head : Ptr) (s : CStr) (ele : Ptr) (str : Option CStr) :
    Heap × Bool :=
  if head = 0 then (h, false)
  else if ele = 0 then (h, false)
  else
    let h := list_add (h.malloc ele) ele head
    match str with
    | none => (h, false)
    | some buf => (h.setValue ele (strncpy buf s (strlen s + 1)), true)

/-- The function `q_insert_tail`; `ele` and `str` as for `q_insert_head`, the element being
left linked with an unassigned `value` pointer when the string allocation fails. -/
def q_insert_tail (h : Heap) (head : Ptr) (s : CStr) (ele : Ptr) (str : Option CStr) :
    Heap × Bool :=
  if head = 0 then (h, false)
  else if ele = 0 then (h, false)
  else
    let h := list_add_tail (h.malloc ele) ele head
    match str with
    | none => (h, false)
    | some buf => (h.setValue ele (strncpy buf s (strlen s + 1)), true)

/-- The function `q_remove_head`; returns the heap, the removed element (`0` for `NULL`) and
the output buffer `sp` (`none` for a null `sp`). -/
def q_remove_head (h : Heap) (head : Ptr) (sp : Option CStr) (bufsize : Nat) :
    Heap × Ptr × Option CStr :=
  if head = 0 ∨ list_empty h head then (h, 0, sp)
  else
    let entry := list_first_entry h head
    let h := list_del h entry
    (h, entry, sp.map fun buf => strncpy buf (h.value entry) bufsize)

/-- The function `q_remove_tail`; results as for `q_remove_head`. -/
def q_remove_tail (h : Heap) (head : Ptr) (sp : Option CStr) (bufsize : Nat) :
    Heap × Ptr × Option CStr :=
  if head = 0 ∨ list_empty h head then (h, 0, sp)
  else
    let entry := list_last_entry h head
    let h := list_del h entry
    (h, entry, sp.map fun buf => strncpy buf (h.value entry) bufsize)

/-- The `list_for_each (node, head)` loop of `q_size`. The macro is from `list.h`, which is
not among the sources; as the spec says it is a full traversal: it starts at
`node = head->next`, runs while `node != head` and steps `node = node->next`. -/
def q_size_loop : Nat → Heap → Ptr → Ptr → Nat → Option Nat
  | 0, _, _, _, _ => none
  | fuel + 1, h, head, node, num =>
    if node ≠ head then q_size_loop fuel h head (h.next node) (num + 1)
    else some num

/-- The function `q_size`. -/
def q_size (fuel : Nat) (h : Heap) (head : Ptr) : Option Nat :=
  if head = 0 ∨ list_empty h head then some 0
  else q_size_loop fuel h head (h.next head) 0

/-! ## Whole-list algorithms -/

/-- Value of `*indir` in `q_delete_mid`: `indir` is `&head` (`none`) or `&p->next` (`some p`). -/
def q_delete_mid_deref (h : Heap) (head : Ptr) : Option Ptr → Ptr
  | none => head
  | some p => h.next p

/-- The slow/fast loop of `q_delete_mid`; returns the final `indir`. -/
def q_delete_mid_loop : Nat → Heap → Ptr → Option Ptr → Ptr → Option (Option Ptr)
  | 0, _, _, _, _ => none
  | fuel + 1, h, head, indir, fast =>
    if fast ≠ head ∧ fast ≠ h.prev head then
      q_delete_mid_loop fuel h head (some (q_delete_mid_deref h head indir)) (h.next (h.next fast))
    else some indir

/-- The function `q_delete_mid`. -/
def q_delete_mid (fuel : Nat) (h : Heap) (head : Ptr) : Option (Heap × Bool) :=
  if head = 0 ∨ list_empty h head then some (h, false)
  else
    match q_delete_mid_loop fuel h head none (h.next head) with
    | none => none
    | some indir =>
      let del := h.next (q_delete_mid_deref h head indir)
      let h := list_del h del
      some (q_release_element h del, true)

/-- The string that `p` points to in `q_delete_dup`: the literal `""` (`none`) or the value
of a retained element. -/
def q_delete_dup_str (h : Heap) : Option Ptr → CStr
  | none => [0]
  | some n => h.value n

/-- The `list_for_each_entry_safe (n, s, head, list)` loop of `q_delete_dup`. The macro is
from `list.h`, which is not among the sources; as the spec says it traverses once: it starts
at `n = head->next`, `s = n->next`, runs while `n != head` and steps `n = s`, `s = s->next`,
so the body may unlink and release `n`. -/
def q_delete_dup_loop : Nat → Heap → Ptr → Ptr → Ptr → Option Ptr → Option Heap
  | 0, _, _, _, _, _ => none
  | fuel + 1, h, head, n, s, p =>
    if n ≠ head then
      if strncmp (h.value n) (q_delete_dup_str h p) MAX_STR_SIZE = 0 then
        let h := q_release_element (list_del h n) n
        q_delete_dup_loop fuel h head s (h.next s) p
      else
        q_delete_dup_loop fuel h head s (h.next s) (some n)
    else some h

/-- The function `q_delete_dup`. -/
def q_delete_dup (fuel : Nat) (h : Heap) (head : Ptr) : Option (Heap × Bool) :=
  if head = 0 then some (h, false)
  else
    match q_delete_dup_loop fuel h head (h.next head) (h.next (h.next head)) none with
    | none => none
    | some h => some (h, true)

/-- The loop of `q_swap`; `indir` is `&p->next`, given as `p`. -/
def q_swap_loop : Nat → Heap → Ptr → Ptr → Option Heap
  | 0, _, _, _ => none
  | fuel + 1, h, head, indir =>
    if h.next indir ≠ head ∧ h.next (h.next indir) ≠ head then
      let tmp := h.next (h.next indir)
      let h := h.setNext (h.next indir) (h.next tmp)
      let h := h.setPrev tmp (h.prev (h.next indir))
      let h := h.setPrev (h.next indir) tmp
      let h := h.setPrev (h.next tmp) (h.next indir)
      let h := h.setNext tmp (h.next indir)
      let h := h.setNext indir tmp
      q_swap_loop fuel h head (h.next (h.next indir))
    else some h

/-- The function `q_swap`. -/
def q_swap (fuel : Nat) (h : Heap) (head : Ptr) : Option Heap :=
  if head = 0 ∨ list_empty h head then some h
  else q_swap_loop fuel h head head

/-- The `do ... while` loop of `q_reverse`. -/
def q_reverse_loop : Nat → Heap → Ptr → Ptr → Option Heap
  | 0, _, _, _ => none
  | fuel + 1, h, head, node =>
    let tmp := h.next node
    let h := h.setNext node (h.prev node)
    let h := h.setPrev node tmp
    let node := h.prev node
    if node ≠ head then q_reverse_loop fuel h head node
    else some h

/-- The function `q_reverse`. -/
def q_reverse (fuel : Nat) (h : Heap) (head : Ptr) : Option Heap :=
  if head = 0 ∨ list_empty h head then some h
  else q_reverse_loop fuel h head head

/-! ## Merge sort -/

/-- Store through `ptr` in `mergeTwoLists`: `ptr` is `&head` (`none`, the local variable) or
`&p->next` (`some p`). Returns the heap and the local `head`. -/
def mergeTwoLists_store (h : Heap) (head : Ptr) (ptr : Option Ptr) (v : Ptr) : Heap × Ptr :=
  match ptr with
  | none => (h, v)
  | some p => (h.setNext p v, head)

/-- Value of `*ptr` in `mergeTwoLists`. -/
def mergeTwoLists_load (h : Heap) (head : Ptr) : Option Ptr → Ptr
  | none => head
  | some p => h.next p

/-- The loop of `mergeTwoLists` together with the final store and the return. -/
def mergeTwoLists_loop : Nat → Heap → Ptr → Ptr → Ptr → Option Ptr → Option (Heap × Ptr)
  | 0, _, _, _, _, _ => none
  | fuel + 1, h, l1, l2, head, ptr =>
    if l1 ≠ 0 ∧ l2 ≠ 0 then
      if strncmp (h.value l1) (h.value l2) MAX_STR_SIZE < 0 then
        let st := mergeTwoLists_store h head ptr l1
        let ptr := some (mergeTwoLists_load st.1 st.2 ptr)
        mergeTwoLists_loop fuel st.1 (st.1.next l1) l2 st.2 ptr
      else
        let st := mergeTwoLists_store h head ptr l2
        let ptr := some (mergeTwoLists_load st.1 st.2 ptr)
        mergeTwoLists_loop fuel st.1 l1 (st.1.next l2) st.2 ptr
    else
      some (mergeTwoLists_store h head ptr (l1 ||| l2))

/-- The function `mergeTwoLists`; returns the heap and the head of the merged chain. -/
def mergeTwoLists (fuel : Nat) (h : Heap) (l1 l2 : Ptr) : Option (Heap × Ptr) :=
  mergeTwoLists_loop fuel h l1 l2 0 none

/-- The slow/fast loop of `mergesort`; returns the final `slow`. -/
def mergesort_loop : Nat → Heap → Ptr → Ptr → Option Ptr
  | 0, _, _, _ => none
  | fuel + 1, h, slow, fast =>
    if fast ≠ 0 ∧ h.next fast ≠ 0 then
      mergesort_loop fuel h (h.next slow) (h.next (h.next fast))
    else some slow

/-- The function `mergesort`; returns the heap and the head of the sorted chain. -/
def mergesort : Nat → Heap → Ptr → Option (Heap × Ptr)
  | 0, _, _ => none
  | fuel + 1, h, head =>
    if head = 0 ∨ h.next head = 0 then some (h, head)
    else
      match mergesort_loop fuel h head (h.next head) with
      | none => none
      | some slow =>
        let mid := h.next slow
        let h := h.setNext slow 0
        match mergesort fuel h head with
        | none => none
        | some (h, left) =>
          match mergesort fuel h mid with
          | none => none
          | some (h, right) => mergeTwoLists fuel h left right

/-- The loop of `q_sort` that restores the `prev` links; returns the heap and the final `ptr`. -/
def q_sort_loop : Nat → Heap → Ptr → Option (Heap × Ptr)
  | 0, _, _ => none
  | fuel + 1, h, ptr =>
    if h.next ptr ≠ 0 then q_sort_loop fuel (h.setPrev (h.next ptr) ptr) (h.next ptr)
    else some (h, ptr)

/-- The function `q_sort`. -/
def q_sort (fuel : Nat) (h : Heap) (head : Ptr) : Option Heap :=
  if head = 0 ∨ h.next head = h.prev head then some h
  else
    let h := h.setNext (h.prev head) 0
    match mergesort fuel h (h.next head) with
    | none => none
    | some (h, sorted) =>
      let h := h.setNext head sorted
      match q_sort_loop fuel h head with
      | none => none
      | some (h, ptr) =>
        let h := h.setNext ptr head
        some (h.setPrev head ptr)

/-! ## Well-formed queues -/

/-- A doubly-linked segment: following `nxt` from `a` visits exactly the nodes of `L` and then
reaches `b`, and `prv` of every node reached is the node it was reached from. -/
def dseg (nxt prv : Ptr → Ptr) : Ptr → List Ptr → Ptr → Prop
  | a, [], b => nxt a = b ∧ prv b = a
  | a, x :: L, b => nxt a = x ∧ prv x = a ∧ dseg nxt prv x L b

/-- A well-formed queue with sentinel `head` and element sequence `L`: the sentinel and the
elements are distinct non-null nodes, following `next` from the sentinel visits `L` in order
and returns to the sentinel, and `x.next.prev = x` for every node `x`, sentinel included. -/
structure WF (h : Heap) (head : Ptr) (L : List Ptr) : Prop where
  head_ne : head ≠ 0
  nonnull : 0 ∉ L
  nodup : (head :: L).Nodup
  links : dseg h.next h.prev head L head

/-- Every element of `L` owns a payload: its `value` pointer has been assigned, so that the
payload may be read and released. -/
def Owned (h : Heap) (L : List Ptr) : Prop :=
  ∀ x ∈ L, h.hasValue x = true

instance Owned.decidable (h : Heap) (L : List Ptr) : Decidable (Owned h L) :=
  inferInstanceAs (Decidable (∀ x ∈ L, h.hasValue x = true))

/-- The heap with the roles of `next` and `prev` exchanged at every node (a proof device:
an operation on the tail side is the head-side operation on the flipped heap). -/
def Heap.flip (h : Heap) : Heap :=
  { h with next := h.prev, prev := h.next }

/-- A singly-linked segment: `p` points to the first node of `L`, each node's `nxt` points to
the following one, and the last node's `nxt` is `b` (`p = b` when `L` is empty). With `b = 0`
this is a null-terminated chain. -/
def lseg (nxt : Ptr → Ptr) : Ptr → List Ptr → Ptr → Prop
  | p, [], b => p = b
  | p, x :: L, b => p = x ∧ lseg nxt (nxt x) L b

/-- The heap in which every node of `S` has its `next` and `prev` exchanged (the effect of
the loop of `q_reverse` on the nodes it has visited). -/
def Heap.flipOn (h : Heap) (S : List Ptr) : Heap :=
  { h with
    next := fun x => if x ∈ S then h.prev x else h.next x
    prev := fun x => if x ∈ S then h.next x else h.prev x }

/-- The pairwise swap as the specification words it: 1st and 2nd exchanged, 3rd and 4th
exchanged, and so on, an odd trailing element left where it is. -/
def swapPairs : List Ptr → List Ptr
  | a :: b :: L => b :: a :: swapPairs L
  | L => L

/-- The elements that the loop of `q_delete_dup` keeps, read off its body: `p` is the
retained reference (`none` for the literal `""`), `v` the payload of each element. -/
def dedupKeep (v : Ptr → CStr) : Option Ptr → List Ptr → List Ptr
  | _, [] => []
  | p, n :: L =>
    if strncmp (v n) (match p with | none => [0] | some m => v m) MAX_STR_SIZE = 0 then
      dedupKeep v p L
    else n :: dedupKeep v (some n) L

/-- The order in which `mergeTwoLists` emits the nodes of two chains, read off its loop:
the head of the first chain is taken when it compares strictly below the head of the second
(`strncmp(...) < 0`), otherwise the head of the second; `v` is the payload of each element. -/
def mergeL (v : Ptr → CStr) : List Ptr → List Ptr → List Ptr
  | [], B => B
  | a :: A, [] => a :: A
  | a :: A, b :: B =>
    if strncmp (v a) (v b) MAX_STR_SIZE < 0 then a :: mergeL v A (b :: B)
    else b :: mergeL v (a :: A) B
termination_by A B => A.length + B.length

/-- Payload order used by `q_sort`: `strncmp(a.value, b.value, MAX_STR_SIZE) <= 0`. -/
def valueLe (v : Ptr → CStr) (a b : Ptr) : Prop :=
  strncmp (v a) (v b) MAX_STR_SIZE ≤ 0

/-! ## Example queues -/

/-- A heap in which nothing is linked or allocated. -/
def emptyHeap : Heap :=
  { next := fun _ => 0, prev := fun _ => 0, value := fun _ => [], alloc := fun _ => false,
    hasValue := fun _ => false }

/-- A new queue whose sentinel is at address `1`, followed by `q_insert_tail` of each string
of `ss` in turn; the `k`-th element is allocated at address `k + 2`, and each string block
arrives filled with the byte `7`. -/
def tailQueue (ss : List CStr) : Heap :=
  (ss.foldl (fun (st : Heap × Ptr) s =>
      ((q_insert_tail st.1 1 s st.2 (some (List.replicate (strlen s + 1) 7))).1, st.2 + 1))
    ((q_new emptyHeap 1).1, 2)).1

/-- The payloads of the first `n` elements after `p`, following `next`. -/
def payloads (h : Heap) : Nat → Ptr → List CStr
  | 0, _ => []
  | n + 1, p => h.value (h.next p) :: payloads h n (h.next p)

/-- The bytes of `"banana"`, `"apple"` and `"cherry"`, each with its terminator. -/
def fruit : List CStr :=
  [[98, 97, 110, 97, 110, 97, 0], [97, 112, 112, 108, 101, 0], [99, 104, 101, 114, 114, 121, 0]]

/-- The bytes of the strings `"0"` to `"5"`, each with its terminator. -/
def digits : List CStr :=
  [[48, 0], [49, 0], [50, 0], [51, 0], [52, 0], [53, 0]]

instance dseg.decidable (nxt prv : Ptr → Ptr) :
    ∀ (a : Ptr) (L : List Ptr) (b : Ptr), Decidable (dseg nxt prv a L b)
  | a, [], b => inferInstanceAs (Decidable (nxt a = b ∧ prv b = a))
  | a, x :: L, b =>
    have := dseg.decidable nxt prv x L b
    inferInstanceAs (Decidable (nxt a = x ∧ prv x = a ∧ dseg nxt prv x L b))

/-! ## Sequences of calls -/

/-- One insert or remove call on a queue, with what its allocations return. -/
inductive QCall where
  | insertHead (s : CStr) (ele : Ptr) (str : Option CStr)
  | insertTail (s : CStr) (ele : Ptr) (str : Option CStr)
  | removeHead (sp : Option CStr) (bufsize : Nat)
  | removeTail (sp : Option CStr) (bufsize : Nat)

/-- The heap after one call, and what the call contributes to the net count: `1` for an
insert that returned true, `-1` for a remove that returned a non-null element, else `0`. -/
def stepCall (h : Heap) (head : Ptr) : QCall → Heap × Int
  | QCall.insertHead s ele str =>
    ((q_insert_head h head s ele str).1, if (q_insert_head h head s ele str).2 then 1 else 0)
  | QCall.insertTail s ele str =>
    ((q_insert_tail h head s ele str).1, if (q_insert_tail h head s ele str).2 then 1 else 0)
  | QCall.removeHead sp bufsize =>
    ((q_remove_head h head sp bufsize).1,
      if (q_remove_head h head sp bufsize).2.1 ≠ 0 then -1 else 0)
  | QCall.removeTail sp bufsize =>
    ((q_remove_tail h head sp bufsize).1,
      if (q_remove_tail h head sp bufsize).2.1 ≠ 0 then -1 else 0)

/-- The heap after a sequence of calls on the queue `head`, and the number of inserts that
returned true minus the number of removes that returned a non-null element. -/
def runCalls (h : Heap) (head : Ptr) : List QCall → Heap × Int
  | [] => (h, 0)
  | c :: cs =>
    ((runCalls (stepCall h head c).1 head cs).1,
      (stepCall h head c).2 + (runCalls (stepCall h head c).1 head cs).2)

/-- The allocator behaves, and no string allocation fails: in every insert of the sequence
the element allocation returns null or a block that is not a node of the queue at that
point, and the string allocation, when reached, succeeds. -/
def callsOk (h : Heap) (head : Ptr) : List QCall → Prop
  | [] => True
  | c :: cs =>
    (match c with
      | QCall.insertHead _ ele str =>
        (∀ L, WF h head L → ele ∉ head :: L) ∧ (ele ≠ 0 → str.isSome = true)
      | QCall.insertTail _ ele str =>
        (∀ L, WF h head L → ele ∉ head :: L) ∧ (ele ≠ 0 → str.isSome = true)
      | _ => True) ∧
    callsOk (stepCall h head c).1 head cs

/-- The first element of each run of equal payloads, as the specification words it: an
element is kept unless its payload compares equal (bounded comparison) to the payload of the
element just before it in the queue; `prev` is that element (`none` at the front). -/
def firstOfRuns (v : Ptr → CStr) : Option Ptr → List Ptr → List Ptr
  | _, [] => []
  | prev, n :: L =>
    if (match prev with
        | none => false
        | some q => decide (strncmp (v n) (v q) MAX_STR_SIZE = 0)) = true then
      firstOfRuns v (some n) L
    else n :: firstOfRuns v (some n) L

/-- The bytes of the strings `""`, `"a"`, `"a"`, `"b"`, each with its terminator: an ascending
sequence with an empty string and a run of two equal strings. -/
def dups : List CStr :=
  [[0], [97, 0], [97, 0], [98, 0]]

/-- The bytes of the strings `"a"`, `"a"`, `"b"`, each with its terminator. -/
def aab : List CStr :=
  [[97, 0], [97, 0], [98, 0]]

/-- A payload of 1025 bytes `a` followed by its terminator. -/
def longA : CStr :=
  List.replicate 1024 97 ++ [97, 0]

/-- A payload that agrees with `longA` on its first 1024 bytes and differs in the next one. -/
def longB : CStr :=
  List.replicate 1024 97 ++ [98, 0]

/-- A heap holding two null-terminated chains of one node each, at addresses `2` and `3`,
both with the payload `"a"`. -/
def tieHeap : Heap :=
  (emptyHeap.setValue 2 [97, 0]).setValue 3 [97, 0]

instance lseg.decidable (nxt : Ptr → Ptr) :
    ∀ (p : Ptr) (L : List Ptr) (b : Ptr), Decidable (lseg nxt p L b)
  | p, [], b => inferInstanceAs (Decidable (p = b))
  | p, x :: L, b =>
    have := lseg.decidable nxt (nxt x) L b
    inferInstanceAs (Decidable (p = x ∧ lseg nxt (nxt x) L b))

/-- A well-formed queue with sentinel at address `1` and two elements, at `2` with payload
`a` and at `3` with payload `b`. -/
def pairQueue (a b : CStr) : Heap :=
  { next := fun x => if x = 1 then 2 else if x = 2 then 3 else if x = 3 then 1 else 0
    prev := fun x => if x = 1 then 3 else if x = 3 then 2 else if x = 2 then 1 else 0
    value := fun x => if x = 2 then a else if x = 3 then b else []
    alloc := fun x => decide (x = 1 ∨ x = 2 ∨ x = 3)
    hasValue := fun x => decide (x = 2 ∨ x = 3) }

/-! ## Merge sort with counters

The same functions as above with two counters added: the number of `strncmp` calls made and
the depth of the recursion of `mergesort` (the number of nested activations). The theorems
show that dropping the counters gives back `mergeTwoLists`, `mergesort` and `q_sort`. -/

/-- The loop of `mergeTwoLists`, also returning the number of `strncmp` calls it made. -/
def mergeTwoLists_loop_cost :
    Nat → Heap → Ptr → Ptr → Ptr → Option Ptr → Option ((Heap × Ptr) × Nat)
  | 0, _, _, _, _, _ => none
  | fuel + 1, h, l1, l2, head, ptr =>
    if l1 ≠ 0 ∧ l2 ≠ 0 then
      if strncmp (h.value l1) (h.value l2) MAX_STR_SIZE < 0 then
        let st := mergeTwoLists_store h head ptr l1
        let ptr := some (mergeTwoLists_load st.1 st.2 ptr)
        (mergeTwoLists_loop_cost fuel st.1 (st.1.next l1) l2 st.2 ptr).map
          fun r => (r.1, r.2 + 1)
      else
        let st := mergeTwoLists_store h head ptr l2
        let ptr := some (mergeTwoLists_load st.1 st.2 ptr)
        (mergeTwoLists_loop_cost fuel st.1 l1 (st.1.next l2) st.2 ptr).map
          fun r => (r.1, r.2 + 1)
    else
      some (mergeTwoLists_store h head ptr (l1 ||| l2), 0)

/-- The function `mergeTwoLists`, also returning the number of `strncmp` calls it made. -/
def mergeTwoLists_cost (fuel : Nat) (h : Heap) (l1 l2 : Ptr) : Option ((Heap × Ptr) × Nat) :=
  mergeTwoLists_loop_cost fuel h l1 l2 0 none

/-- The function `mergesort`, also returning the number of `strncmp` calls made and the
depth of its recursion. -/
def mergesort_cost : Nat → Heap → Ptr → Option ((Heap × Ptr) × Nat × Nat)
  | 0, _, _ => none
  | fuel + 1, h, head =>
    if head = 0 ∨ h.next head = 0 then some ((h, head), 0, 1)
    else
      match mergesort_loop fuel h head (h.next head) with
      | none => none
      | some slow =>
        let mid := h.next slow
        let h := h.setNext slow 0
        match mergesort_cost fuel h head with
        | none => none
        | some ((h, left), c1, d1) =>
          match mergesort_cost fuel h mid with
          | none => none
          | some ((h, right), c2, d2) =>
            (mergeTwoLists_cost fuel h left right).map
              fun r => (r.1, c1 + c2 + r.2, 1 + max d1 d2)

/-- The function `q_sort`, also returning the number of `strncmp` calls made and the depth
of the recursion of `mergesort` (0 when `mergesort` is not called). -/
def q_sort_cost (fuel : Nat) (h : Heap) (head : Ptr) : Option (Heap × Nat × Nat) :=
  if head = 0 ∨ h.next head = h.prev head then some (h, 0, 0)
  else
    let h := h.setNext (h.prev head) 0
    match mergesort_cost fuel h (h.next head) with
    | none => none
    | some ((h, sorted), c, d) =>
      let h := h.setNext head sorted
      match q_sort_loop fuel h head with
      | none => none
      | some (h, ptr) =>
        let h := h.setNext ptr head
        some (h.setPrev head ptr, c, d)

/-- The heap with the `alloc` and `hasValue` marks exchanged (a proof device: the queue
operations treat the two marks alike, so a fact about one carries over to the other). -/
def Heap.swapMarks (h : Heap) : Heap :=
  { h with alloc := h.hasValue, hasValue := h.alloc }

/-! # Theorems -/

/-! ## Heap field lemmas -/

@[simp] theorem Heap.setNext_next (h : Heap) (p v x : Ptr) :
    (h.setNext p v).next x = if x = p then v else h.next x := rfl
@[simp] theorem Heap.setNext_prev (h : Heap) (p v : Ptr) : (h.setNext p v).prev = h.prev := rfl
@[simp] theorem Heap.setNext_value (h : Heap) (p v : Ptr) : (h.setNext p v).value = h.value := rfl
@[simp] theorem Heap.setNext_alloc (h : Heap) (p v : Ptr) : (h.setNext p v).alloc = h.alloc := rfl
@[simp] theorem Heap.setPrev_prev (h : Heap) (p v x : Ptr) :
    (h.setPrev p v).prev x = if x = p then v else h.prev x := rfl
@[simp] theorem Heap.setPrev_next (h : Heap) (p v : Ptr) : (h.setPrev p v).next = h.next := rfl
@[simp] theorem Heap.setPrev_value (h : Heap) (p v : Ptr) : (h.setPrev p v).value = h.value := rfl
@[simp] theorem Heap.setPrev_alloc (h : Heap) (p v : Ptr) : (h.setPrev p v).alloc = h.alloc := rfl
@[simp] theorem Heap.setValue_value (h : Heap) (p : Ptr) (s : CStr) (x : Ptr) :
    (h.setValue p s).value x = if x = p then s else h.value x := rfl
@[simp] theorem Heap.setValue_next (h : Heap) (p : Ptr) (s : CStr) : (h.setValue p s).next = h.next := rfl
@[simp] theorem Heap.setValue_prev (h : Heap) (p : Ptr) (s : CStr) : (h.setValue p s).prev = h.prev := rfl
@[simp] theorem Heap.setValue_alloc (h : Heap) (p : Ptr) (s : CStr) : (h.setValue p s).alloc = h.alloc := rfl
@[simp] theorem Heap.malloc_next (h : Heap) (p : Ptr) : (h.malloc p).next = h.next := rfl
@[simp] theorem Heap.malloc_prev (h : Heap) (p : Ptr) : (h.malloc p).prev = h.prev := rfl
@[simp] theorem Heap.malloc_value (h : Heap) (p : Ptr) : (h.malloc p).value = h.value := rfl
@[simp] theorem Heap.malloc_alloc (h : Heap) (p x : Ptr) :
    (h.malloc p).alloc x = if x = p then true else h.alloc x := rfl
@[simp] theorem Heap.free_next (h : Heap) (p : Ptr) : (h.free p).next = h.next := rfl
@[simp] theorem Heap.free_prev (h : Heap) (p : Ptr) : (h.free p).prev = h.prev := rfl
@[simp] theorem Heap.free_value (h : Heap) (p : Ptr) : (h.free p).value = h.value := rfl
@[simp] theorem Heap.free_alloc (h : Heap) (p x : Ptr) :
    (h.free p).alloc x = if x = p then false else h.alloc x := rfl
@[simp] theorem Heap.setNext_hasValue (h : Heap) (p v : Ptr) :
    (h.setNext p v).hasValue = h.hasValue := rfl
@[simp] theorem Heap.setPrev_hasValue (h : Heap) (p v : Ptr) :
    (h.setPrev p v).hasValue = h.hasValue := rfl
@[simp] theorem Heap.setValue_hasValue (h : Heap) (p : Ptr) (s : CStr) (x : Ptr) :
    (h.setValue p s).hasValue x = if x = p then true else h.hasValue x := rfl
@[simp] theorem Heap.malloc_hasValue (h : Heap) (p x : Ptr) :
    (h.malloc p).hasValue x = if x = p then false else h.hasValue x := rfl
@[simp] theorem Heap.free_hasValue (h : Heap) (p x : Ptr) :
    (h.free p).hasValue x = if x = p then false else h.hasValue x := rfl

theorem dseg_congr {nxt prv nxt' prv' : Ptr → Ptr} :
    ∀ (L : List Ptr) (a b : Ptr), (∀ x ∈ a :: L, nxt' x = nxt x) →
      (∀ x ∈ L ++ [b], prv' x = prv x) → dseg nxt prv a L b → dseg nxt' prv' a L b
  | [], a, b, hn, hp, hd => by
    simp only [dseg] at hd ⊢
    rw [hn a (by simp), hp b (by simp)]
    exact hd
  | x :: L, a, b, hn, hp, hd => by
    simp only [dseg] at hd ⊢
    refine ⟨by rw [hn a (by simp)]; exact hd.1, by rw [hp x (by simp)]; exact hd.2.1, ?_⟩
    exact dseg_congr L x b (fun y hy => hn y (List.mem_cons_of_mem _ hy))
      (fun y hy => hp y (by simp at hy ⊢; tauto)) hd.2.2

theorem dseg_append {nxt prv : Ptr → Ptr} :
    ∀ (L : List Ptr) (a x : Ptr) (M : List Ptr) (b : Ptr),
      dseg nxt prv a (L ++ x :: M) b ↔ dseg nxt prv a L x ∧ dseg nxt prv x M b
  | [], a, x, M, b => by simp [dseg, and_assoc]
  | y :: L, a, x, M, b => by simp [dseg, dseg_append L y x M b, and_assoc]

theorem dseg_reverse {nxt prv : Ptr → Ptr} :
    ∀ (L : List Ptr) (a b : Ptr), dseg nxt prv a L b ↔ dseg prv nxt b L.reverse a
  | [], a, b => by simp [dseg, and_comm]
  | x :: L, a, b => by
    rw [List.reverse_cons, dseg_append, ← dseg_reverse L x b]
    simp [dseg]; tauto

/-! ## Segments and well-formed queues -/

theorem dseg_prev_mem {nxt prv : Ptr → Ptr} :
    ∀ (A : List Ptr) (a x : Ptr), dseg nxt prv a A x → prv x ∈ a :: A
  | [], a, x, hd => by simp [dseg] at hd; simp [hd.2]
  | z :: A, a, x, hd => by
    have := dseg_prev_mem A z x hd.2.2
    exact List.mem_cons_of_mem _ this

theorem dseg_next_mem {nxt prv : Ptr → Ptr} (B : List Ptr) (x b : Ptr)
    (hd : dseg nxt prv x B b) : nxt x ∈ B ++ [b] := by
  cases B with
  | nil => simp [dseg] at hd; simp [hd.1]
  | cons y B => simp [dseg] at hd; simp [hd.1]

theorem list_del_next (h : Heap) (x y : Ptr) :
    (list_del h x).next y = if y = h.prev x then h.next x else h.next y := by
  simp [list_del]

theorem list_del_prev (h : Heap) (x y : Ptr) :
    (list_del h x).prev y = if y = h.next x then h.prev x else h.prev y := by
  simp [list_del]

@[simp] theorem list_del_value (h : Heap) (x : Ptr) : (list_del h x).value = h.value := by
  simp [list_del]

@[simp] theorem list_del_alloc (h : Heap) (x : Ptr) : (list_del h x).alloc = h.alloc := by
  simp [list_del]

theorem dseg_list_del (h : Heap) (x : Ptr) (B : List Ptr) (b : Ptr) :
    ∀ (A : List Ptr) (a : Ptr), dseg h.next h.prev a (A ++ x :: B) b →
      (a :: (A ++ x :: B)).Nodup → b ∉ A ++ x :: B →
      dseg (list_del h x).next (list_del h x).prev a (A ++ B) b
  | [], a, hd, hnd, hb => by
    simp only [List.nil_append, dseg] at hd ⊢
    obtain ⟨h1, h2, h3⟩ := hd
    cases B with
    | nil =>
      simp only [dseg] at h3 ⊢
      simp [list_del_next, list_del_prev, h1, h2, h3.1]
    | cons y B =>
      simp only [dseg] at h3 ⊢
      obtain ⟨h4, h5, h6⟩ := h3
      refine ⟨by simp [list_del_next, h2, h4], by simp [list_del_prev, h2, h4], ?_⟩
      refine dseg_congr B y b ?_ ?_ h6
      · intro z hz
        have : z ≠ a := by intro e; rw [e] at hz; simp_all
        rw [list_del_next, h2, if_neg this]
      · intro z hz
        have : z ≠ y := by intro e; rw [e] at hz; simp_all
        rw [list_del_prev, h4, if_neg this]
  | z :: A, a, hd, hnd, hb => by
    simp only [List.cons_append, dseg] at hd ⊢
    obtain ⟨h1, h2, h3⟩ := hd
    have hP : h.prev x ∈ z :: A := dseg_prev_mem A z x ((dseg_append A z x B b).1 h3).1
    have hN : h.next x ∈ B ++ [b] := dseg_next_mem B x b ((dseg_append A z x B b).1 h3).2
    have hnd' : (z :: (A ++ x :: B)).Nodup := (List.nodup_cons.1 hnd).2
    have haP : a ≠ h.prev x := by
      intro e; rw [← e] at hP; simp_all
    have hzN : z ≠ h.next x := by
      intro e; rw [← e] at hN; simp_all
    refine ⟨?_, ?_, dseg_list_del h x B b A z h3 hnd' (fun hm => hb (List.mem_cons_of_mem _ hm))⟩
    · rw [list_del_next, if_neg haP, h1]
    · rw [list_del_prev, if_neg hzN, h2]

theorem WF.list_del {h : Heap} {head : Ptr} {A B : List Ptr} {x : Ptr}
    (hwf : WF h head (A ++ x :: B)) : WF (list_del h x) head (A ++ B) := by
  refine ⟨hwf.head_ne, ?_, ?_, ?_⟩
  · have := hwf.nonnull
    simp only [List.mem_append, List.mem_cons, not_or] at this ⊢
    tauto
  · have := hwf.nodup
    refine this.sublist ?_
    exact List.Sublist.cons₂ _ (List.Sublist.append (List.Sublist.refl _) (List.sublist_cons_self _ _))
  · exact dseg_list_del h x B head A head hwf.links hwf.nodup (List.nodup_cons.1 hwf.nodup).1

theorem WF.congr {h h' : Heap} {head : Ptr} {L : List Ptr} (hwf : WF h head L)
    (hn : ∀ x ∈ head :: L, h'.next x = h.next x) (hp : ∀ x ∈ head :: L, h'.prev x = h.prev x) :
    WF h' head L :=
  ⟨hwf.head_ne, hwf.nonnull, hwf.nodup,
    dseg_congr L head head hn (fun x hx => hp x (by simp at hx ⊢; tauto)) hwf.links⟩

theorem WF.next_head {h : Heap} {head : Ptr} {L : List Ptr} (hwf : WF h head L) :
    h.next head = (L ++ [head]).head (by simp) := by
  cases L with
  | nil => exact hwf.links.1
  | cons x L => exact hwf.links.1

theorem WF.prev_head {h : Heap} {head : Ptr} {L : List Ptr} (hwf : WF h head L) :
    h.prev head = (head :: L).getLast (by simp) := by
  have := (dseg_reverse L head head).1 hwf.links
  rcases List.eq_nil_or_concat L with rfl | ⟨A, x, rfl⟩
  · exact this.1
  · simp only [List.concat_eq_append, List.reverse_append, List.reverse_cons, List.reverse_nil,
      List.nil_append, List.singleton_append] at this
    simp [this.1]

theorem WF.list_empty_iff {h : Heap} {head : Ptr} {L : List Ptr} (hwf : WF h head L) :
    list_empty h head = true ↔ L = [] := by
  cases L with
  | nil => simp [list_empty, hwf.links.1]
  | cons x L =>
    have := hwf.nodup
    simp only [List.nodup_cons, List.mem_cons, not_or] at this
    simp [list_empty, hwf.links.1]
    exact fun e => this.1.1 e.symm

theorem list_add_wf {h : Heap} {head : Ptr} {L : List Ptr} (hwf : WF h head L) {ele : Ptr}
    (h0 : ele ≠ 0) (hf : ele ∉ head :: L) : WF (list_add h ele head) head (ele :: L) := by
  have hnd := hwf.nodup
  simp only [List.mem_cons, not_or] at hf
  refine ⟨hwf.head_ne, ?_, ?_, ?_⟩
  · have := hwf.nonnull
    simp only [List.mem_cons, not_or]
    exact ⟨fun e => h0 e.symm, this⟩
  · simp only [List.nodup_cons, List.mem_cons, not_or] at hnd ⊢
    exact ⟨⟨fun e => hf.1 e.symm, hnd.1⟩, hf.2, hnd.2⟩
  · cases L with
    | nil =>
      have := hwf.links
      simp only [dseg] at this ⊢
      simp [list_add, this.1, hf.1, Ne.symm hf.1]
    | cons x L =>
      have := hwf.links
      simp only [dseg] at this ⊢
      simp only [List.nodup_cons, List.mem_cons, not_or] at hnd hf
      obtain ⟨h1, h2, h3⟩ := this
      refine ⟨by simp [list_add], by simp [list_add], by simp [list_add, h1, hf.1],
        by simp [list_add, h1, Ne.symm hf.2.1], ?_⟩
      refine dseg_congr L x head ?_ ?_ h3
      · intro z hz
        have hz1 : z ≠ head := by intro e; rw [e] at hz; simp_all
        have hz2 : z ≠ ele := by intro e; rw [e] at hz; simp_all
        simp [list_add, hz1, hz2]
      · intro z hz
        have hz1 : z ≠ ele := by intro e; rw [e] at hz; simp_all
        have hz2 : z ≠ x := by intro e; rw [e] at hz; simp_all
        simp [list_add, h1, hz1, hz2]

@[simp] theorem Heap.flip_next (h : Heap) : h.flip.next = h.prev := rfl
@[simp] theorem Heap.flip_prev (h : Heap) : h.flip.prev = h.next := rfl
@[simp] theorem Heap.flip_value (h : Heap) : h.flip.value = h.value := rfl
@[simp] theorem Heap.flip_alloc (h : Heap) : h.flip.alloc = h.alloc := rfl
@[simp] theorem Heap.flip_flip (h : Heap) : h.flip.flip = h := rfl

theorem WF.flip {h : Heap} {head : Ptr} {L : List Ptr} (hwf : WF h head L) :
    WF h.flip head L.reverse := by
  refine ⟨hwf.head_ne, by simpa using hwf.nonnull, ?_, (dseg_reverse L head head).1 hwf.links⟩
  have := hwf.nodup
  simp only [List.nodup_cons, List.mem_reverse, List.nodup_reverse] at this ⊢
  exact this

theorem WF.of_flip {h : Heap} {head : Ptr} {L : List Ptr} (hwf : WF h.flip head L.reverse) :
    WF h head L := by
  simpa using hwf.flip

theorem list_add_tail_eq (h : Heap) (ele head : Ptr) :
    list_add_tail h ele head = (list_add h.flip ele head).flip := by
  simp only [list_add_tail, list_add, Heap.flip, Heap.setNext, Heap.setPrev]

theorem list_add_tail_wf {h : Heap} {head : Ptr} {L : List Ptr} (hwf : WF h head L) {ele : Ptr}
    (h0 : ele ≠ 0) (hf : ele ∉ head :: L) : WF (list_add_tail h ele head) head (L ++ [ele]) := by
  rw [list_add_tail_eq]
  apply WF.of_flip
  simp only [Heap.flip_flip, List.reverse_append, List.reverse_cons, List.reverse_nil,
    List.nil_append, List.singleton_append]
  exact list_add_wf hwf.flip h0 (by simpa using hf)

@[simp] theorem list_add_value (h : Heap) (ele head : Ptr) :
    (list_add h ele head).value = h.value := by simp [list_add]
@[simp] theorem list_add_alloc (h : Heap) (ele head : Ptr) :
    (list_add h ele head).alloc = h.alloc := by simp [list_add]
@[simp] theorem list_add_tail_value (h : Heap) (ele head : Ptr) :
    (list_add_tail h ele head).value = h.value := by simp [list_add_tail]
@[simp] theorem list_add_tail_alloc (h : Heap) (ele head : Ptr) :
    (list_add_tail h ele head).alloc = h.alloc := by simp [list_add_tail]

/-- Two readings of the same well-formed queue give the same element sequence. -/
theorem dseg_unique {nxt prv : Ptr → Ptr} {b : Ptr} :
    ∀ (L L' : List Ptr) (a : Ptr), dseg nxt prv a L b → dseg nxt prv a L' b →
      b ∉ L → b ∉ L' → L = L'
  | [], [], _, _, _, _, _ => rfl
  | [], y :: L', a, h1, h2, _, hb' => by
    simp only [dseg] at h1 h2
    exact absurd (by rw [← h1.1, h2.1]; simp) hb'
  | x :: L, [], a, h1, h2, hb, _ => by
    simp only [dseg] at h1 h2
    exact absurd (by rw [← h2.1, h1.1]; simp) hb
  | x :: L, y :: L', a, h1, h2, hb, hb' => by
    simp only [dseg] at h1 h2
    have e : x = y := by rw [← h1.1, h2.1]
    subst e
    rw [dseg_unique L L' x h1.2.2 h2.2.2 (fun hm => hb (List.mem_cons_of_mem _ hm))
      (fun hm => hb' (List.mem_cons_of_mem _ hm))]

theorem WF.unique {h : Heap} {head : Ptr} {L L' : List Ptr} (h1 : WF h head L)
    (h2 : WF h head L') : L = L' :=
  dseg_unique L L' head h1.links h2.links (List.nodup_cons.1 h1.nodup).1
    (List.nodup_cons.1 h2.nodup).1

/-! ## Strings -/

theorem strncpyBytes_length : ∀ (n : Nat) (s : CStr), (strncpyBytes s n).length = n
  | 0, _ => rfl
  | n + 1, s => by
    unfold strncpyBytes
    split
    · simp
    · simp [strncpyBytes_length n]

theorem strncpyBytes_strlen : ∀ s : CStr,
    strncpyBytes s (strlen s + 1) = s.takeWhile (fun c => decide (c ≠ 0)) ++ [0]
  | [] => by simp [strlen, strncpyBytes]
  | c :: s => by
    by_cases hc : c = 0
    · simp [strlen, strncpyBytes, hc]
    · have := strncpyBytes_strlen s
      simp [strlen, strncpyBytes, hc, this]

theorem strncpy_strlen (buf s : CStr) (hlen : buf.length = strlen s + 1) :
    strncpy buf s (strlen s + 1) = s.takeWhile (fun c => decide (c ≠ 0)) ++ [0] := by
  rw [strncpy, strncpyBytes_strlen, List.drop_of_length_le (by omega)]
  simp

/-! ## Insertion and removal -/

theorem q_insert_head_spec {h : Heap} {head : Ptr} {L : List Ptr} (hwf : WF h head L)
    {ele : Ptr} (h0 : ele ≠ 0) (hf : ele ∉ head :: L) (s : CStr) (str : Option CStr) :
    WF (q_insert_head h head s ele str).1 head (ele :: L) ∧
    (q_insert_head h head s ele str).2 = str.isSome ∧
    (∀ x, x ≠ ele → (q_insert_head h head s ele str).1.value x = h.value x) ∧
    (∀ buf, str = some buf →
      (q_insert_head h head s ele str).1.value ele = strncpy buf s (strlen s + 1)) := by
  have hw := list_add_wf (h := h.malloc ele) (hwf.congr (by simp) (by simp)) h0 hf
  cases str with
  | none =>
    simp only [q_insert_head, if_neg hwf.head_ne, if_neg h0]
    exact ⟨hw, rfl, by simp, by simp⟩
  | some buf =>
    simp only [q_insert_head, if_neg hwf.head_ne, if_neg h0]
    refine ⟨hw.congr (by simp) (by simp), rfl, ?_, ?_⟩
    · intro x hx; simp [hx]
    · intro b hb; cases hb; simp

theorem q_insert_tail_spec {h : Heap} {head : Ptr} {L : List Ptr} (hwf : WF h head L)
    {ele : Ptr} (h0 : ele ≠ 0) (hf : ele ∉ head :: L) (s : CStr) (str : Option CStr) :
    WF (q_insert_tail h head s ele str).1 head (L ++ [ele]) ∧
    (q_insert_tail h head s ele str).2 = str.isSome ∧
    (∀ x, x ≠ ele → (q_insert_tail h head s ele str).1.value x = h.value x) ∧
    (∀ buf, str = some buf →
      (q_insert_tail h head s ele str).1.value ele = strncpy buf s (strlen s + 1)) := by
  have hw := list_add_tail_wf (h := h.malloc ele) (hwf.congr (by simp) (by simp)) h0 hf
  cases str with
  | none =>
    simp only [q_insert_tail, if_neg hwf.head_ne, if_neg h0]
    exact ⟨hw, rfl, by simp, by simp⟩
  | some buf =>
    simp only [q_insert_tail, if_neg hwf.head_ne, if_neg h0]
    refine ⟨hw.congr (by simp) (by simp), rfl, ?_, ?_⟩
    · intro x hx; simp [hx]
    · intro b hb; cases hb; simp

theorem q_remove_head_nil {h : Heap} {head : Ptr} (hwf : WF h head []) (sp : Option CStr)
    (bufsize : Nat) : q_remove_head h head sp bufsize = (h, 0, sp) := by
  simp [q_remove_head, (hwf.list_empty_iff).2 rfl]

theorem q_remove_tail_nil {h : Heap} {head : Ptr} (hwf : WF h head []) (sp : Option CStr)
    (bufsize : Nat) : q_remove_tail h head sp bufsize = (h, 0, sp) := by
  simp [q_remove_tail, (hwf.list_empty_iff).2 rfl]

theorem q_remove_head_cons {h : Heap} {head x : Ptr} {L : List Ptr} (hwf : WF h head (x :: L))
    (sp : Option CStr) (bufsize : Nat) :
    q_remove_head h head sp bufsize =
      (list_del h x, x, sp.map fun buf => strncpy buf (h.value x) bufsize) := by
  have he : ¬ (list_empty h head = true) := fun e => by simpa using (hwf.list_empty_iff).1 e
  have hx : h.next head = x := hwf.links.1
  simp [q_remove_head, list_first_entry, hwf.head_ne, he, hx]

theorem q_remove_tail_concat {h : Heap} {head x : Ptr} {L : List Ptr}
    (hwf : WF h head (L ++ [x])) (sp : Option CStr) (bufsize : Nat) :
    q_remove_tail h head sp bufsize =
      (list_del h x, x, sp.map fun buf => strncpy buf (h.value x) bufsize) := by
  have he : ¬ (list_empty h head = true) := fun e => by simpa using (hwf.list_empty_iff).1 e
  have hx : h.prev head = x := by rw [hwf.prev_head]; simp
  simp [q_remove_tail, list_last_entry, hwf.head_ne, he, hx]

/-! ## Size -/

theorem q_size_loop_spec (h : Heap) (head : Ptr) :
    ∀ (L : List Ptr) (a : Ptr) (num fuel : Nat), dseg h.next h.prev a L head → head ∉ L →
      L.length < fuel → q_size_loop fuel h head (h.next a) num = some (num + L.length)
  | [], a, num, fuel + 1, hd, _, _ => by
    simp only [dseg] at hd
    simp [q_size_loop, hd.1]
  | x :: L, a, num, fuel + 1, hd, hh, hf => by
    simp only [dseg] at hd
    have hx : x ≠ head := fun e => hh (by simp [e])
    have := q_size_loop_spec h head L x (num + 1) fuel hd.2.2
      (fun hm => hh (List.mem_cons_of_mem _ hm)) (by simpa using hf)
    simp only [q_size_loop, hd.1, ne_eq, hx, not_false_eq_true, if_true, this, List.length_cons]
    congr 1; omega

theorem q_size_spec {h : Heap} {head : Ptr} {L : List Ptr} (hwf : WF h head L) {fuel : Nat}
    (hf : L.length < fuel) : q_size fuel h head = some L.length := by
  by_cases hL : L = []
  · subst hL
    simp [q_size, (hwf.list_empty_iff).2 rfl]
  · have he : ¬ (list_empty h head = true) := fun e => hL ((hwf.list_empty_iff).1 e)
    have := q_size_loop_spec h head L head 0 fuel hwf.links (List.nodup_cons.1 hwf.nodup).1 hf
    simp [q_size, hwf.head_ne, he, this]

theorem q_size_null (fuel : Nat) (h : Heap) : q_size fuel h 0 = some 0 := by
  simp [q_size]

theorem q_new_wf (h : Heap) {head : Ptr} (h0 : head ≠ 0) :
    (q_new h head).2 = head ∧ WF (q_new h head).1 head [] := by
  simp only [q_new, if_neg h0, true_and]
  exact ⟨h0, by simp, by simp, by simp [dseg, INIT_LIST_HEAD]⟩

/-! ## Singly-linked segments -/

theorem Heap.ext' {h h' : Heap} (hn : ∀ x, h.next x = h'.next x) (hp : ∀ x, h.prev x = h'.prev x)
    (hv : ∀ x, h.value x = h'.value x) (ha : ∀ x, h.alloc x = h'.alloc x)
    (ho : ∀ x, h.hasValue x = h'.hasValue x) : h = h' := by
  cases h; cases h'
  simp only [Heap.mk.injEq]
  exact ⟨funext hn, funext hp, funext hv, funext ha, funext ho⟩

theorem lseg_congr {f g : Ptr → Ptr} :
    ∀ (L : List Ptr) (p b : Ptr), (∀ x ∈ L, g x = f x) → lseg f p L b → lseg g p L b
  | [], _, _, _, hl => hl
  | x :: L, p, b, hn, hl => by
    simp only [lseg] at hl ⊢
    refine ⟨hl.1, ?_⟩
    rw [hn x (by simp)]
    exact lseg_congr L _ b (fun y hy => hn y (List.mem_cons_of_mem _ hy)) hl.2

theorem lseg_append {nxt : Ptr → Ptr} :
    ∀ (L : List Ptr) (p : Ptr) (M : List Ptr) (b : Ptr),
      lseg nxt p (L ++ M) b ↔ ∃ m, lseg nxt p L m ∧ lseg nxt m M b
  | [], p, M, b => by simp [lseg]
  | x :: L, p, M, b => by
    rw [List.cons_append]
    simp only [lseg, lseg_append L (nxt x) M b]
    constructor
    · rintro ⟨hp, m, h1, h2⟩; exact ⟨m, ⟨hp, h1⟩, h2⟩
    · rintro ⟨m, ⟨hp, h1⟩, h2⟩; exact ⟨hp, m, h1, h2⟩

theorem dseg_lseg {nxt prv : Ptr → Ptr} :
    ∀ (L : List Ptr) (a b : Ptr), dseg nxt prv a L b → lseg nxt (nxt a) L b
  | [], _, _, hd => hd.1
  | x :: L, _, b, hd => ⟨hd.1, dseg_lseg L x b hd.2.2⟩

theorem lseg_unique {nxt : Ptr → Ptr} {b : Ptr} :
    ∀ (L L' : List Ptr) (p : Ptr), lseg nxt p L b → lseg nxt p L' b → b ∉ L → b ∉ L' → L = L'
  | [], [], _, _, _, _, _ => rfl
  | [], y :: L', p, h1, h2, _, hb' => by
    simp only [lseg] at h1 h2
    exact absurd (by rw [← h1, h2.1]; simp) hb'
  | x :: L, [], p, h1, h2, hb, _ => by
    simp only [lseg] at h1 h2
    exact absurd (by rw [← h2, h1.1]; simp) hb
  | x :: L, y :: L', p, h1, h2, hb, hb' => by
    simp only [lseg] at h1 h2
    have e : x = y := by rw [← h1.1, h2.1]
    subst e
    rw [lseg_unique L L' _ h1.2 h2.2 (fun hm => hb (List.mem_cons_of_mem _ hm))
      (fun hm => hb' (List.mem_cons_of_mem _ hm))]

/-! ## Reverse -/

@[simp] theorem Heap.flipOn_value (h : Heap) (S : List Ptr) : (h.flipOn S).value = h.value := rfl
@[simp] theorem Heap.flipOn_alloc (h : Heap) (S : List Ptr) : (h.flipOn S).alloc = h.alloc := rfl
@[simp] theorem Heap.flipOn_hasValue (h : Heap) (S : List Ptr) :
    (h.flipOn S).hasValue = h.hasValue := rfl
theorem Heap.flipOn_next (h : Heap) (S : List Ptr) (x : Ptr) :
    (h.flipOn S).next x = if x ∈ S then h.prev x else h.next x := rfl
theorem Heap.flipOn_prev (h : Heap) (S : List Ptr) (x : Ptr) :
    (h.flipOn S).prev x = if x ∈ S then h.next x else h.prev x := rfl

theorem q_reverse_loop_spec (head : Ptr) :
    ∀ (R : List Ptr) (node : Ptr) (h : Heap) (fuel : Nat),
      lseg h.next (h.next node) R head → (node :: R).Nodup → head ∉ R → R.length < fuel →
      q_reverse_loop fuel h head node = some (h.flipOn (node :: R))
  | [], node, h, fuel + 1, hl, _, _, _ => by
    simp only [lseg] at hl
    simp only [q_reverse_loop, Heap.setPrev_prev, if_true, hl, ne_eq, not_true_eq_false, if_false,
      Option.some.injEq]
    apply Heap.ext' <;> intro x <;> by_cases hx : x = node <;>
      simp [Heap.flipOn_next, Heap.flipOn_prev, hx, hl]
  | y :: R, node, h, fuel + 1, hl, hnd, hh, hf => by
    simp only [lseg] at hl
    obtain ⟨e, hl2⟩ := hl
    subst e
    have hy : h.next node ≠ head := fun e => hh (by simp [e])
    have hny : node ≠ h.next node := fun e => by
      have := (List.nodup_cons.1 hnd).1
      rw [← e] at this
      simp at this
    have hnR : node ∉ R := fun hm => by simp [hm] at hnd
    have key := q_reverse_loop_spec head R (h.next node)
      ((h.setNext node (h.prev node)).setPrev node (h.next node)) fuel
      (by
        refine lseg_congr (f := h.next) R _ head ?_ ?_
        · intro x hx
          have : x ≠ node := fun e => hnR (e ▸ hx)
          simp [this]
        · simpa [Ne.symm hny] using hl2)
      (List.nodup_cons.1 hnd).2 (fun hm => hh (List.mem_cons_of_mem _ hm)) (by simpa using hf)
    simp only [q_reverse_loop, Heap.setPrev_prev, if_true, ne_eq]
    rw [if_pos hy, key]
    congr 1
    apply Heap.ext' <;> intro x <;> by_cases hx : x = node <;>
      simp [Heap.flipOn_next, Heap.flipOn_prev, hx, hny, hnR]

theorem WF.flipOn {h : Heap} {head : Ptr} {L : List Ptr} (hwf : WF h head L) :
    WF (h.flipOn (head :: L)) head L.reverse := by
  refine hwf.flip.congr ?_ ?_
  · intro x hx
    have : x ∈ head :: L := by simpa using hx
    simp [Heap.flipOn_next, this]
  · intro x hx
    have : x ∈ head :: L := by simpa using hx
    simp [Heap.flipOn_prev, this]

theorem q_reverse_spec {h : Heap} {head : Ptr} {L : List Ptr} (hwf : WF h head L) {fuel : Nat}
    (hf : L.length < fuel) : q_reverse fuel h head = some (h.flipOn (head :: L)) := by
  by_cases hL : L = []
  · subst hL
    have hn := hwf.links
    simp only [dseg] at hn
    simp only [q_reverse, (hwf.list_empty_iff).2 rfl, or_true, if_true, Option.some.injEq]
    apply Heap.ext' <;> intro x <;> by_cases hx : x = head <;>
      simp [Heap.flipOn_next, Heap.flipOn_prev, hx, hn.1, hn.2]
  · have he : ¬ (list_empty h head = true) := fun e => hL ((hwf.list_empty_iff).1 e)
    simp only [q_reverse, hwf.head_ne, he, or_self, if_false]
    exact q_reverse_loop_spec head L head h fuel (dseg_lseg L head head hwf.links) hwf.nodup
      (List.nodup_cons.1 hwf.nodup).1 hf

theorem Heap.flipOn_flipOn (h : Heap) {S T : List Ptr} (hST : ∀ x, x ∈ T ↔ x ∈ S) :
    (h.flipOn S).flipOn T = h := by
  apply Heap.ext' <;> intro x <;> by_cases hx : x ∈ S <;>
    simp [Heap.flipOn_next, Heap.flipOn_prev, hx, hST]

theorem q_reverse_null (fuel : Nat) (h : Heap) : q_reverse fuel h 0 = some h := by
  simp [q_reverse]

theorem q_reverse_nil {h : Heap} {head : Ptr} (hwf : WF h head []) (fuel : Nat) :
    q_reverse fuel h head = some h := by
  simp [q_reverse, (hwf.list_empty_iff).2 rfl]

/-! ## Pairwise swap -/

@[simp] theorem swapPairs_nil : swapPairs [] = [] := rfl
@[simp] theorem swapPairs_single (a : Ptr) : swapPairs [a] = [a] := rfl
@[simp] theorem swapPairs_cons_cons (a b : Ptr) (L : List Ptr) :
    swapPairs (a :: b :: L) = b :: a :: swapPairs L := rfl

theorem swapPairs_perm : ∀ L : List Ptr, (swapPairs L).Perm L
  | [] => List.Perm.refl _
  | [_] => List.Perm.refl _
  | a :: b :: L => (List.Perm.swap a b _).trans (((swapPairs_perm L).cons b).cons a)

theorem swapPairs_length (L : List Ptr) : (swapPairs L).length = L.length :=
  (swapPairs_perm L).length_eq

theorem mem_swapPairs {L : List Ptr} {x : Ptr} : x ∈ swapPairs L ↔ x ∈ L :=
  (swapPairs_perm L).mem_iff

/-- One iteration of the loop of `q_swap` on `P → a → b → c`. -/
theorem q_swap_loop_step (fuel : Nat) (h : Heap) (head P a b : Ptr) (hP : h.next P = a)
    (ha : h.next a = b) (hah : a ≠ head) (hbh : b ≠ head) (hPa : P ≠ a) (hPb : P ≠ b)
    (hab : a ≠ b) :
    q_swap_loop (fuel + 1) h head P =
      q_swap_loop fuel ((((((h.setNext a (h.next b)).setPrev b (h.prev a)).setPrev a b).setPrev
        (h.next b) a).setNext b a).setNext P b) head a := by
  subst hP
  subst ha
  simp [q_swap_loop, hah, hbh, hPa, hPb, hab, Ne.symm hab, Ne.symm hPb]

theorem q_swap_loop_spec (head : Ptr) :
    ∀ (R : List Ptr) (P : Ptr) (h : Heap) (fuel : Nat),
      dseg h.next h.prev P R head → (P :: R).Nodup → head ∉ R → R.length < fuel →
      ∃ h', q_swap_loop fuel h head P = some h' ∧ dseg h'.next h'.prev P (swapPairs R) head ∧
        (∀ x, x ∉ P :: R → h'.next x = h.next x) ∧
        (∀ x, x ∉ R ++ [head] → h'.prev x = h.prev x) ∧
        h'.value = h.value ∧ h'.alloc = h.alloc
  | [], P, h, fuel + 1, hd, _, _, _ => by
    refine ⟨h, ?_, hd, fun _ _ => rfl, fun _ _ => rfl, rfl, rfl⟩
    simp only [dseg] at hd
    simp [q_swap_loop, hd.1]
  | [a], P, h, fuel + 1, hd, _, hh, _ => by
    refine ⟨h, ?_, hd, fun _ _ => rfl, fun _ _ => rfl, rfl, rfl⟩
    simp only [dseg] at hd
    simp [q_swap_loop, hd.1, hd.2.2.1]
  | a :: b :: R, P, h, fuel + 1, hd, hnd, hh, hf => by
    simp only [dseg] at hd
    obtain ⟨h1, h2, h3, h4, h5⟩ := hd
    have hah : a ≠ head := fun e => hh (by simp [e])
    have hbh : b ≠ head := fun e => hh (by simp [e])
    have hPa : P ≠ a := fun e => by simp [e] at hnd
    have hPb : P ≠ b := fun e => by simp [e] at hnd
    have hab : a ≠ b := fun e => by simp [e] at hnd
    have hPR : P ∉ R := fun hm => by simp [hm] at hnd
    have haR : a ∉ R := fun hm => by simp [hm] at hnd
    have hbR : b ∉ R := fun hm => by simp [hm] at hnd
    have hhR : head ∉ R := fun hm => hh (by simp [hm])
    have hRnd : R.Nodup := by simp only [List.nodup_cons] at hnd; exact hnd.2.2.2
    have hc : h.next b ∈ R ++ [head] := dseg_next_mem R b head h5
    have hca : h.next b ≠ a := fun e => by rw [e] at hc; simp [haR, hah] at hc
    have hcb : h.next b ≠ b := fun e => by rw [e] at hc; simp [hbR, hbh] at hc
    rw [q_swap_loop_step fuel h head P a b h1 h3 hah hbh hPa hPb hab]
    have hd6 : dseg ((((((h.setNext a (h.next b)).setPrev b (h.prev a)).setPrev a b).setPrev
        (h.next b) a).setNext b a).setNext P b).next
        ((((((h.setNext a (h.next b)).setPrev b (h.prev a)).setPrev a b).setPrev
        (h.next b) a).setNext b a).setNext P b).prev a R head := by
      cases R with
      | nil =>
        simp only [dseg] at h5 ⊢
        simp [h5.1, hPa, hPb, hab, Ne.symm hPa]
      | cons c R =>
        simp only [dseg] at h5 ⊢
        obtain ⟨h6, h7, h8⟩ := h5
        refine ⟨by simp [h6, hPa, hPb, hab, Ne.symm hPa], by simp [h6], ?_⟩
        refine dseg_congr R c head ?_ ?_ h8
        · intro x hx
          have x1 : x ≠ P := fun e => hPR (e ▸ hx)
          have x2 : x ≠ a := fun e => haR (e ▸ hx)
          have x3 : x ≠ b := fun e => hbR (e ▸ hx)
          simp [x1, x2, x3]
        · intro x hx
          have x1 : x ≠ c := fun e => by
            rw [e] at hx; simp at hRnd; simp [hRnd.1] at hx; exact hhR (by simp [hx])
          have x2 : x ≠ a := fun e => by rw [e] at hx; simp [hah] at hx; exact haR (by simp [hx])
          have x3 : x ≠ b := fun e => by rw [e] at hx; simp [hbh] at hx; exact hbR (by simp [hx])
          simp [h6, x1, x2, x3]
    obtain ⟨h', e1, e2, e3, e4, e5, e6⟩ := q_swap_loop_spec head R a _ fuel hd6
      (List.nodup_cons.2 ⟨haR, hRnd⟩) hhR (by simp at hf; omega)
    refine ⟨h', e1, ?_, ?_, ?_, by rw [e5]; rfl, by rw [e6]; rfl⟩
    · simp only [swapPairs_cons_cons, dseg]
      refine ⟨?_, ?_, ?_, ?_, e2⟩
      · rw [e3 P (by simp [hPa, hPR])]; simp
      · rw [e4 b (by simp [hbR, hbh])]; simp [Ne.symm hcb, Ne.symm hab, h2]
      · rw [e3 b (by simp [Ne.symm hab, hbR])]; simp [Ne.symm hPb]
      · rw [e4 a (by simp [haR, hah])]; simp [Ne.symm hca]
    · intro x hx
      simp only [List.mem_cons, not_or] at hx
      rw [e3 x (by simp [hx.2.1, hx.2.2.2])]
      simp [hx.1, hx.2.1, hx.2.2.1]
    · intro x hx
      simp only [List.cons_append, List.mem_cons, List.mem_append, List.mem_singleton, not_or] at hx
      rw [e4 x (by simp [hx.2.2.1, hx.2.2.2])]
      have x1 : x ≠ h.next b := fun e => by
        rw [← e] at hc; simp [hx.2.2.1, hx.2.2.2] at hc
      simp [hx.1, hx.2.1, x1]

theorem q_swap_spec {h : Heap} {head : Ptr} {L : List Ptr} (hwf : WF h head L) {fuel : Nat}
    (hf : L.length < fuel) :
    ∃ h', q_swap fuel h head = some h' ∧ WF h' head (swapPairs L) ∧
      h'.value = h.value ∧ h'.alloc = h.alloc ∧
      (∀ x, x ∉ head :: L → h'.next x = h.next x ∧ h'.prev x = h.prev x) := by
  by_cases hL : L = []
  · subst hL
    exact ⟨h, by simp [q_swap, (hwf.list_empty_iff).2 rfl], hwf, rfl, rfl, fun _ _ => ⟨rfl, rfl⟩⟩
  · have he : ¬ (list_empty h head = true) := fun e => hL ((hwf.list_empty_iff).1 e)
    obtain ⟨h', e1, e2, e3, e4, e5, e6⟩ := q_swap_loop_spec head L head h fuel hwf.links
      hwf.nodup (List.nodup_cons.1 hwf.nodup).1 hf
    refine ⟨h', by simp [q_swap, hwf.head_ne, he, e1], ⟨hwf.head_ne, ?_, ?_, e2⟩, e5, e6, ?_⟩
    · simpa [mem_swapPairs] using hwf.nonnull
    · exact (List.Perm.nodup_iff ((swapPairs_perm L).cons head)).2 hwf.nodup
    · intro x hx
      exact ⟨e3 x hx, e4 x (by simp at hx ⊢; tauto)⟩

theorem q_swap_null (fuel : Nat) (h : Heap) : q_swap fuel h 0 = some h := by
  simp [q_swap]

theorem q_swap_short {h : Heap} {head : Ptr} {L : List Ptr} (hwf : WF h head L)
    (hL : L.length < 2) {fuel : Nat} (hf : 0 < fuel) : q_swap fuel h head = some h := by
  match L, hL, hwf with
  | [], _, hwf => simp [q_swap, (hwf.list_empty_iff).2 rfl]
  | [a], _, hwf =>
    have he : ¬ (list_empty h head = true) := fun e => by simpa using (hwf.list_empty_iff).1 e
    have hd := hwf.links
    simp only [dseg] at hd
    obtain ⟨n, rfl⟩ : ∃ n, fuel = n + 1 := ⟨fuel - 1, by omega⟩
    simp [q_swap, hwf.head_ne, he, q_swap_loop, hd.1, hd.2.2.1]

/-! ## Delete middle -/

theorem q_delete_mid_loop_spec (h : Heap) (head : Ptr) :
    ∀ (F A : List Ptr) (indir : Option Ptr) (fast : Ptr) (fuel : Nat),
      lseg h.next fast F head → head ∉ F → F.Nodup →
      (∀ y, F.getLast? = some y → h.prev head = y) →
      lseg h.next (h.next (q_delete_mid_deref h head indir)) A head →
      F.length / 2 < A.length → F.length / 2 < fuel →
      ∃ indir', q_delete_mid_loop fuel h head indir fast = some indir' ∧
        A.get? (F.length / 2) = some (h.next (q_delete_mid_deref h head indir'))
  | [], a :: A, indir, fast, fuel + 1, hF, _, _, _, hA, _, _ => by
    simp only [lseg] at hF hA
    exact ⟨indir, by simp [q_delete_mid_loop, hF], by simp [hA.1]⟩
  | [x], a :: A, indir, fast, fuel + 1, hF, _, _, hlast, hA, _, _ => by
    simp only [lseg] at hF hA
    have := hlast x rfl
    exact ⟨indir, by simp [q_delete_mid_loop, hF.1, this], by simp [hA.1]⟩
  | f1 :: f2 :: F, [], _, _, _, _, _, _, _, _, hlen, _ => by simp at hlen
  | f1 :: f2 :: F, a :: A, indir, fast, fuel + 1, hF, hh, hnd, hlast, hA, hlen, hfuel => by
    simp only [lseg] at hF hA
    obtain ⟨rfl, hf2, hF'⟩ := hF
    have h1 : fast ≠ head := fun e => hh (by simp [e])
    have h2 : fast ≠ h.prev head := by
      obtain ⟨y, hy⟩ : ∃ y, (f2 :: F).getLast? = some y :=
        ⟨(f2 :: F).getLast (by simp), List.getLast?_eq_getLast _ _⟩
      have hm := List.mem_of_getLast?_eq_some hy
      rw [hlast y (by rw [List.getLast?_cons_cons]; exact hy)]
      intro e
      rw [← e] at hm
      exact (List.nodup_cons.1 hnd).1 hm
    have hdiv : (fast :: f2 :: F).length / 2 = F.length / 2 + 1 := by
      simp only [List.length_cons]; omega
    obtain ⟨indir', e1, e2⟩ := q_delete_mid_loop_spec h head F A
      (some (q_delete_mid_deref h head indir)) (h.next (h.next fast)) fuel
      (by rw [hf2]; exact hF') (fun hm => hh (by simp [hm]))
      (List.nodup_cons.1 (List.nodup_cons.1 hnd).2).2
      (fun y hy => hlast y (by
        cases F with
        | nil => simp at hy
        | cons c F => simpa using hy))
      (by show lseg h.next (h.next (h.next (q_delete_mid_deref h head indir))) A head
          rw [hA.1]; exact hA.2)
      (by rw [hdiv] at hlen; simpa using hlen) (by rw [hdiv] at hfuel; omega)
    refine ⟨indir', ?_, ?_⟩
    · simp only [q_delete_mid_loop, ne_eq, h1, not_false_eq_true, h2, and_self, if_true]
      exact e1
    · rw [hdiv]; simpa using e2

theorem get?_split {L : List Ptr} {k : Nat} {x : Ptr} (hx : L.get? k = some x) :
    ∃ A B, L = A ++ x :: B ∧ A.length = k := by
  induction L generalizing k with
  | nil => simp at hx
  | cons a L ih =>
    cases k with
    | zero => simp at hx; exact ⟨[], L, by simp [hx], rfl⟩
    | succ k =>
      obtain ⟨A, B, e, hl⟩ := ih (by simpa using hx)
      exact ⟨a :: A, B, by simp [e], by simp [hl]⟩

theorem q_delete_mid_spec {h : Heap} {head : Ptr} {L : List Ptr} (hwf : WF h head L)
    (hL : L ≠ []) {fuel : Nat} (hf : L.length < fuel) :
    ∃ A x B, L = A ++ x :: B ∧ A.length = L.length / 2 ∧
      q_delete_mid fuel h head = some ((list_del h x).free x, true) ∧
      WF ((list_del h x).free x) head (A ++ B) := by
  have he : ¬ (list_empty h head = true) := fun e => hL ((hwf.list_empty_iff).1 e)
  have hl := dseg_lseg L head head hwf.links
  have hpos : 0 < L.length := List.length_pos.2 hL
  obtain ⟨indir', e1, e2⟩ := q_delete_mid_loop_spec h head L L none (h.next head) fuel hl
    (List.nodup_cons.1 hwf.nodup).1 (List.nodup_cons.1 hwf.nodup).2
    (fun y hy => by
      obtain ⟨G, rfl⟩ := List.getLast?_eq_some_iff.1 hy
      rw [hwf.prev_head]; simp)
    hl (by omega) (by omega)
  obtain ⟨A, B, e, hlen⟩ := get?_split e2
  refine ⟨A, _, B, e, hlen, ?_, ?_⟩
  · simp [q_delete_mid, hwf.head_ne, he, e1, q_release_element]
  · have : WF (list_del h (h.next (q_delete_mid_deref h head indir'))) head (A ++ B) :=
      WF.list_del (e ▸ hwf)
    exact this.congr (by simp) (by simp)

theorem q_delete_mid_null (fuel : Nat) (h : Heap) : q_delete_mid fuel h 0 = some (h, false) := by
  simp [q_delete_mid]

theorem q_delete_mid_nil {h : Heap} {head : Ptr} (hwf : WF h head []) (fuel : Nat) :
    q_delete_mid fuel h head = some (h, false) := by
  simp [q_delete_mid, (hwf.list_empty_iff).2 rfl]

/-! ## Delete duplicates -/

theorem dedupKeep_sublist (v : Ptr → CStr) :
    ∀ (L : List Ptr) (p : Option Ptr), (dedupKeep v p L).Sublist L
  | [], _ => List.Sublist.refl _
  | n :: L, p => by
    unfold dedupKeep
    split
    · exact (dedupKeep_sublist v L p).cons _
    · exact (dedupKeep_sublist v L (some n)).cons₂ _

theorem q_delete_dup_str_eq (h : Heap) (p : Option Ptr) :
    q_delete_dup_str h p = (match p with | none => [0] | some m => h.value m) := by
  cases p <;> rfl

theorem q_delete_dup_loop_spec (head : Ptr) :
    ∀ (R : List Ptr) (P : Ptr) (h : Heap) (p : Option Ptr) (fuel : Nat),
      dseg h.next h.prev P R head → (P :: R).Nodup → head ∉ R → R.length < fuel →
      ∃ h', q_delete_dup_loop fuel h head (h.next P) (h.next (h.next P)) p = some h' ∧
        dseg h'.next h'.prev P (dedupKeep h.value p R) head ∧
        (∀ x, x ∉ P :: R → h'.next x = h.next x) ∧
        (∀ x, x ∉ R ++ [head] → h'.prev x = h.prev x) ∧
        h'.value = h.value ∧
        (∀ x, h'.alloc x = if x ∈ R ∧ x ∉ dedupKeep h.value p R then false else h.alloc x)
  | [], P, h, p, fuel + 1, hd, _, _, _ => by
    refine ⟨h, ?_, hd, fun _ _ => rfl, fun _ _ => rfl, rfl, by simp⟩
    simp only [dseg] at hd
    simp [q_delete_dup_loop, hd.1]
  | a :: R, P, h, p, fuel + 1, hd, hnd, hh, hf => by
    have hd0 := hd
    simp only [dseg] at hd
    obtain ⟨h1, h2, h3⟩ := hd
    have hah : a ≠ head := fun e => hh (by simp [e])
    have hPa : P ≠ a := fun e => by simp [e] at hnd
    have hPR : P ∉ R := fun hm => by simp [hm] at hnd
    have haR : a ∉ R := fun hm => by simp [hm] at hnd
    have hhR : head ∉ R := fun hm => hh (by simp [hm])
    have hRnd : R.Nodup := by simp only [List.nodup_cons] at hnd; exact hnd.2.2
    have hc : h.next a ∈ R ++ [head] := dseg_next_mem R a head h3
    by_cases hcmp : strncmp (h.value a) (q_delete_dup_str h p) MAX_STR_SIZE = 0
    · -- the element is unlinked and released
      have hdel : dseg (list_del h a).next (list_del h a).prev P R head :=
        dseg_list_del h a R head [] P hd0 hnd hh
      have hnP : (list_del h a).next P = h.next a := by simp [list_del_next, h2]
      obtain ⟨h', e1, e2, e3, e4, e5, e6⟩ := q_delete_dup_loop_spec head R P
        (q_release_element (list_del h a) a) p fuel hdel (List.nodup_cons.2 ⟨hPR, hRnd⟩) hhR
        (by simp at hf; omega)
      have hv : (q_release_element (list_del h a) a).value = h.value := by
        simp [q_release_element]
      rw [hv] at e2 e6
      have hk : dedupKeep h.value p (a :: R) = dedupKeep h.value p R := by
        rw [q_delete_dup_str_eq] at hcmp
        simp only [dedupKeep]
        exact if_pos hcmp
      refine ⟨h', ?_, ?_, ?_, ?_, by rw [e5, hv], ?_⟩
      · simp only [q_delete_dup_loop, h1, ne_eq, hah, not_false_eq_true, if_true, hcmp]
        have : (q_release_element (list_del h a) a).next = (list_del h a).next := rfl
        rw [this] at e1
        rw [hnP] at e1
        exact e1
      · rw [hk]; exact e2
      · intro x hx
        simp only [List.mem_cons, not_or] at hx
        rw [e3 x (by simp [hx.1, hx.2.2])]
        show (list_del h a).next x = h.next x
        rw [list_del_next, h2, if_neg hx.1]
      · intro x hx
        simp only [List.cons_append, List.mem_cons, not_or] at hx
        rw [e4 x hx.2]
        show (list_del h a).prev x = h.prev x
        rw [list_del_prev, if_neg]
        intro e
        rw [← e] at hc
        exact hx.2 hc
      · intro x
        rw [e6 x, hk]
        have haK : a ∉ dedupKeep h.value p R := fun hm => haR ((dedupKeep_sublist _ R p).subset hm)
        by_cases hxa : x = a
        · subst hxa; simp [haR, haK, q_release_element]
        · simp [hxa, q_release_element]
    · -- the element is retained
      obtain ⟨h', e1, e2, e3, e4, e5, e6⟩ := q_delete_dup_loop_spec head R a h (some a) fuel h3
        (List.nodup_cons.2 ⟨haR, hRnd⟩) hhR (by simp at hf; omega)
      have hk : dedupKeep h.value p (a :: R) = a :: dedupKeep h.value (some a) R := by
        rw [q_delete_dup_str_eq] at hcmp
        simp only [dedupKeep]
        exact if_neg hcmp
      refine ⟨h', ?_, ?_, ?_, ?_, e5, ?_⟩
      · simp only [q_delete_dup_loop, h1, ne_eq, hah, not_false_eq_true, if_true, hcmp, if_false]
        exact e1
      · rw [hk]
        simp only [dseg]
        refine ⟨?_, ?_, e2⟩
        · rw [e3 P (by simp [hPa, hPR]), h1]
        · rw [e4 a (by simp [haR, hah]), h2]
      · intro x hx
        simp only [List.mem_cons, not_or] at hx
        exact e3 x (by simp [hx.2.1, hx.2.2])
      · intro x hx
        simp only [List.cons_append, List.mem_cons, not_or] at hx
        exact e4 x hx.2
      · intro x
        rw [e6 x, hk]
        by_cases hxa : x = a
        · subst hxa; simp [haR]
        · simp [hxa]

theorem q_delete_dup_spec {h : Heap} {head : Ptr} {L : List Ptr} (hwf : WF h head L)
    {fuel : Nat} (hf : L.length < fuel) :
    ∃ h', q_delete_dup fuel h head = some (h', true) ∧
      WF h' head (dedupKeep h.value none L) ∧ h'.value = h.value ∧
      (∀ x, h'.alloc x = if x ∈ L ∧ x ∉ dedupKeep h.value none L then false else h.alloc x) := by
  obtain ⟨h', e1, e2, _, _, e5, e6⟩ := q_delete_dup_loop_spec head L head h none fuel hwf.links
    hwf.nodup (List.nodup_cons.1 hwf.nodup).1 hf
  have hsub := dedupKeep_sublist h.value L none
  refine ⟨h', by simp [q_delete_dup, hwf.head_ne, e1], ⟨hwf.head_ne, ?_, ?_, e2⟩, e5, e6⟩
  · exact fun hm => hwf.nonnull (hsub.subset hm)
  · exact hwf.nodup.sublist (hsub.cons₂ head)

theorem q_delete_dup_null (fuel : Nat) (h : Heap) : q_delete_dup fuel h 0 = some (h, false) := by
  simp [q_delete_dup]

/-! ## The bounded comparison is a total preorder -/

theorem strncmp_neg : ∀ (n : Nat) (a b : CStr), strncmp b a n = - strncmp a b n
  | 0, _, _ => by simp [strncmp]
  | n + 1, a, b => by
    unfold strncmp
    by_cases h : a.headD 0 = b.headD 0
    · rw [h]
      simp only [ne_eq, not_true_eq_false, if_false]
      split
      · simp
      · exact strncmp_neg n a.tail b.tail
    · have h' : ¬ b.headD 0 = a.headD 0 := fun e => h e.symm
      simp only [ne_eq, h, h', not_false_eq_true, if_true]
      ring

theorem strncmp_self : ∀ (n : Nat) (a : CStr), strncmp a a n = 0
  | 0, _ => by simp [strncmp]
  | n + 1, a => by
    unfold strncmp
    simp only [ne_eq, not_true_eq_false, if_false]
    split
    · rfl
    · exact strncmp_self n a.tail

theorem strncmp_trans : ∀ (n : Nat) (a b c : CStr),
    strncmp a b n ≤ 0 → strncmp b c n ≤ 0 → strncmp a c n ≤ 0
  | 0, _, _, _, _, _ => by simp [strncmp]
  | n + 1, a, b, c, hab, hbc => by
    unfold strncmp at hab hbc ⊢
    by_cases h1 : a.headD 0 = b.headD 0 <;> by_cases h2 : b.headD 0 = c.headD 0
    · have hb : b.headD 0 = a.headD 0 := h1.symm
      have hc : c.headD 0 = a.headD 0 := (h1.trans h2).symm
      simp only [ne_eq, hb, hc, not_true_eq_false, if_false] at hab hbc ⊢
      by_cases h0 : a.headD 0 = 0
      · rw [if_pos h0]
      · simp only [h0, if_false] at hab hbc ⊢
        exact strncmp_trans n _ _ _ hab hbc
    · have h3 : ¬ a.headD 0 = c.headD 0 := fun e => h2 (h1 ▸ e)
      simp only [ne_eq, h2, h3, not_false_eq_true, if_true] at hbc ⊢
      rw [h1]; exact hbc
    · have h3 : ¬ a.headD 0 = c.headD 0 := fun e => h1 (e.trans h2.symm)
      simp only [ne_eq, h1, h3, not_false_eq_true, if_true] at hab ⊢
      rw [← h2]; exact hab
    · simp only [ne_eq, h1, h2, not_false_eq_true, if_true] at hab hbc
      have h3 : ¬ a.headD 0 = c.headD 0 := by
        intro e
        have : (a.headD 0 : Int) = c.headD 0 := by rw [e]
        omega
      simp only [ne_eq, h3, not_false_eq_true, if_true]
      omega

theorem valueLe_refl (v : Ptr → CStr) (a : Ptr) : valueLe v a a := by
  simp [valueLe, strncmp_self]

theorem valueLe_trans {v : Ptr → CStr} {a b c : Ptr} (h1 : valueLe v a b) (h2 : valueLe v b c) :
    valueLe v a c :=
  strncmp_trans _ _ _ _ h1 h2

theorem valueLe_of_lt {v : Ptr → CStr} {a b : Ptr}
    (h : strncmp (v a) (v b) MAX_STR_SIZE < 0) : valueLe v a b :=
  le_of_lt h

theorem valueLe_of_not_lt {v : Ptr → CStr} {a b : Ptr}
    (h : ¬ strncmp (v a) (v b) MAX_STR_SIZE < 0) : valueLe v b a := by
  unfold valueLe
  rw [strncmp_neg]
  omega

/-! ## The merge order -/

@[simp] theorem mergeL_nil_left (v : Ptr → CStr) (B : List Ptr) : mergeL v [] B = B := by
  rw [mergeL]

@[simp] theorem mergeL_nil_right (v : Ptr → CStr) (A : List Ptr) : mergeL v A [] = A := by
  cases A <;> rw [mergeL]

theorem mergeL_cons_cons (v : Ptr → CStr) (a b : Ptr) (A B : List Ptr) :
    mergeL v (a :: A) (b :: B) =
      if strncmp (v a) (v b) MAX_STR_SIZE < 0 then a :: mergeL v A (b :: B)
      else b :: mergeL v (a :: A) B := by
  rw [mergeL]

theorem mergeL_perm (v : Ptr → CStr) :
    ∀ (n : Nat) (A B : List Ptr), A.length + B.length = n → (mergeL v A B).Perm (A ++ B)
  | _, [], B, _ => by simp
  | _, a :: A, [], _ => by simp
  | n + 1, a :: A, b :: B, hn => by
    rw [mergeL_cons_cons]
    split
    · exact (mergeL_perm v n A (b :: B) (by simp at hn ⊢; omega)).cons a
    · have := (mergeL_perm v n (a :: A) B (by simp at hn ⊢; omega)).cons b
      exact this.trans (List.perm_middle.symm)

theorem mergeL_sorted (v : Ptr → CStr) :
    ∀ (n : Nat) (A B : List Ptr), A.length + B.length = n →
      A.Pairwise (valueLe v) → B.Pairwise (valueLe v) → (mergeL v A B).Pairwise (valueLe v)
  | _, [], B, _, _, hB => by simpa using hB
  | _, a :: A, [], _, hA, _ => by simpa using hA
  | n + 1, a :: A, b :: B, hn, hA, hB => by
    rw [mergeL_cons_cons]
    split
    · rename_i hlt
      have ih := mergeL_sorted v n A (b :: B) (by simp at hn ⊢; omega) (List.pairwise_cons.1 hA).2 hB
      refine List.pairwise_cons.2 ⟨?_, ih⟩
      intro x hx
      have hx' := (mergeL_perm v n A (b :: B) (by simp at hn ⊢; omega)).mem_iff.1 hx
      rcases List.mem_append.1 hx' with hx' | hx'
      · exact (List.pairwise_cons.1 hA).1 x hx'
      · rcases List.mem_cons.1 hx' with rfl | hx'
        · exact valueLe_of_lt hlt
        · exact valueLe_trans (valueLe_of_lt hlt) ((List.pairwise_cons.1 hB).1 x hx')
    · rename_i hlt
      have ih := mergeL_sorted v n (a :: A) B (by simp at hn ⊢; omega) hA (List.pairwise_cons.1 hB).2
      refine List.pairwise_cons.2 ⟨?_, ih⟩
      intro x hx
      have hx' := (mergeL_perm v n (a :: A) B (by simp at hn ⊢; omega)).mem_iff.1 hx
      rcases List.mem_append.1 hx' with hx' | hx'
      · rcases List.mem_cons.1 hx' with rfl | hx'
        · exact valueLe_of_not_lt hlt
        · exact valueLe_trans (valueLe_of_not_lt hlt) ((List.pairwise_cons.1 hA).1 x hx')
      · exact (List.pairwise_cons.1 hB).1 x hx'

/-! ## `mergeTwoLists` -/

theorem lseg_head_ne {nxt : Ptr → Ptr} {p a : Ptr} {A : List Ptr}
    (hl : lseg nxt p (a :: A) 0) (h0 : 0 ∉ a :: A) : p = a ∧ p ≠ 0 := by
  refine ⟨hl.1, ?_⟩
  rw [hl.1]
  exact fun e => h0 (by simp [e])

/-- The final store of `mergeTwoLists` (`*ptr = l1 | l2` with one of them null). -/
theorem mergeTwoLists_store_spec (h : Heap) (head : Ptr) (ptr : Option Ptr) (r : Ptr)
    (M : List Ptr) (hl : lseg h.next r M 0) (hp : ∀ p, ptr = some p → p ∉ M) :
    lseg (mergeTwoLists_store h head ptr r).1.next r M 0 ∧
      (ptr = none → (mergeTwoLists_store h head ptr r).2 = r) ∧
      (∀ p, ptr = some p → (mergeTwoLists_store h head ptr r).2 = head ∧
        (mergeTwoLists_store h head ptr r).1.next p = r) ∧
      (∀ x, ptr ≠ some x → (mergeTwoLists_store h head ptr r).1.next x = h.next x) ∧
      (mergeTwoLists_store h head ptr r).1.prev = h.prev ∧
      (mergeTwoLists_store h head ptr r).1.value = h.value ∧
      (mergeTwoLists_store h head ptr r).1.alloc = h.alloc := by
  cases ptr with
  | none => simp [mergeTwoLists_store, hl]
  | some p =>
    simp only [mergeTwoLists_store, Heap.setNext_prev, Heap.setNext_value, Heap.setNext_alloc,
      and_true]
    refine ⟨?_, by simp, by simp, ?_⟩
    · refine lseg_congr (f := h.next) M r 0 ?_ hl
      intro x hx
      have : x ≠ p := fun e => hp p rfl (e ▸ hx)
      simp [this]
    · intro x hx
      have : x ≠ p := fun e => hx (by rw [e])
      simp [this]

/-- The store `*ptr = v` of `mergeTwoLists`, read back through `ptr`. -/
theorem mergeTwoLists_store_props (h : Heap) (head : Ptr) (ptr : Option Ptr) (v : Ptr) :
    mergeTwoLists_load (mergeTwoLists_store h head ptr v).1 (mergeTwoLists_store h head ptr v).2
        ptr = v ∧
      (ptr = none → (mergeTwoLists_store h head ptr v).2 = v) ∧
      (∀ p, ptr = some p → (mergeTwoLists_store h head ptr v).2 = head ∧
        (mergeTwoLists_store h head ptr v).1.next p = v) ∧
      (∀ x, ptr ≠ some x → (mergeTwoLists_store h head ptr v).1.next x = h.next x) ∧
      (mergeTwoLists_store h head ptr v).1.prev = h.prev ∧
      (mergeTwoLists_store h head ptr v).1.value = h.value ∧
      (mergeTwoLists_store h head ptr v).1.alloc = h.alloc := by
  cases ptr with
  | none => simp [mergeTwoLists_store, mergeTwoLists_load]
  | some p =>
    simp only [mergeTwoLists_store, mergeTwoLists_load, Heap.setNext_prev, Heap.setNext_value,
      Heap.setNext_alloc, and_true]
    refine ⟨by simp, by simp, by simp, ?_⟩
    intro x hx
    have : x ≠ p := fun e => hx (by rw [e])
    simp [this]

theorem mergeTwoLists_loop_spec :
    ∀ (n : Nat) (A B : List Ptr) (h : Heap) (l1 l2 head : Ptr) (ptr : Option Ptr) (fuel : Nat),
      A.length + B.length = n →
      lseg h.next l1 A 0 → lseg h.next l2 B 0 → 0 ∉ A → 0 ∉ B → (A ++ B).Nodup →
      (∀ p, ptr = some p → p ∉ A ++ B) → n < fuel →
      ∃ h' out r, mergeTwoLists_loop fuel h l1 l2 head ptr = some (h', out) ∧
        lseg h'.next r (mergeL h.value A B) 0 ∧
        (ptr = none → out = r) ∧ (∀ p, ptr = some p → out = head ∧ h'.next p = r) ∧
        (∀ x, x ∉ A ++ B → ptr ≠ some x → h'.next x = h.next x) ∧
        h'.prev = h.prev ∧ h'.value = h.value ∧ h'.alloc = h.alloc
  | _, [], B, h, l1, l2, head, ptr, fuel + 1, _, hA, hB, _, _, _, hp, _ => by
    simp only [lseg] at hA
    subst hA
    obtain ⟨s1, s2, s3, s4, s5, s6, s7⟩ := mergeTwoLists_store_spec h head ptr l2 B hB
      (fun p e => by simpa using hp p e)
    refine ⟨_, _, l2, ?_, by simpa using s1, s2, s3, fun x _ hx => s4 x hx, s5, s6, s7⟩
    simp [mergeTwoLists_loop]
  | _, a :: A, [], h, l1, l2, head, ptr, fuel + 1, _, hA, hB, _, _, _, hp, _ => by
    simp only [lseg] at hB
    subst hB
    obtain ⟨s1, s2, s3, s4, s5, s6, s7⟩ := mergeTwoLists_store_spec h head ptr l1 (a :: A) hA
      (fun p e => by simpa using hp p e)
    refine ⟨_, _, l1, ?_, by simpa using s1, s2, s3, fun x _ hx => s4 x hx, s5, s6, s7⟩
    simp [mergeTwoLists_loop]
  | n + 1, a :: A, b :: B, h, l1, l2, head, ptr, fuel + 1, hn, hA, hB, hA0, hB0, hnd, hp, hf => by
    obtain ⟨e1, n1⟩ := lseg_head_ne hA hA0
    obtain ⟨e2, n2⟩ := lseg_head_ne hB hB0
    subst e1
    subst e2
    have hA' : lseg h.next (h.next l1) A 0 := hA.2
    have hB' : lseg h.next (h.next l2) B 0 := hB.2
    have hpa : ptr ≠ some l1 := fun e => hp l1 e (by simp)
    have hpb : ptr ≠ some l2 := fun e => hp l2 e (by simp)
    have hab : l1 ≠ l2 := fun e => by
      rw [e] at hnd
      simp at hnd
    have hnd1 : (A ++ l2 :: B).Nodup := by
      rw [List.cons_append] at hnd; exact (List.nodup_cons.1 hnd).2
    have hl1 : l1 ∉ A ++ l2 :: B := by
      rw [List.cons_append] at hnd; exact (List.nodup_cons.1 hnd).1
    have hnd2 : (l1 :: A ++ B).Nodup :=
      hnd.sublist (List.Sublist.append (List.Sublist.refl _) (List.sublist_cons_self _ _))
    have hl2 : l2 ∉ l1 :: A ++ B := by
      intro hm
      have h3 := List.nodup_append.1 hnd
      rcases List.mem_append.1 hm with hm | hm
      · exact h3.2.2 hm (by simp) 
      · exact (List.nodup_cons.1 h3.2.1).1 hm
    have hsub : (l1 :: A ++ B).Sublist (l1 :: A ++ l2 :: B) :=
      List.Sublist.append (List.Sublist.refl _) (List.sublist_cons_self _ _)
    have hmem2 : l2 ∈ l1 :: A ++ l2 :: B :=
      List.mem_append_right _ (List.mem_cons_self _ _)
    rw [mergeL_cons_cons]
    by_cases hlt : strncmp (h.value l1) (h.value l2) MAX_STR_SIZE < 0
    · -- the head of `l1` is emitted
      obtain ⟨s1, s2, s3, s4, s5, s6, s7⟩ := mergeTwoLists_store_props h head ptr l1
      have hn1 : (mergeTwoLists_store h head ptr l1).1.next l1 = h.next l1 := s4 l1 hpa
      obtain ⟨h', out, r', i1, i2, _, i4, i5, i6, i7, i8⟩ := mergeTwoLists_loop_spec n A (l2 :: B)
        (mergeTwoLists_store h head ptr l1).1 (h.next l1) l2 (mergeTwoLists_store h head ptr l1).2
        (some l1) fuel (by simp at hn ⊢; omega)
        (lseg_congr (f := h.next) A _ 0 (fun x hx => s4 x (fun e => hp x e (by simp [hx]))) hA')
        (lseg_congr (f := h.next) (l2 :: B) _ 0
          (fun x hx => s4 x (fun e => hp x e (List.mem_append_right _ hx))) hB)
        (fun hm => hA0 (by simp [hm])) hB0 hnd1 (fun p e => by cases e; exact hl1) (by omega)
      rw [s6] at i2
      refine ⟨h', out, l1, ?_, ?_, ?_, ?_, ?_, i6.trans s5, i7.trans s6, i8.trans s7⟩
      · simp only [mergeTwoLists_loop, ne_eq, n1, not_false_eq_true, n2, and_self, if_true, hlt]
        rw [hn1, s1]
        exact i1
      · rw [if_pos hlt]
        exact ⟨rfl, by rw [(i4 l1 rfl).2]; exact i2⟩
      · intro e
        rw [(i4 l1 rfl).1]
        exact s2 e
      · intro p e
        rw [(i4 l1 rfl).1]
        refine ⟨(s3 p e).1, ?_⟩
        have hpm := hp p e
        have q1 : p ∉ A ++ l2 :: B := fun hm => hpm (List.mem_cons_of_mem _ hm)
        have q2 : some l1 ≠ some p := fun e' => hpm (by
          rw [← Option.some.inj e']; exact List.mem_cons_self _ _)
        rw [i5 p q1 q2]
        exact (s3 p e).2
      · intro x hx hpx
        have q1 : x ∉ A ++ l2 :: B := fun hm => hx (List.mem_cons_of_mem _ hm)
        have q2 : some l1 ≠ some x := fun e' => hx (by
          rw [← Option.some.inj e']; exact List.mem_cons_self _ _)
        rw [i5 x q1 q2]
        exact s4 x hpx
    · -- the head of `l2` is emitted
      obtain ⟨s1, s2, s3, s4, s5, s6, s7⟩ := mergeTwoLists_store_props h head ptr l2
      have hn1 : (mergeTwoLists_store h head ptr l2).1.next l2 = h.next l2 := s4 l2 hpb
      obtain ⟨h', out, r', i1, i2, _, i4, i5, i6, i7, i8⟩ := mergeTwoLists_loop_spec n (l1 :: A) B
        (mergeTwoLists_store h head ptr l2).1 l1 (h.next l2) (mergeTwoLists_store h head ptr l2).2
        (some l2) fuel (by simp at hn ⊢; omega)
        (lseg_congr (f := h.next) (l1 :: A) _ 0
          (fun x hx => s4 x (fun e => hp x e (List.mem_append_left _ hx))) hA)
        (lseg_congr (f := h.next) B _ 0
          (fun x hx => s4 x (fun e => hp x e (by simp [hx]))) hB')
        hA0 (fun hm => hB0 (by simp [hm])) hnd2 (fun p e => by cases e; exact hl2) (by omega)
      rw [s6] at i2
      refine ⟨h', out, l2, ?_, ?_, ?_, ?_, ?_, i6.trans s5, i7.trans s6, i8.trans s7⟩
      · simp only [mergeTwoLists_loop, ne_eq, n1, not_false_eq_true, n2, and_self, if_true, hlt,
          if_false]
        rw [hn1, s1]
        exact i1
      · rw [if_neg hlt]
        exact ⟨rfl, by rw [(i4 l2 rfl).2]; exact i2⟩
      · intro e
        rw [(i4 l2 rfl).1]
        exact s2 e
      · intro p e
        rw [(i4 l2 rfl).1]
        refine ⟨(s3 p e).1, ?_⟩
        have hpm := hp p e
        have q1 : p ∉ l1 :: A ++ B := fun hm => hpm (hsub.subset hm)
        have q2 : some l2 ≠ some p := fun e' => hpm (by
          rw [← Option.some.inj e']; exact hmem2)
        rw [i5 p q1 q2]
        exact (s3 p e).2
      · intro x hx hpx
        have q1 : x ∉ l1 :: A ++ B := fun hm => hx (hsub.subset hm)
        have q2 : some l2 ≠ some x := fun e' => hx (by
          rw [← Option.some.inj e']; exact hmem2)
        rw [i5 x q1 q2]
        exact s4 x hpx

theorem mergeTwoLists_spec {A B : List Ptr} {h : Heap} {l1 l2 : Ptr} {fuel : Nat}
    (hA : lseg h.next l1 A 0) (hB : lseg h.next l2 B 0) (hA0 : 0 ∉ A) (hB0 : 0 ∉ B)
    (hnd : (A ++ B).Nodup) (hf : A.length + B.length < fuel) :
    ∃ h' r, mergeTwoLists fuel h l1 l2 = some (h', r) ∧
      lseg h'.next r (mergeL h.value A B) 0 ∧
      (∀ x, x ∉ A ++ B → h'.next x = h.next x) ∧
      h'.prev = h.prev ∧ h'.value = h.value ∧ h'.alloc = h.alloc := by
  obtain ⟨h', out, r, i1, i2, i3, _, i5, i6, i7, i8⟩ := mergeTwoLists_loop_spec _ A B h l1 l2 0
    none fuel rfl hA hB hA0 hB0 hnd (by simp) hf
  refine ⟨h', r, ?_, i2, fun x hx => i5 x hx (by simp), i6, i7, i8⟩
  rw [mergeTwoLists, i1, i3 rfl]

/-! ## `mergesort` -/

theorem mergesort_loop_spec (h : Heap) :
    ∀ (F S : List Ptr) (slow fast : Ptr) (fuel : Nat),
      lseg h.next fast F 0 → 0 ∉ F → lseg h.next slow S 0 →
      F.length / 2 < S.length → F.length / 2 < fuel →
      ∃ slow', mergesort_loop fuel h slow fast = some slow' ∧ S.get? (F.length / 2) = some slow'
  | [], s :: S, slow, fast, fuel + 1, hF, _, hS, _, _ => by
    simp only [lseg] at hF hS
    exact ⟨slow, by simp [mergesort_loop, hF], by simp [hS.1]⟩
  | [x], s :: S, slow, fast, fuel + 1, hF, _, hS, _, _ => by
    simp only [lseg] at hF hS
    exact ⟨slow, by simp [mergesort_loop, hF.1, hF.2], by simp [hS.1]⟩
  | f1 :: f2 :: F, [], _, _, _, _, _, _, hlen, _ => by simp at hlen
  | f1 :: f2 :: F, s :: S, slow, fast, fuel + 1, hF, h0, hS, hlen, hfuel => by
    simp only [lseg] at hF hS
    obtain ⟨rfl, hf2, hF'⟩ := hF
    obtain ⟨rfl, hS'⟩ := hS
    have h1 : fast ≠ 0 := fun e => h0 (by simp [e])
    have h2 : h.next fast ≠ 0 := fun e => h0 (by rw [← hf2, e]; simp)
    have hdiv : (fast :: f2 :: F).length / 2 = F.length / 2 + 1 := by
      simp only [List.length_cons]; omega
    obtain ⟨slow', e1, e2⟩ := mergesort_loop_spec h F S (h.next slow) (h.next (h.next fast)) fuel
      (by rw [hf2]; exact hF') (fun hm => h0 (by simp [hm])) hS'
      (by rw [hdiv] at hlen; simpa using hlen) (by rw [hdiv] at hfuel; omega)
    refine ⟨slow', ?_, ?_⟩
    · simp only [mergesort_loop, ne_eq, h1, not_false_eq_true, h2, and_self, if_true]
      exact e1
    · rw [hdiv]; simpa using e2

theorem lseg_next_zero {nxt : Ptr → Ptr} {p a : Ptr} {A : List Ptr}
    (hl : lseg nxt p (a :: A) 0) (h0 : 0 ∉ a :: A) : nxt p = 0 ↔ A = [] := by
  have hp : p = a := hl.1
  have h2 : lseg nxt (nxt a) A 0 := hl.2
  rw [hp]
  cases A with
  | nil => simpa [lseg] using h2
  | cons b A =>
    simp only [lseg] at h2
    simp only [reduceCtorEq, iff_false]
    rw [h2.1]
    exact fun e => h0 (by simp [e])

/-- Specification of `mergesort` on a null-terminated chain: with enough fuel it returns a
null-terminated chain holding a sorted permutation of the same nodes, leaving every other
`next` field, and all `prev`, `value` and `alloc`, unchanged. -/
theorem mergesort_spec :
    ∀ (fuel : Nat) (L : List Ptr) (h : Heap) (head : Ptr),
      lseg h.next head L 0 → 0 ∉ L → L.Nodup → L.length + 2 ≤ fuel →
      ∃ h' r M, mergesort fuel h head = some (h', r) ∧ lseg h'.next r M 0 ∧ M.Perm L ∧
        M.Pairwise (valueLe h.value) ∧ (∀ x, x ∉ L → h'.next x = h.next x) ∧
        h'.prev = h.prev ∧ h'.value = h.value ∧ h'.alloc = h.alloc
  | 0, _, _, _, _, _, _, hf => by omega
  | fuel + 1, [], h, head, hl, _, _, _ => by
    simp only [lseg] at hl
    exact ⟨h, head, [], by simp [mergesort, hl], by simp [lseg, hl], List.Perm.refl _,
      List.Pairwise.nil, fun _ _ => rfl, rfl, rfl, rfl⟩
  | fuel + 1, [a], h, head, hl, h0, _, _ => by
    have hz := (lseg_next_zero hl h0).2 rfl
    exact ⟨h, head, [a], by simp [mergesort, hz], hl, List.Perm.refl _,
      List.pairwise_singleton _ _, fun _ _ => rfl, rfl, rfl, rfl⟩
  | fuel + 1, a :: b :: L, h, head, hl, h0, hnd, hf => by
    obtain ⟨ha, hne⟩ := lseg_head_ne hl h0
    have hnz : h.next head ≠ 0 := fun e => by simpa using (lseg_next_zero hl h0).1 e
    have hlt : lseg h.next (h.next head) (b :: L) 0 := by rw [ha]; exact hl.2
    -- the slow/fast traversal
    obtain ⟨slow, e1, e2⟩ := mergesort_loop_spec h (b :: L) (a :: b :: L) head (h.next head) fuel
      hlt (fun hm => h0 (List.mem_cons_of_mem _ hm)) hl
      (by simp only [List.length_cons]; omega) (by simp only [List.length_cons] at hf ⊢; omega)
    obtain ⟨L1, L2, eL, hlen⟩ := get?_split e2
    have hlen1 : (L1 ++ [slow]).length + 2 ≤ fuel := by
      have : (a :: b :: L).length = L1.length + 1 + L2.length := by rw [eL]; simp; omega
      simp only [List.length_cons] at hf hlen this
      simp only [List.length_append, List.length_singleton]
      omega
    have hlen2 : L2.length + 2 ≤ fuel := by
      have : (a :: b :: L).length = L1.length + 1 + L2.length := by rw [eL]; simp; omega
      simp only [List.length_cons] at hf this
      omega
    rw [eL] at hl h0 hnd
    have hnd' : (L1 ++ [slow] ++ L2).Nodup := by simpa using hnd
    have hdisj := (List.nodup_append.1 hnd').2.2
    have h01 : 0 ∉ L1 ++ [slow] := fun hm => h0 (by simp at hm ⊢; tauto)
    have h02 : 0 ∉ L2 := fun hm => h0 (by simp [hm])
    have hsl2 : slow ∉ L2 := fun hm => hdisj (by simp) hm
    have hsl1 : slow ∉ L1 := fun hm => by
      have := (List.nodup_append.1 (List.nodup_append.1 hnd').1).2.2
      exact this hm (by simp)
    -- cutting the chain after `slow`
    obtain ⟨m, hm1, hm2⟩ := (lseg_append L1 head (slow :: L2) 0).1 hl
    have hcut1 : lseg (h.setNext slow 0).next head (L1 ++ [slow]) 0 := by
      refine (lseg_append L1 head [slow] 0).2 ⟨m, ?_, ?_⟩
      · refine lseg_congr (f := h.next) L1 head m ?_ hm1
        intro x hx
        have : x ≠ slow := fun e => hsl1 (e ▸ hx)
        simp [this]
      · simp only [lseg] at hm2 ⊢
        exact ⟨hm2.1, by simp⟩
    have hcut2 : lseg (h.setNext slow 0).next (h.next slow) L2 0 := by
      refine lseg_congr (f := h.next) L2 _ 0 ?_ hm2.2
      intro x hx
      have : x ≠ slow := fun e => hsl2 (e ▸ hx)
      simp [this]
    -- the two recursive calls
    obtain ⟨h1, left, M1, a1, a2, a3, a4, a5, a6, a7, a8⟩ := mergesort_spec fuel (L1 ++ [slow])
      (h.setNext slow 0) head hcut1 h01 (List.nodup_append.1 hnd').1 hlen1
    have hr : lseg h1.next (h.next slow) L2 0 := by
      refine lseg_congr (f := (h.setNext slow 0).next) L2 _ 0 ?_ hcut2
      intro x hx
      exact a5 x (fun hm => hdisj hm hx)
    obtain ⟨h2, right, M2, b1, b2, b3, b4, b5, b6, b7, b8⟩ := mergesort_spec fuel L2 h1
      (h.next slow) hr h02 (List.nodup_append.1 hnd').2.1 hlen2
    have hl' : lseg h2.next left M1 0 := by
      refine lseg_congr (f := h1.next) M1 _ 0 ?_ a2
      intro x hx
      exact b5 x (fun hm => hdisj (a3.mem_iff.1 hx) hm)
    -- the merge
    have hMnd : (M1 ++ M2).Nodup := (List.Perm.nodup_iff (a3.append b3)).2 hnd'
    obtain ⟨h3, r, c1, c2, c3, c4, c5, c6⟩ := @mergeTwoLists_spec M1 M2 h2 left right fuel hl' b2
      (fun hm => h01 (a3.mem_iff.1 hm)) (fun hm => h02 (b3.mem_iff.1 hm)) hMnd
      (by
        rw [a3.length_eq, b3.length_eq]
        have : (a :: b :: L).length = L1.length + 1 + L2.length := by rw [eL]; simp; omega
        simp only [List.length_cons] at hf this
        simp only [List.length_append, List.length_singleton]
        omega)
    have hv2 : h2.value = h.value := by rw [b7, a7]; rfl
    have hperm : (mergeL h2.value M1 M2).Perm (L1 ++ slow :: L2) := by
      refine (mergeL_perm _ _ M1 M2 rfl).trans ?_
      have := a3.append b3
      simpa using this
    refine ⟨h3, r, mergeL h2.value M1 M2, ?_, c2, ?_, ?_, ?_, ?_, ?_, ?_⟩
    · simp only [mergesort, hne, hnz, or_self, if_false, e1, a1, b1]
      exact c1
    · rw [eL]; exact hperm
    · rw [hv2]
      have a4' : M1.Pairwise (valueLe h.value) := a4
      have b4' : M2.Pairwise (valueLe h.value) := by rw [a7] at b4; exact b4
      exact mergeL_sorted _ _ M1 M2 rfl a4' b4'
    · intro x hx
      rw [eL] at hx
      have x1 : x ∉ M1 ++ M2 := fun hm => hx (by
        have := (a3.append b3).mem_iff.1 hm
        simpa using this)
      have x2 : x ∉ L2 := fun hm => hx (by simp [hm])
      have x3 : x ∉ L1 ++ [slow] := fun hm => hx (by simp at hm ⊢; tauto)
      have x4 : x ≠ slow := fun e => hx (by simp [e])
      rw [c3 x x1, b5 x x2, a5 x x3]
      simp [x4]
    · rw [c4, b6, a6]; rfl
    · rw [c5, b7, a7]; rfl
    · rw [c6, b8, a8]; rfl

/-! ## `q_sort` -/

theorem q_sort_loop_spec :
    ∀ (M : List Ptr) (ptr : Ptr) (h : Heap) (fuel : Nat),
      lseg h.next (h.next ptr) M 0 → 0 ∉ M → (ptr :: M).Nodup → M.length < fuel →
      ∃ h', q_sort_loop fuel h ptr = some (h', (ptr :: M).getLast (by simp)) ∧
        h'.next = h.next ∧ (∀ x, x ∉ M → h'.prev x = h.prev x) ∧
        h'.value = h.value ∧ h'.alloc = h.alloc ∧
        (∀ L' b, M = L' ++ [b] → dseg h'.next h'.prev ptr L' b)
  | [], ptr, h, fuel + 1, hl, _, _, _ => by
    simp only [lseg] at hl
    exact ⟨h, by simp [q_sort_loop, hl], rfl, fun _ _ => rfl, rfl, rfl, by simp⟩
  | m :: M, ptr, h, fuel + 1, hl, h0, hnd, hf => by
    simp only [lseg] at hl
    obtain ⟨e, hl2⟩ := hl
    have hm0 : m ≠ 0 := fun e => h0 (by simp [e])
    have hmM : m ∉ M := fun hm => by simp [hm] at hnd
    have hpm : ptr ≠ m := fun e => by simp [e] at hnd
    obtain ⟨h', i1, i2, i3, i4, i5, i6⟩ := q_sort_loop_spec M m (h.setPrev m ptr) fuel
      (by simpa using hl2) (fun hm => h0 (by simp [hm])) (List.nodup_cons.1 hnd).2
      (by simpa using hf)
    refine ⟨h', ?_, i2, ?_, i4, i5, ?_⟩
    · simp only [q_sort_loop, e, ne_eq, hm0, not_false_eq_true, if_true]
      rw [i1]
      simp [List.getLast_cons]
    · intro x hx
      simp only [List.mem_cons, not_or] at hx
      rw [i3 x hx.2]
      simp [hx.1]
    · intro L' b hL
      have hpm' : h'.prev m = ptr := by rw [i3 m hmM]; simp
      have hnp : h'.next ptr = m := by rw [i2]; exact e
      cases L' with
      | nil =>
        simp only [List.nil_append, List.cons.injEq] at hL
        obtain ⟨rfl, -⟩ := hL
        exact ⟨hnp, hpm'⟩
      | cons c L' =>
        simp only [List.cons_append, List.cons.injEq] at hL
        obtain ⟨rfl, hL⟩ := hL
        exact ⟨hnp, hpm', i6 L' b hL⟩

theorem q_sort_small {h : Heap} {head : Ptr} {L : List Ptr} (hwf : WF h head L)
    (hL : L.length ≤ 1) (fuel : Nat) : q_sort fuel h head = some h := by
  match L, hL, hwf with
  | [], _, hwf =>
    have := hwf.links
    simp only [dseg] at this
    simp [q_sort, this.1, this.2]
  | [a], _, hwf =>
    have := hwf.links
    simp only [dseg] at this
    simp [q_sort, this.1, this.2.2.2]

theorem q_sort_null (fuel : Nat) (h : Heap) : q_sort fuel h 0 = some h := by
  simp [q_sort]

/-- Specification of `q_sort`: with enough fuel it returns a well-formed queue holding a
permutation of the same nodes, pairwise ordered by the bounded comparison, with all payloads,
all allocation marks and every node outside the queue unchanged. -/
theorem q_sort_spec {h : Heap} {head : Ptr} {L : List Ptr} (hwf : WF h head L) {fuel : Nat}
    (hf : L.length + 2 ≤ fuel) :
    ∃ h' M, q_sort fuel h head = some h' ∧ WF h' head M ∧ M.Perm L ∧
      M.Pairwise (valueLe h.value) ∧ h'.value = h.value ∧ h'.alloc = h.alloc ∧
      (∀ x, x ∉ head :: L → h'.next x = h.next x ∧ h'.prev x = h.prev x) := by
  by_cases hsmall : L.length ≤ 1
  · refine ⟨h, L, q_sort_small hwf hsmall fuel, hwf, List.Perm.refl _, ?_, rfl, rfl,
      fun _ _ => ⟨rfl, rfl⟩⟩
    match L, hsmall with
    | [], _ => exact List.Pairwise.nil
    | [a], _ => exact List.pairwise_singleton _ _
  · -- at least two elements: `L = a :: (K ++ [z])`
    obtain ⟨a, K, z, rfl⟩ : ∃ a K z, L = a :: (K ++ [z]) := by
      match L, hsmall with
      | [], hs => simp at hs
      | [a], hs => simp at hs
      | a :: b :: L, _ =>
        rcases List.eq_nil_or_concat (b :: L) with e | ⟨K, z, e⟩
        · simp at e
        · exact ⟨a, K, z, by rw [e]; simp⟩
    have hnd := hwf.nodup
    have hhL : head ∉ a :: (K ++ [z]) := (List.nodup_cons.1 hnd).1
    have hLnd : (a :: (K ++ [z])).Nodup := (List.nodup_cons.1 hnd).2
    have hnext : h.next head = a := hwf.links.1
    have hprev : h.prev head = z := by
      rw [hwf.prev_head]
      simp [List.getLast_cons]
    have haz : a ≠ z := fun e => by
      rw [e] at hLnd
      simp at hLnd
    have hhz : head ≠ z := fun e => hhL (by simp [e])
    have hzK : z ∉ a :: K := fun hm => by
      have : (a :: K ++ [z]).Nodup := by simpa using hLnd
      exact (List.nodup_append.1 this).2.2 hm (by simp)
    -- detaching the chain from the sentinel
    have hl0 : lseg h.next (h.next head) (a :: K ++ [z]) head := by
      have := dseg_lseg _ head head hwf.links
      simpa using this
    obtain ⟨m, hm1, hm2⟩ := (lseg_append (a :: K) (h.next head) [z] head).1 hl0
    have hcut : lseg (h.setNext z 0).next a (a :: (K ++ [z])) 0 := by
      have : lseg (h.setNext z 0).next a (a :: K ++ [z]) 0 := by
        refine (lseg_append (a :: K) a [z] 0).2 ⟨m, ?_, ?_⟩
        · rw [hnext] at hm1
          refine lseg_congr (f := h.next) (a :: K) a m ?_ hm1
          intro x hx
          have : x ≠ z := fun e => hzK (e ▸ hx)
          simp [this]
        · simp only [lseg] at hm2 ⊢
          exact ⟨hm2.1, by simp⟩
      simpa using this
    obtain ⟨h1, r, M, a1, a2, a3, a4, a5, a6, a7, a8⟩ := mergesort_spec fuel (a :: (K ++ [z]))
      (h.setNext z 0) a hcut hwf.nonnull hLnd hf
    have hMh : head ∉ M := fun hm => hhL (a3.mem_iff.1 hm)
    have hM0 : 0 ∉ M := fun hm => hwf.nonnull (a3.mem_iff.1 hm)
    have hMnd : (head :: M).Nodup := List.nodup_cons.2 ⟨hMh, (List.Perm.nodup_iff a3).2 hLnd⟩
    -- restoring the `prev` links
    have hl2 : lseg (h1.setNext head r).next ((h1.setNext head r).next head) M 0 := by
      refine lseg_congr (f := h1.next) M _ 0 ?_ (by simpa using a2)
      intro x hx
      have : x ≠ head := fun e => hMh (e ▸ hx)
      simp [this]
    obtain ⟨h2, b1, b2, b3, b4, b5, b6⟩ := q_sort_loop_spec M head (h1.setNext head r) fuel hl2
      hM0 hMnd (by rw [a3.length_eq]; omega)
    obtain ⟨M', y, hMy⟩ : ∃ M' y, M = M' ++ [y] := by
      rcases List.eq_nil_or_concat M with e | ⟨M', y, e⟩
      · have := a3.length_eq
        rw [e] at this
        simp at this
      · exact ⟨M', y, by simpa using e⟩
    have hlast : (head :: M).getLast (by simp) = y := by
      simp [hMy]
    rw [hlast] at b1
    have hd := b6 M' y hMy
    have hyM' : y ∉ head :: M' := fun hm => by
      have : (head :: M' ++ [y]).Nodup := by simpa [hMy] using hMnd
      exact (List.nodup_append.1 this).2.2 hm (by simp)
    have hhM' : head ∉ M' ++ [y] := by rw [← hMy]; exact hMh
    refine ⟨(h2.setNext y head).setPrev head y, M, ?_, ⟨hwf.head_ne, hM0, hMnd, ?_⟩, a3, a4,
      ?_, ?_, ?_⟩
    · simp only [q_sort, hwf.head_ne, hnext, hprev, haz, or_self, if_false, Heap.setNext_next,
        if_neg hhz, a1, b1]
    · rw [hMy]
      refine (dseg_append M' head y [] head).2 ⟨?_, by simp [dseg]⟩
      refine dseg_congr M' head y ?_ ?_ hd
      · intro x hx
        have : x ≠ y := fun e => hyM' (e ▸ hx)
        simp [this]
      · intro x hx
        have : x ≠ head := fun e => hhM' (e ▸ hx)
        simp [this]
    · simp only [Heap.setPrev_value, Heap.setNext_value]
      rw [b4]; simp only [Heap.setNext_value]; rw [a7]; rfl
    · simp only [Heap.setPrev_alloc, Heap.setNext_alloc]
      rw [b5]; simp only [Heap.setNext_alloc]; rw [a8]; rfl
    · intro x hx
      have x1 : x ≠ head := fun e => hx (by simp [e])
      have x2 : x ∉ a :: (K ++ [z]) := fun hm => hx (List.mem_cons_of_mem _ hm)
      have x3 : x ∉ M := fun hm => x2 (a3.mem_iff.1 hm)
      have x4 : x ≠ y := fun e => x3 (by rw [hMy, e]; simp)
      have x5 : x ≠ z := fun e => x2 (by simp [e])
      constructor
      · simp only [Heap.setPrev_next, Heap.setNext_next, if_neg x4]
        rw [b2]
        simp only [Heap.setNext_next, if_neg x1]
        rw [a5 x x2]
        simp [x5]
      · simp only [Heap.setPrev_prev, if_neg x1, Heap.setNext_prev]
        rw [b3 x x3]
        simp only [Heap.setNext_prev]
        rw [a6]
        rfl

/-! # Properties of the operations -/

/-- C1: for every well-formed queue, with enough fuel `q_sort` returns, the result is a
well-formed queue, and every adjacent pair `(a, b)` of its elements in head-to-tail order
satisfies `strncmp(a.value, b.value, 1024) <= 0`. -/
theorem q_sort_ascending (h : Heap) (head : Ptr) (L : List Ptr) (fuel : Nat)
    (hwf : WF h head L) (hf : L.length + 2 ≤ fuel) :
    ∃ h' M, q_sort fuel h head = some h' ∧ WF h' head M ∧
      M.Chain' (fun a b => strncmp (h'.value a) (h'.value b) 1024 ≤ 0) := by
  obtain ⟨h', M, e1, e2, _, e4, e5, _⟩ := q_sort_spec hwf hf
  refine ⟨h', M, e1, e2, ?_⟩
  rw [e5]
  exact List.Pairwise.chain' e4

/-- Witness for C1: the queue built by `insert_tail` of banana, apple, cherry is sorted into
apple, banana, cherry. -/
theorem q_sort_ascending_witness :
    WF (tailQueue fruit) 1 [2, 3, 4] ∧
      (q_sort 5 (tailQueue fruit) 1).map (fun h => payloads h 3 1) =
        some [[97, 112, 112, 108, 101, 0], [98, 97, 110, 97, 110, 97, 0],
          [99, 104, 101, 114, 114, 121, 0]] ∧
      ∃ h' M, q_sort 5 (tailQueue fruit) 1 = some h' ∧ WF h' 1 M ∧
        M.Chain' (fun a b => strncmp (h'.value a) (h'.value b) 1024 ≤ 0) :=
  ⟨⟨by decide, by decide, by decide, by decide⟩, by decide,
    q_sort_ascending (tailQueue fruit) 1 [2, 3, 4] 5
      ⟨by decide, by decide, by decide, by decide⟩ (by decide)⟩

/-- C2: `q_sort` only relinks nodes. For every well-formed queue, with enough fuel it returns
a well-formed queue whose element sequence is a permutation of the one before (so `q_size` is
unchanged), with every payload and every allocation mark unchanged and every node outside the
queue untouched; a queue with 0 or 1 elements, and a null queue, is left exactly as it was. -/
theorem q_sort_relinks_only (h : Heap) (head : Ptr) (L : List Ptr) (fuel : Nat)
    (hwf : WF h head L) (hf : L.length + 2 ≤ fuel) :
    (∃ h' M, q_sort fuel h head = some h' ∧ WF h' head M ∧ M.Perm L ∧
      (∀ x, h'.value x = h.value x) ∧ (∀ x, h'.alloc x = h.alloc x) ∧
      (∀ x, x ∉ head :: L → h'.next x = h.next x ∧ h'.prev x = h.prev x) ∧
      q_size fuel h' head = q_size fuel h head ∧ q_size fuel h head = some L.length ∧
      (L.length ≤ 1 → h' = h)) ∧
    q_sort fuel h 0 = some h := by
  refine ⟨?_, q_sort_null fuel h⟩
  obtain ⟨h', M, e1, e2, e3, _, e5, e6, e7⟩ := q_sort_spec hwf hf
  have s1 : q_size fuel h' head = some M.length := q_size_spec e2 (by rw [e3.length_eq]; omega)
  have s2 : q_size fuel h head = some L.length := q_size_spec hwf (by omega)
  refine ⟨h', M, e1, e2, e3, fun x => by rw [e5], fun x => by rw [e6], e7, ?_, s2, ?_⟩
  · rw [s1, s2, e3.length_eq]
  · intro hs
    have := q_sort_small hwf hs fuel
    rw [e1] at this
    exact Option.some.inj this

/-- Witness for C2 on the queue banana, apple, cherry. -/
theorem q_sort_relinks_only_witness :
    WF (tailQueue fruit) 1 [2, 3, 4] ∧
      ∃ h' M, q_sort 5 (tailQueue fruit) 1 = some h' ∧ WF h' 1 M ∧ M.Perm [2, 3, 4] ∧
        (∀ x, h'.value x = (tailQueue fruit).value x) :=
  ⟨⟨by decide, by decide, by decide, by decide⟩, by
    obtain ⟨⟨h', M, e1, e2, e3, e4, _⟩, _⟩ := q_sort_relinks_only (tailQueue fruit) 1 [2, 3, 4] 5
      ⟨by decide, by decide, by decide, by decide⟩ (by decide)
    exact ⟨h', M, e1, e2, e3, e4⟩⟩

/-! ## Ownership of payloads -/

@[simp] theorem list_del_hasValue (h : Heap) (x : Ptr) :
    (list_del h x).hasValue = h.hasValue := by simp [list_del]
@[simp] theorem list_add_hasValue (h : Heap) (ele head : Ptr) :
    (list_add h ele head).hasValue = h.hasValue := by simp [list_add]
@[simp] theorem list_add_tail_hasValue (h : Heap) (ele head : Ptr) :
    (list_add_tail h ele head).hasValue = h.hasValue := by simp [list_add_tail]

theorem Owned.carry {h h' : Heap} {L K : List Ptr} (ho : Owned h L)
    (hv : ∀ x ∈ K, h'.hasValue x = h.hasValue x) (hsub : ∀ x ∈ K, x ∈ L) : Owned h' K :=
  fun x hx => by rw [hv x hx]; exact ho x (hsub x hx)

/-- What the inserts do to the `value` pointers: the new element owns a payload exactly when
the string allocation succeeded, and no other element is affected. -/
theorem q_insert_hasValue (h : Heap) (head : Ptr) (s : CStr) {ele : Ptr} (h0 : ele ≠ 0)
    (hh : head ≠ 0) (str : Option CStr) :
    ((q_insert_head h head s ele str).1.hasValue ele = str.isSome ∧
      ∀ x, x ≠ ele → (q_insert_head h head s ele str).1.hasValue x = h.hasValue x) ∧
    ((q_insert_tail h head s ele str).1.hasValue ele = str.isSome ∧
      ∀ x, x ≠ ele → (q_insert_tail h head s ele str).1.hasValue x = h.hasValue x) := by
  cases str with
  | none =>
    simp only [q_insert_head, q_insert_tail, if_neg hh, if_neg h0]
    refine ⟨⟨by simp, fun x hx => by simp [hx]⟩, ⟨by simp, fun x hx => by simp [hx]⟩⟩
  | some buf =>
    simp only [q_insert_head, q_insert_tail, if_neg hh, if_neg h0]
    refine ⟨⟨by simp, fun x hx => by simp [hx]⟩, ⟨by simp, fun x hx => by simp [hx]⟩⟩

theorem q_swap_loop_hasValue :
    ∀ (fuel : Nat) (h : Heap) (head indir : Ptr) (h' : Heap),
      q_swap_loop fuel h head indir = some h' → h'.hasValue = h.hasValue
  | 0, _, _, _, _, hr => by simp [q_swap_loop] at hr
  | fuel + 1, h, head, indir, h', hr => by
    simp only [q_swap_loop] at hr
    split at hr
    · rw [q_swap_loop_hasValue fuel _ _ _ _ hr]
      rfl
    · cases hr
      rfl

theorem q_swap_hasValue {fuel : Nat} {h : Heap} {head : Ptr} {h' : Heap}
    (hr : q_swap fuel h head = some h') : h'.hasValue = h.hasValue := by
  simp only [q_swap] at hr
  split at hr
  · cases hr; rfl
  · exact q_swap_loop_hasValue fuel _ _ _ _ hr

theorem mergeTwoLists_store_hasValue (h : Heap) (head : Ptr) (ptr : Option Ptr) (v : Ptr) :
    (mergeTwoLists_store h head ptr v).1.hasValue = h.hasValue := by
  cases ptr <;> rfl

theorem mergeTwoLists_loop_hasValue :
    ∀ (fuel : Nat) (h : Heap) (l1 l2 head : Ptr) (ptr : Option Ptr) (r : Heap × Ptr),
      mergeTwoLists_loop fuel h l1 l2 head ptr = some r → r.1.hasValue = h.hasValue
  | 0, _, _, _, _, _, _, hr => by simp [mergeTwoLists_loop] at hr
  | fuel + 1, h, l1, l2, head, ptr, r, hr => by
    simp only [mergeTwoLists_loop] at hr
    split at hr
    · split at hr
      · rw [mergeTwoLists_loop_hasValue fuel _ _ _ _ _ _ hr, mergeTwoLists_store_hasValue]
      · rw [mergeTwoLists_loop_hasValue fuel _ _ _ _ _ _ hr, mergeTwoLists_store_hasValue]
    · cases hr
      exact mergeTwoLists_store_hasValue _ _ _ _

theorem mergesort_hasValue :
    ∀ (fuel : Nat) (h : Heap) (head : Ptr) (r : Heap × Ptr),
      mergesort fuel h head = some r → r.1.hasValue = h.hasValue
  | 0, _, _, _, hr => by simp [mergesort] at hr
  | fuel + 1, h, head, r, hr => by
    simp only [mergesort] at hr
    split at hr
    · cases hr; rfl
    · cases hs : mergesort_loop fuel h head (h.next head) with
      | none => rw [hs] at hr; simp at hr
      | some slow =>
        rw [hs] at hr
        simp only at hr
        cases h1 : mergesort fuel (h.setNext slow 0) head with
        | none => rw [h1] at hr; simp at hr
        | some r1 =>
          obtain ⟨h2, left⟩ := r1
          rw [h1] at hr
          simp only at hr
          cases h3 : mergesort fuel h2 (h.next slow) with
          | none => rw [h3] at hr; simp at hr
          | some r2 =>
            obtain ⟨h4, right⟩ := r2
            rw [h3] at hr
            simp only at hr
            have e1 := mergesort_hasValue fuel _ _ _ h1
            have e2 := mergesort_hasValue fuel _ _ _ h3
            have e3 := mergeTwoLists_loop_hasValue fuel _ _ _ _ _ _ hr
            rw [e3, e2, e1]
            rfl

theorem q_sort_loop_hasValue :
    ∀ (fuel : Nat) (h : Heap) (ptr : Ptr) (r : Heap × Ptr),
      q_sort_loop fuel h ptr = some r → r.1.hasValue = h.hasValue
  | 0, _, _, _, hr => by simp [q_sort_loop] at hr
  | fuel + 1, h, ptr, r, hr => by
    simp only [q_sort_loop] at hr
    split at hr
    · rw [q_sort_loop_hasValue fuel _ _ _ hr]
      rfl
    · cases hr; rfl

theorem q_sort_hasValue {fuel : Nat} {h : Heap} {head : Ptr} {h' : Heap}
    (hr : q_sort fuel h head = some h') : h'.hasValue = h.hasValue := by
  simp only [q_sort] at hr
  split at hr
  · cases hr; rfl
  · cases h1 : mergesort fuel (h.setNext (h.prev head) 0)
        ((h.setNext (h.prev head) 0).next head) with
    | none => rw [h1] at hr; simp at hr
    | some r1 =>
      obtain ⟨h2, sorted⟩ := r1
      rw [h1] at hr
      simp only at hr
      cases h3 : q_sort_loop fuel (h2.setNext head sorted) head with
      | none => rw [h3] at hr; simp at hr
      | some r2 =>
        obtain ⟨h4, ptr⟩ := r2
        rw [h3] at hr
        simp only [Option.some.injEq] at hr
        have e1 := mergesort_hasValue fuel _ _ _ h1
        have e2 := q_sort_loop_hasValue fuel _ _ _ h3
        rw [← hr]
        simp only [Heap.setPrev_hasValue, Heap.setNext_hasValue]
        rw [e2]
        simp only [Heap.setNext_hasValue]
        rw [e1]
        rfl

theorem q_delete_dup_str_swapMarks (h : Heap) (p : Option Ptr) :
    q_delete_dup_str h.swapMarks p = q_delete_dup_str h p := by
  cases p <;> rfl

/-- The loop of `q_delete_dup` treats the `alloc` and `hasValue` marks alike. -/
theorem q_delete_dup_loop_swapMarks :
    ∀ (fuel : Nat) (h : Heap) (head n s : Ptr) (p : Option Ptr),
      q_delete_dup_loop fuel h.swapMarks head n s p =
        (q_delete_dup_loop fuel h head n s p).map Heap.swapMarks
  | 0, _, _, _, _, _ => rfl
  | fuel + 1, h, head, n, s, p => by
    simp only [q_delete_dup_loop, q_delete_dup_str_swapMarks]
    by_cases hn : n ≠ head
    · rw [if_pos hn, if_pos hn]
      have hv : h.swapMarks.value n = h.value n := rfl
      rw [hv]
      by_cases hc : strncmp (h.value n) (q_delete_dup_str h p) MAX_STR_SIZE = 0
      · rw [if_pos hc, if_pos hc]
        exact q_delete_dup_loop_swapMarks fuel (q_release_element (list_del h n) n) head s _ p
      · rw [if_neg hc, if_neg hc]
        exact q_delete_dup_loop_swapMarks fuel h head s _ (some n)
    · rw [if_neg hn, if_neg hn]
      rfl

/-- After `q_delete_dup` the retained elements own what they owned before, and the released
ones own nothing. -/
theorem q_delete_dup_hasValue {h : Heap} {head : Ptr} {L : List Ptr} (hwf : WF h head L)
    {fuel : Nat} (hf : L.length < fuel) {h' : Heap}
    (hr : q_delete_dup fuel h head = some (h', true)) :
    ∀ x, h'.hasValue x =
      if x ∈ L ∧ x ∉ dedupKeep h.value none L then false else h.hasValue x := by
  have hwf' : WF h.swapMarks head L := hwf.congr (fun _ _ => rfl) (fun _ _ => rfl)
  obtain ⟨g', e1, _, _, e4⟩ := q_delete_dup_spec hwf' hf
  have hg : g' = h'.swapMarks := by
    simp only [q_delete_dup, if_neg hwf.head_ne] at e1 hr
    have hp := q_delete_dup_loop_swapMarks fuel h head (h.next head) (h.next (h.next head)) none
    cases hl : q_delete_dup_loop fuel h head (h.next head) (h.next (h.next head)) none with
    | none => rw [hl] at hr; simp at hr
    | some h1 =>
      rw [hl] at hr hp
      simp only [Option.some.injEq, Prod.mk.injEq, and_true] at hr
      have e1' : (match q_delete_dup_loop fuel h.swapMarks head (h.next head)
          (h.next (h.next head)) none with
        | none => none
        | some h => some (h, true)) = some (g', true) := e1
      rw [hp] at e1'
      simp only [Option.map_some', Option.some.injEq, Prod.mk.injEq, and_true] at e1'
      rw [← e1', hr]
  intro x
  have := e4 x
  rw [hg] at this
  exact this

theorem takeWhile_terminated : ∀ body : CStr, 0 ∉ body →
    (body ++ [0]).takeWhile (fun c => decide (c ≠ 0)) ++ [0] = body ++ [0]
  | [], _ => by simp
  | c :: body, h0 => by
    have hc : c ≠ 0 := fun e => h0 (by simp [e])
    have := takeWhile_terminated body (fun hm => h0 (List.mem_cons_of_mem _ hm))
    simp only [List.cons_append, List.takeWhile_cons, hc, ne_eq, not_false_eq_true, decide_True,
      if_true, List.cons.injEq, true_and]
    exact this

/-- C4: for a well-formed (hence non-null) queue with element sequence `L` and a string `s`,
when the element allocation returns a fresh non-null block `ele` and the string allocation
returns a block `buf` of the requested `strlen(s) + 1` bytes, `q_insert_head` returns true and
the queue becomes `[ele] ++ L`, `q_insert_tail` returns true and the queue becomes
`L ++ [ele]`; in both the payload of `ele` is the bytes of `s` up to and including its
terminator (the whole of `s` when `s` ends at its terminator), and the payloads of the
elements of `L` are unchanged. -/
theorem q_insert_links_copy (h : Heap) (head : Ptr) (L : List Ptr) (s : CStr) (ele : Ptr)
    (buf : CStr) (hwf : WF h head L) (h0 : ele ≠ 0) (hfresh : ele ∉ head :: L)
    (hbuf : buf.length = strlen s + 1) :
    ((q_insert_head h head s ele (some buf)).2 = true ∧
      WF (q_insert_head h head s ele (some buf)).1 head ([ele] ++ L) ∧
      (q_insert_head h head s ele (some buf)).1.value ele =
        s.takeWhile (fun c => decide (c ≠ 0)) ++ [0] ∧
      (∀ x ∈ L, (q_insert_head h head s ele (some buf)).1.value x = h.value x)) ∧
    ((q_insert_tail h head s ele (some buf)).2 = true ∧
      WF (q_insert_tail h head s ele (some buf)).1 head (L ++ [ele]) ∧
      (q_insert_tail h head s ele (some buf)).1.value ele =
        s.takeWhile (fun c => decide (c ≠ 0)) ++ [0] ∧
      (∀ x ∈ L, (q_insert_tail h head s ele (some buf)).1.value x = h.value x)) ∧
    (∀ body, s = body ++ [0] → 0 ∉ body →
      (q_insert_head h head s ele (some buf)).1.value ele = s ∧
      (q_insert_tail h head s ele (some buf)).1.value ele = s) := by
  obtain ⟨a1, a2, a3, a4⟩ := q_insert_head_spec hwf h0 hfresh s (some buf)
  obtain ⟨b1, b2, b3, b4⟩ := q_insert_tail_spec hwf h0 hfresh s (some buf)
  have hne : ∀ x ∈ L, x ≠ ele := fun x hx e => hfresh (by simp [← e, hx])
  have va := (a4 buf rfl).trans (strncpy_strlen buf s hbuf)
  have vb := (b4 buf rfl).trans (strncpy_strlen buf s hbuf)
  refine ⟨⟨a2, a1, va, fun x hx => a3 x (hne x hx)⟩, ⟨b2, b1, vb, fun x hx => b3 x (hne x hx)⟩, ?_⟩
  intro body hs hb
  rw [va, vb, hs]
  exact ⟨takeWhile_terminated body hb, takeWhile_terminated body hb⟩

/-- Witness for C4: inserting `"x"` at either end of the queue banana, apple, cherry. -/
theorem q_insert_links_copy_witness :
    WF (tailQueue fruit) 1 [2, 3, 4] ∧
      WF (q_insert_head (tailQueue fruit) 1 [120, 0] 9 (some [7, 7])).1 1 [9, 2, 3, 4] ∧
      WF (q_insert_tail (tailQueue fruit) 1 [120, 0] 9 (some [7, 7])).1 1 [2, 3, 4, 9] ∧
      (q_insert_head (tailQueue fruit) 1 [120, 0] 9 (some [7, 7])).1.value 9 = [120, 0] :=
  ⟨⟨by decide, by decide, by decide, by decide⟩,
    (q_insert_links_copy (tailQueue fruit) 1 [2, 3, 4] [120, 0] 9 [7, 7]
      ⟨by decide, by decide, by decide, by decide⟩ (by decide) (by decide) (by decide)).1.2.1,
    (q_insert_links_copy (tailQueue fruit) 1 [2, 3, 4] [120, 0] 9 [7, 7]
      ⟨by decide, by decide, by decide, by decide⟩ (by decide) (by decide) (by decide)).2.1.2.1,
    ((q_insert_links_copy (tailQueue fruit) 1 [2, 3, 4] [120, 0] 9 [7, 7]
      ⟨by decide, by decide, by decide, by decide⟩ (by decide) (by decide) (by decide)).2.2
        [120] rfl (by decide)).1⟩

/-- C5: `q_remove_head` and `q_remove_tail` return null and leave the heap unchanged when the
queue is null or empty (its size is still 0); on a queue with element sequence `x :: K`
`q_remove_head` returns `x` and the queue becomes `K`, on `K ++ [x]` `q_remove_tail` returns
`x` and the queue becomes `K`, and in both no payload is touched and nothing is released. -/
theorem q_remove_unlinks_end (h : Heap) (head : Ptr) (L : List Ptr) (sp : Option CStr)
    (bufsize fuel : Nat) (hwf : WF h head L) :
    q_remove_head h 0 sp bufsize = (h, 0, sp) ∧ q_remove_tail h 0 sp bufsize = (h, 0, sp) ∧
    q_size fuel h 0 = some 0 ∧
    (L = [] → q_remove_head h head sp bufsize = (h, 0, sp) ∧
      q_remove_tail h head sp bufsize = (h, 0, sp) ∧ q_size fuel h head = some 0) ∧
    (∀ x K, L = x :: K →
      (q_remove_head h head sp bufsize).2.1 = x ∧
      WF (q_remove_head h head sp bufsize).1 head K ∧
      (q_remove_head h head sp bufsize).1.value = h.value ∧
      (q_remove_head h head sp bufsize).1.alloc = h.alloc) ∧
    (∀ K x, L = K ++ [x] →
      (q_remove_tail h head sp bufsize).2.1 = x ∧
      WF (q_remove_tail h head sp bufsize).1 head K ∧
      (q_remove_tail h head sp bufsize).1.value = h.value ∧
      (q_remove_tail h head sp bufsize).1.alloc = h.alloc) := by
  refine ⟨by simp [q_remove_head], by simp [q_remove_tail], q_size_null fuel h, ?_, ?_, ?_⟩
  · intro hL
    subst hL
    refine ⟨q_remove_head_nil hwf sp bufsize, q_remove_tail_nil hwf sp bufsize, ?_⟩
    simp [q_size, (hwf.list_empty_iff).2 rfl]
  · intro x K hL
    subst hL
    rw [q_remove_head_cons hwf]
    exact ⟨rfl, WF.list_del (A := []) hwf, by simp, by simp⟩
  · intro K x hL
    subst hL
    rw [q_remove_tail_concat hwf]
    exact ⟨rfl, by simpa using WF.list_del (B := []) hwf, by simp, by simp⟩

/-- Witness for C5 on the queue banana, apple, cherry. -/
theorem q_remove_unlinks_end_witness :
    WF (tailQueue fruit) 1 [2, 3, 4] ∧
      (q_remove_head (tailQueue fruit) 1 none 0).2.1 = 2 ∧
      WF (q_remove_head (tailQueue fruit) 1 none 0).1 1 [3, 4] ∧
      (q_remove_tail (tailQueue fruit) 1 none 0).2.1 = 4 ∧
      WF (q_remove_tail (tailQueue fruit) 1 none 0).1 1 [2, 3] :=
  ⟨⟨by decide, by decide, by decide, by decide⟩,
    ((q_remove_unlinks_end (tailQueue fruit) 1 [2, 3, 4] none 0 4
      ⟨by decide, by decide, by decide, by decide⟩).2.2.2.2.1 2 [3, 4] rfl).1,
    ((q_remove_unlinks_end (tailQueue fruit) 1 [2, 3, 4] none 0 4
      ⟨by decide, by decide, by decide, by decide⟩).2.2.2.2.1 2 [3, 4] rfl).2.1,
    ((q_remove_unlinks_end (tailQueue fruit) 1 [2, 3, 4] none 0 4
      ⟨by decide, by decide, by decide, by decide⟩).2.2.2.2.2 [2, 3] 4 rfl).1,
    ((q_remove_unlinks_end (tailQueue fruit) 1 [2, 3, 4] none 0 4
      ⟨by decide, by decide, by decide, by decide⟩).2.2.2.2.2 [2, 3] 4 rfl).2.1⟩

theorem eraseIdx_split (A B : List Ptr) (x : Ptr) :
    (A ++ x :: B).eraseIdx A.length = A ++ B := by
  rw [List.eraseIdx_append_of_length_le (le_refl _)]
  simp

theorem get?_append_self : ∀ (A B : List Ptr) (x : Ptr),
    (A ++ x :: B).get? A.length = some x
  | [], _, _ => rfl
  | _ :: A, B, x => by simpa using get?_append_self A B x

/-- C7: for every well-formed queue with `n >= 1` elements, with enough fuel `q_delete_mid`
returns true, releases the element at zero-based index `n / 2` and leaves the other elements
in their original order with their payloads; on an empty or a null queue it returns false and
changes nothing. -/
theorem q_delete_mid_removes_middle (h : Heap) (head : Ptr) (L : List Ptr) (fuel : Nat)
    (hwf : WF h head L) (hf : L.length < fuel) :
    (L ≠ [] → ∃ h' del, q_delete_mid fuel h head = some (h', true) ∧
      L.get? (L.length / 2) = some del ∧ WF h' head (L.eraseIdx (L.length / 2)) ∧
      (∀ x, h'.value x = h.value x) ∧ h'.alloc del = false ∧
      (∀ x, x ≠ del → h'.alloc x = h.alloc x)) ∧
    (L = [] → q_delete_mid fuel h head = some (h, false)) ∧
    q_delete_mid fuel h 0 = some (h, false) := by
  refine ⟨?_, ?_, q_delete_mid_null fuel h⟩
  · intro hL
    obtain ⟨A, x, B, e1, e2, e3, e4⟩ := q_delete_mid_spec hwf hL hf
    refine ⟨_, x, e3, ?_, ?_, by simp, by simp, ?_⟩
    · rw [← e2, e1]; exact get?_append_self A B x
    · rw [← e2, e1, eraseIdx_split]; exact e4
    · intro y hy; simp [hy]
  · intro hL
    subst hL
    exact q_delete_mid_nil hwf fuel

/-- Witness for C7: six elements `"0"` to `"5"` become 0, 1, 2, 4, 5. -/
theorem q_delete_mid_removes_middle_witness :
    WF (tailQueue digits) 1 [2, 3, 4, 5, 6, 7] ∧
      (q_delete_mid 7 (tailQueue digits) 1).map (fun r => (payloads r.1 5 1, r.2)) =
        some ([[48, 0], [49, 0], [50, 0], [52, 0], [53, 0]], true) ∧
      ∃ h' del, q_delete_mid 7 (tailQueue digits) 1 = some (h', true) ∧
        [2, 3, 4, 5, 6, 7].get? 3 = some del ∧ WF h' 1 [2, 3, 4, 6, 7] :=
  ⟨⟨by decide, by decide, by decide, by decide⟩, by decide, by
    obtain ⟨h', del, e1, e2, e3, _⟩ :=
      (q_delete_mid_removes_middle (tailQueue digits) 1 [2, 3, 4, 5, 6, 7] 7
        ⟨by decide, by decide, by decide, by decide⟩ (by decide)).1 (by decide)
    exact ⟨h', del, e1, e2, e3⟩⟩

/-- C8: for every well-formed queue with element sequence `L`, with enough fuel `q_reverse`
returns and the element sequence is exactly the reverse of `L`, with the same payloads and
allocation marks; an empty or a null queue is unchanged. -/
theorem q_reverse_reverses (h : Heap) (head : Ptr) (L : List Ptr) (fuel : Nat)
    (hwf : WF h head L) (hf : L.length < fuel) :
    (∃ h', q_reverse fuel h head = some h' ∧ WF h' head L.reverse ∧
      (∀ x, h'.value x = h.value x) ∧ (∀ x, h'.alloc x = h.alloc x) ∧
      (∀ x, x ∉ head :: L → h'.next x = h.next x ∧ h'.prev x = h.prev x) ∧
      (L = [] → h' = h)) ∧
    q_reverse fuel h 0 = some h := by
  refine ⟨⟨_, q_reverse_spec hwf hf, hwf.flipOn, fun _ => rfl, fun _ => rfl, ?_, ?_⟩,
    q_reverse_null fuel h⟩
  · intro x hx
    simp [Heap.flipOn_next, Heap.flipOn_prev, hx]
  · intro hL
    subst hL
    have := q_reverse_nil hwf fuel
    rw [q_reverse_spec hwf hf] at this
    exact Option.some.inj this

/-- Witness for C8 on the queue banana, apple, cherry. -/
theorem q_reverse_reverses_witness :
    WF (tailQueue fruit) 1 [2, 3, 4] ∧
      ∃ h', q_reverse 4 (tailQueue fruit) 1 = some h' ∧ WF h' 1 [4, 3, 2] :=
  ⟨⟨by decide, by decide, by decide, by decide⟩, by
    obtain ⟨⟨h', e1, e2, _⟩, _⟩ := q_reverse_reverses (tailQueue fruit) 1 [2, 3, 4] 4
      ⟨by decide, by decide, by decide, by decide⟩ (by decide)
    exact ⟨h', e1, e2⟩⟩

/-- C9: `q_reverse` is an involution. For every well-formed queue, with enough fuel two
successive calls return, and the second result is the original heap: the original element
sequence, the original payloads, and the original `next` and `prev` of every node, the
sentinel included. -/
theorem q_reverse_involution (h : Heap) (head : Ptr) (L : List Ptr) (fuel : Nat)
    (hwf : WF h head L) (hf : L.length < fuel) :
    ∃ h1, q_reverse fuel h head = some h1 ∧
      ∃ h2, q_reverse fuel h1 head = some h2 ∧ WF h2 head L ∧ h2 = h ∧
        (∀ x, h2.next x = h.next x ∧ h2.prev x = h.prev x ∧ h2.value x = h.value x) := by
  refine ⟨_, q_reverse_spec hwf hf, ?_⟩
  have h2 := q_reverse_spec (hwf.flipOn) (show L.reverse.length < fuel by simpa using hf)
  have e : (h.flipOn (head :: L)).flipOn (head :: L.reverse) = h :=
    Heap.flipOn_flipOn h (by simp)
  rw [e] at h2
  exact ⟨h, h2, hwf, rfl, fun _ => ⟨rfl, rfl, rfl⟩⟩

/-- Witness for C9 on the queue banana, apple, cherry. -/
theorem q_reverse_involution_witness :
    WF (tailQueue fruit) 1 [2, 3, 4] ∧
      ∃ h1, q_reverse 4 (tailQueue fruit) 1 = some h1 ∧
        ∃ h2, q_reverse 4 h1 1 = some h2 ∧ h2 = tailQueue fruit :=
  ⟨⟨by decide, by decide, by decide, by decide⟩, by
    obtain ⟨h1, e1, h2, e2, _, e3, _⟩ := q_reverse_involution (tailQueue fruit) 1 [2, 3, 4] 4
      ⟨by decide, by decide, by decide, by decide⟩ (by decide)
    exact ⟨h1, e1, h2, e2, e3⟩⟩

theorem swapPairs_getElem? :
    ∀ (L : List Ptr) (k : Nat), 2 * k + 1 < L.length →
      (swapPairs L)[2 * k]? = L[2 * k + 1]? ∧ (swapPairs L)[2 * k + 1]? = L[2 * k]?
  | [], _, hk => by simp at hk
  | [_], _, hk => by simp at hk
  | a :: b :: L, 0, _ => by simp
  | a :: b :: L, k + 1, hk => by
    have := swapPairs_getElem? L k (by simp at hk; omega)
    have e1 : 2 * (k + 1) = 2 * k + 1 + 1 := by ring
    rw [e1]
    simpa using this

theorem swapPairs_last :
    ∀ L : List Ptr, L.length % 2 = 1 → (swapPairs L)[L.length - 1]? = L[L.length - 1]?
  | [], hk => by simp at hk
  | [_], _ => by simp
  | a :: b :: L, hk => by
    have hL : L.length % 2 = 1 := by simp at hk; omega
    have := swapPairs_last L hL
    have hpos : 0 < L.length := by omega
    have e1 : (a :: b :: L).length - 1 = (L.length - 1) + 1 + 1 := by simp; omega
    rw [e1]
    simpa using this

/-- C10: for every well-formed queue with element sequence `L` of length `n`, with enough fuel
`q_swap` returns and the element sequence becomes `swapPairs L`: for every `k` with
`2k + 1 < n` the elements at indices `2k` and `2k + 1` have exchanged places, and when `n` is
odd the last element is still at index `n - 1`; no payload or allocation mark is touched, and
a queue with fewer than 2 elements, and a null queue, is unchanged. -/
theorem q_swap_swaps_pairs (h : Heap) (head : Ptr) (L : List Ptr) (fuel : Nat)
    (hwf : WF h head L) (hf : L.length < fuel) :
    (∃ h', q_swap fuel h head = some h' ∧ WF h' head (swapPairs L) ∧
      (∀ x, h'.value x = h.value x) ∧ (∀ x, h'.alloc x = h.alloc x) ∧
      (L.length < 2 → h' = h)) ∧
    (swapPairs L).length = L.length ∧
    (∀ k, 2 * k + 1 < L.length →
      (swapPairs L)[2 * k]? = L[2 * k + 1]? ∧ (swapPairs L)[2 * k + 1]? = L[2 * k]?) ∧
    (L.length % 2 = 1 → (swapPairs L)[L.length - 1]? = L[L.length - 1]?) ∧
    q_swap fuel h 0 = some h := by
  obtain ⟨h', e1, e2, e3, e4, _⟩ := q_swap_spec hwf hf
  refine ⟨⟨h', e1, e2, fun x => by rw [e3], fun x => by rw [e4], ?_⟩, swapPairs_length L,
    swapPairs_getElem? L, swapPairs_last L, q_swap_null fuel h⟩
  intro hs
  have := q_swap_short hwf hs (show 0 < fuel by omega)
  rw [e1] at this
  exact Option.some.inj this

/-- Witness for C10: the six elements 2, 3, 4, 5, 6, 7 become 3, 2, 5, 4, 7, 6. -/
theorem q_swap_swaps_pairs_witness :
    WF (tailQueue digits) 1 [2, 3, 4, 5, 6, 7] ∧
      ∃ h', q_swap 7 (tailQueue digits) 1 = some h' ∧ WF h' 1 [3, 2, 5, 4, 7, 6] :=
  ⟨⟨by decide, by decide, by decide, by decide⟩, by
    obtain ⟨⟨h', e1, e2, _⟩, _⟩ := q_swap_swaps_pairs (tailQueue digits) 1 [2, 3, 4, 5, 6, 7] 7
      ⟨by decide, by decide, by decide, by decide⟩ (by decide)
    exact ⟨h', e1, e2⟩⟩

/-- When the allocator behaves and no string allocation fails, the length of the queue after
a sequence of insert and remove calls is the length before plus the net count of inserts that
returned true minus removes that returned an element. -/
theorem runCalls_length :
    ∀ (cs : List QCall) (h : Heap) (head : Ptr) (L : List Ptr), WF h head L →
      callsOk h head cs →
      ∃ L', WF (runCalls h head cs).1 head L' ∧
        (L'.length : Int) = L.length + (runCalls h head cs).2
  | [], h, head, L, hwf, _ => ⟨L, hwf, by simp [runCalls]⟩
  | c :: cs, h, head, L, hwf, hok => by
    have key : ∃ L1, WF (stepCall h head c).1 head L1 ∧
        (L1.length : Int) = L.length + (stepCall h head c).2 := by
      cases c with
      | insertHead s ele str =>
        obtain ⟨⟨hfresh, hstr⟩, _⟩ := hok
        by_cases h0 : ele = 0
        · exact ⟨L, by simp [stepCall, q_insert_head, h0, hwf], by
            simp [stepCall, q_insert_head, h0]⟩
        · obtain ⟨a1, a2, _⟩ := q_insert_head_spec hwf h0 (hfresh L hwf) s str
          refine ⟨ele :: L, a1, ?_⟩
          simp only [stepCall, a2, hstr h0, if_true, List.length_cons]
          push_cast; ring
      | insertTail s ele str =>
        obtain ⟨⟨hfresh, hstr⟩, _⟩ := hok
        by_cases h0 : ele = 0
        · exact ⟨L, by simp [stepCall, q_insert_tail, h0, hwf], by
            simp [stepCall, q_insert_tail, h0]⟩
        · obtain ⟨a1, a2, _⟩ := q_insert_tail_spec hwf h0 (hfresh L hwf) s str
          refine ⟨L ++ [ele], a1, ?_⟩
          simp only [stepCall, a2, hstr h0, if_true, List.length_append, List.length_singleton]
          push_cast; ring
      | removeHead sp bufsize =>
        cases L with
        | nil =>
          refine ⟨[], ?_, ?_⟩ <;> simp only [stepCall, q_remove_head_nil hwf]
          · exact hwf
          · simp
        | cons x K =>
          have hx : x ≠ 0 := fun e => hwf.nonnull (by simp [e])
          refine ⟨K, ?_, ?_⟩ <;> simp only [stepCall, q_remove_head_cons hwf]
          · exact WF.list_del (A := []) hwf
          · simp [hx]
      | removeTail sp bufsize =>
        rcases List.eq_nil_or_concat L with rfl | ⟨K, x, rfl⟩
        · refine ⟨[], ?_, ?_⟩ <;> simp only [stepCall, q_remove_tail_nil hwf]
          · exact hwf
          · simp
        · rw [List.concat_eq_append] at hwf ⊢
          have hx : x ≠ 0 := fun e => hwf.nonnull (by simp [e])
          refine ⟨K, ?_, ?_⟩ <;> simp only [stepCall, q_remove_tail_concat hwf]
          · simpa using WF.list_del (B := []) hwf
          · simp [hx]
    obtain ⟨L1, w1, n1⟩ := key
    obtain ⟨L', w2, n2⟩ := runCalls_length cs _ head L1 w1 hok.2
    refine ⟨L', w2, ?_⟩
    simp only [runCalls]
    rw [n2, n1]; ring

theorem stepCall_le_one (h : Heap) (head : Ptr) (c : QCall) : (stepCall h head c).2 ≤ 1 := by
  cases c <;> simp only [stepCall] <;> split <;> omega

theorem runCalls_le_length :
    ∀ (cs : List QCall) (h : Heap) (head : Ptr), (runCalls h head cs).2 ≤ cs.length
  | [], _, _ => by simp [runCalls]
  | c :: cs, h, head => by
    have h1 := stepCall_le_one h head c
    have h2 := runCalls_le_length cs (stepCall h head c).1 head
    simp only [runCalls, List.length_cons]
    push_cast
    omega

/-- When the allocator behaves and no string allocation fails, `q_size` after any sequence of
insert and remove calls on a newly created queue is the number of inserts that returned true
minus the number of removes that returned an element. -/
theorem q_size_net_count (h : Heap) (head : Ptr) (cs : List QCall) (fuel : Nat)
    (h0 : head ≠ 0) (hok : callsOk (q_new h head).1 head cs) (hf : cs.length < fuel) :
    ∃ n : Nat, q_size fuel (runCalls (q_new h head).1 head cs).1 head = some n ∧
      (n : Int) = (runCalls (q_new h head).1 head cs).2 := by
  obtain ⟨L', w, n⟩ := runCalls_length cs _ head [] (q_new_wf h h0).2 hok
  have hle := runCalls_le_length cs (q_new h head).1 head
  refine ⟨L'.length, q_size_spec w ?_, by simpa using n⟩
  have : (L'.length : Int) ≤ cs.length := by rw [n]; simpa using hle
  omega

/-- C6 (failing input): on a newly created queue, `q_insert_head` of `"x"` whose element
allocation succeeds and whose string allocation fails returns false, so the net count of
successful inserts is 0, yet `q_size` afterwards is 1. -/
theorem q_size_after_failed_insert :
    (q_insert_head (q_new emptyHeap 1).1 1 [120, 0] 2 none).2 = false ∧
      (runCalls (q_new emptyHeap 1).1 1 [QCall.insertHead [120, 0] 2 none]).2 = 0 ∧
      q_size 3 (runCalls (q_new emptyHeap 1).1 1 [QCall.insertHead [120, 0] 2 none]).1 1 =
        some 1 := by
  decide

/-! ## Involution of the pairwise swap -/

theorem swapPairs_swapPairs : ∀ L : List Ptr, swapPairs (swapPairs L) = L
  | [] => rfl
  | [_] => rfl
  | a :: b :: L => by simp [swapPairs_swapPairs L]

/-- C11: `q_swap` is an involution. For every well-formed queue with element sequence `L`,
with enough fuel two successive calls return and the element sequence is `L` again, with the
payloads unchanged. -/
theorem q_swap_involution (h : Heap) (head : Ptr) (L : List Ptr) (fuel : Nat)
    (hwf : WF h head L) (hf : L.length < fuel) :
    ∃ h1, q_swap fuel h head = some h1 ∧
      ∃ h2, q_swap fuel h1 head = some h2 ∧ WF h2 head L ∧ (∀ x, h2.value x = h.value x) := by
  obtain ⟨h1, a1, a2, a3, _⟩ := q_swap_spec hwf hf
  obtain ⟨h2, b1, b2, b3, _⟩ := q_swap_spec a2 (show (swapPairs L).length < fuel by
    rw [swapPairs_length]; exact hf)
  rw [swapPairs_swapPairs] at b2
  exact ⟨h1, a1, h2, b1, b2, fun x => by rw [b3, a3]⟩

/-- Witness for C11: swapping the six elements 2, 3, 4, 5, 6, 7 twice. -/
theorem q_swap_involution_witness :
    WF (tailQueue digits) 1 [2, 3, 4, 5, 6, 7] ∧
      ∃ h1, q_swap 7 (tailQueue digits) 1 = some h1 ∧
        ∃ h2, q_swap 7 h1 1 = some h2 ∧ WF h2 1 [2, 3, 4, 5, 6, 7] :=
  ⟨⟨by decide, by decide, by decide, by decide⟩, by
    obtain ⟨h1, e1, h2, e2, e3, _⟩ := q_swap_involution (tailQueue digits) 1 [2, 3, 4, 5, 6, 7] 7
      ⟨by decide, by decide, by decide, by decide⟩ (by decide)
    exact ⟨h1, e1, h2, e2, e3⟩⟩

/-! ## What `q_delete_dup` keeps -/

theorem dedupKeep_cons (v : Ptr → CStr) (p : Option Ptr) (n : Ptr) (L : List Ptr) :
    dedupKeep v p (n :: L) =
      if strncmp (v n) (match p with | none => [0] | some m => v m) MAX_STR_SIZE = 0 then
        dedupKeep v p L
      else n :: dedupKeep v (some n) L := by
  cases p <;> simp only [dedupKeep]

theorem dedupKeep_chain (v : Ptr → CStr) :
    ∀ (L : List Ptr) (p : Option Ptr),
      (dedupKeep v p L).Chain' (fun a b => strncmp (v a) (v b) MAX_STR_SIZE ≠ 0) ∧
      ∀ y ∈ (dedupKeep v p L).head?, ∀ q, p = some q → strncmp (v y) (v q) MAX_STR_SIZE ≠ 0
  | [], _ => by simp [dedupKeep]
  | n :: L, p => by
    rw [dedupKeep_cons]
    split
    · exact dedupKeep_chain v L p
    · rename_i hcmp
      obtain ⟨i1, i2⟩ := dedupKeep_chain v L (some n)
      refine ⟨List.chain'_cons'.2 ⟨?_, i1⟩, ?_⟩
      · intro y hy
        have := i2 y hy n rfl
        rw [strncmp_neg] at this
        simpa using this
      · intro y hy q hq
        simp only [List.head?_cons, Option.mem_def, Option.some.injEq] at hy
        subst hy
        subst hq
        exact hcmp

/-- C12: for every well-formed (hence non-null) queue, with enough fuel `q_delete_dup`
returns true and leaves a well-formed queue in which no two adjacent elements have payloads
that compare equal under `strncmp(., ., 1024)`, and `q_size` afterwards is at most `q_size`
before; this holds whether or not the queue is in ascending order. -/
theorem q_delete_dup_no_adjacent_equal (h : Heap) (head : Ptr) (L : List Ptr) (fuel : Nat)
    (hwf : WF h head L) (hf : L.length < fuel) :
    ∃ h' K, q_delete_dup fuel h head = some (h', true) ∧ WF h' head K ∧
      K.Chain' (fun a b => strncmp (h'.value a) (h'.value b) 1024 ≠ 0) ∧
      q_size fuel h head = some L.length ∧ q_size fuel h' head = some K.length ∧
      K.length ≤ L.length := by
  obtain ⟨h', e1, e2, e3, _⟩ := q_delete_dup_spec hwf hf
  have hlen : (dedupKeep h.value none L).length ≤ L.length :=
    (dedupKeep_sublist h.value L none).length_le
  refine ⟨h', _, e1, e2, ?_, q_size_spec hwf hf, q_size_spec e2 (by omega), hlen⟩
  rw [e3]
  exact (dedupKeep_chain h.value L none).1

/-- Witness for C12 on the queue 0, 1, 2, 3, 4, 5. -/
theorem q_delete_dup_no_adjacent_equal_witness :
    WF (tailQueue digits) 1 [2, 3, 4, 5, 6, 7] ∧
      ∃ h' K, q_delete_dup 7 (tailQueue digits) 1 = some (h', true) ∧ WF h' 1 K ∧
        K.Chain' (fun a b => strncmp (h'.value a) (h'.value b) 1024 ≠ 0) :=
  ⟨⟨by decide, by decide, by decide, by decide⟩, by
    obtain ⟨h', K, e1, e2, e3, _⟩ :=
      q_delete_dup_no_adjacent_equal (tailQueue digits) 1 [2, 3, 4, 5, 6, 7] 7
        ⟨by decide, by decide, by decide, by decide⟩ (by decide)
    exact ⟨h', K, e1, e2, e3⟩⟩

/-! ## Runs of equal payloads -/

theorem strlen_eq_zero_iff (s : CStr) : strlen s = 0 ↔ s.headD 0 = 0 := by
  cases s with
  | nil => simp [strlen]
  | cons c s =>
    by_cases hc : c = 0
    · simp [strlen, hc]
    · simp [strlen, hc]

theorem strncmp_succ (a b : CStr) (n : Nat) :
    strncmp a b (n + 1) =
      if a.headD 0 ≠ b.headD 0 then (a.headD 0 : Int) - (b.headD 0 : Int)
      else if a.headD 0 = 0 then 0
      else strncmp a.tail b.tail n := by
  rw [strncmp]

theorem MAX_STR_SIZE_eq : MAX_STR_SIZE = 1023 + 1 := rfl

/-- A payload compares equal to the literal `""` exactly when it is the empty string. -/
theorem strncmp_empty_iff (s : CStr) : strncmp s [0] MAX_STR_SIZE = 0 ↔ strlen s = 0 := by
  rw [strlen_eq_zero_iff, MAX_STR_SIZE_eq, strncmp_succ]
  by_cases hs : s.headD 0 = 0
  · simp only [List.headD_cons, hs, ne_eq, not_true_eq_false, if_false, if_true]
  · simp only [List.headD_cons, ne_eq, hs, not_false_eq_true, if_true, iff_false]
    omega

theorem strncmp_of_empty {a b : CStr} (ha : strlen a = 0) (hb : strlen b = 0) :
    strncmp a b MAX_STR_SIZE = 0 := by
  rw [strlen_eq_zero_iff] at ha hb
  rw [MAX_STR_SIZE_eq, strncmp_succ]
  simp only [ha, hb, ne_eq, not_true_eq_false, if_false, if_true]

theorem strncmp_ne_of_empty {a b : CStr} (ha : strlen a ≠ 0) (hb : strlen b = 0) :
    strncmp a b MAX_STR_SIZE ≠ 0 := by
  rw [Ne, strlen_eq_zero_iff] at ha
  rw [strlen_eq_zero_iff] at hb
  rw [MAX_STR_SIZE_eq, strncmp_succ]
  simp only [hb, ne_eq, ha, not_false_eq_true, if_true]
  omega

theorem strlen_ne_of_le {a b : CStr} (ha : strlen a ≠ 0)
    (hab : strncmp a b MAX_STR_SIZE ≤ 0) : strlen b ≠ 0 := by
  intro hb
  rw [Ne, strlen_eq_zero_iff] at ha
  rw [strlen_eq_zero_iff] at hb
  rw [MAX_STR_SIZE_eq, strncmp_succ] at hab
  simp only [hb, ne_eq, ha, not_false_eq_true, if_true] at hab
  omega

theorem strncmp_eq_trans {a b c : CStr} {n : Nat} (h1 : strncmp a b n = 0)
    (h2 : strncmp b c n = 0) : strncmp a c n = 0 := by
  have l1 := strncmp_trans n a b c (by omega) (by omega)
  have l2 := strncmp_trans n c b a (by rw [strncmp_neg]; omega) (by rw [strncmp_neg]; omega)
  rw [strncmp_neg] at l2
  omega

theorem strncmp_eq_symm {a b : CStr} {n : Nat} (h1 : strncmp a b n = 0) :
    strncmp b a n = 0 := by
  rw [strncmp_neg]; omega

theorem firstOfRuns_cons_some (v : Ptr → CStr) (q n : Ptr) (L : List Ptr) :
    firstOfRuns v (some q) (n :: L) =
      if strncmp (v n) (v q) MAX_STR_SIZE = 0 then firstOfRuns v (some n) L
      else n :: firstOfRuns v (some n) L := by
  simp only [firstOfRuns, decide_eq_true_eq]

theorem firstOfRuns_cons_none (v : Ptr → CStr) (n : Ptr) (L : List Ptr) :
    firstOfRuns v none (n :: L) = n :: firstOfRuns v (some n) L := by
  simp [firstOfRuns]

/-- Once an element is retained, the loop keeps exactly the first element of each run. -/
theorem dedupKeep_some_eq (v : Ptr → CStr) :
    ∀ (L : List Ptr) (p q : Ptr), strncmp (v p) (v q) MAX_STR_SIZE = 0 →
      dedupKeep v (some p) L = firstOfRuns v (some q) L
  | [], _, _, _ => by simp [dedupKeep, firstOfRuns]
  | n :: L, p, q, hpq => by
    rw [dedupKeep_cons, firstOfRuns_cons_some]
    by_cases hn : strncmp (v n) (v p) MAX_STR_SIZE = 0
    · have hq : strncmp (v n) (v q) MAX_STR_SIZE = 0 := strncmp_eq_trans hn hpq
      rw [if_pos hn, if_pos hq]
      exact dedupKeep_some_eq v L p n (strncmp_eq_symm hn)
    · have hq : ¬ strncmp (v n) (v q) MAX_STR_SIZE = 0 := fun e =>
        hn (strncmp_eq_trans e (strncmp_eq_symm hpq))
      rw [if_neg hn, if_neg hq]
      rw [dedupKeep_some_eq v L n n (strncmp_self _ _)]

theorem filter_eq_self_of_sorted (v : Ptr → CStr) (n : Ptr) (hn : strlen (v n) ≠ 0) :
    ∀ (L : List Ptr) (prev : Option Ptr), (∀ x ∈ L, valueLe v n x) →
      (firstOfRuns v prev L).filter (fun x => decide (strlen (v x) ≠ 0)) = firstOfRuns v prev L
  | [], _, _ => by simp [firstOfRuns]
  | m :: L, prev, hle => by
    have hm : strlen (v m) ≠ 0 := strlen_ne_of_le hn (hle m (by simp))
    have ih := filter_eq_self_of_sorted v n hn L (some m)
      (fun x hx => hle x (List.mem_cons_of_mem _ hx))
    cases prev with
    | none =>
      rw [firstOfRuns_cons_none, List.filter_cons_of_pos (by simpa using hm), ih]
    | some q =>
      rw [firstOfRuns_cons_some]
      split
      · exact ih
      · rw [List.filter_cons_of_pos (by simpa using hm), ih]

/-- On a queue in ascending order, the loop keeps the first element of each run of equal
payloads, except the elements whose payload is the empty string. -/
theorem dedupKeep_none_eq (v : Ptr → CStr) :
    ∀ (L : List Ptr) (prev : Option Ptr), L.Pairwise (valueLe v) →
      (∀ q, prev = some q → strlen (v q) = 0) →
      dedupKeep v none L =
        (firstOfRuns v prev L).filter (fun x => decide (strlen (v x) ≠ 0))
  | [], _, _, _ => by simp [dedupKeep, firstOfRuns]
  | n :: L, prev, hs, hp => by
    rw [dedupKeep_cons]
    have hs' := (List.pairwise_cons.1 hs).2
    by_cases hn : strlen (v n) = 0
    · have hcmp : strncmp (v n) [0] MAX_STR_SIZE = 0 := (strncmp_empty_iff _).2 hn
      simp only [hcmp, if_true]
      have ih := dedupKeep_none_eq v L (some n) hs' (fun q e => by cases e; exact hn)
      cases prev with
      | none =>
        rw [firstOfRuns_cons_none, List.filter_cons_of_neg (by simpa using hn)]
        exact ih
      | some q =>
        rw [firstOfRuns_cons_some, if_pos (strncmp_of_empty hn (hp q rfl))]
        exact ih
    · have hcmp : ¬ strncmp (v n) [0] MAX_STR_SIZE = 0 := fun e => hn ((strncmp_empty_iff _).1 e)
      simp only [hcmp, if_false]
      have hrest : dedupKeep v (some n) L =
          (firstOfRuns v (some n) L).filter (fun x => decide (strlen (v x) ≠ 0)) := by
        rw [filter_eq_self_of_sorted v n hn L (some n) (List.pairwise_cons.1 hs).1]
        exact dedupKeep_some_eq v L n n (strncmp_self _ _)
      cases prev with
      | none =>
        rw [firstOfRuns_cons_none, List.filter_cons_of_pos (by simpa using hn), hrest]
      | some q =>
        rw [firstOfRuns_cons_some, if_neg (strncmp_ne_of_empty hn (hp q rfl)),
          List.filter_cons_of_pos (by simpa using hn), hrest]

theorem q_delete_dup_nil {h : Heap} {head : Ptr} (hwf : WF h head []) {n : Nat} (hn : 0 < n) :
    q_delete_dup n h head = some (h, true) := by
  obtain ⟨m, rfl⟩ : ∃ m, n = m + 1 := ⟨n - 1, by omega⟩
  have := hwf.links
  simp only [dseg] at this
  simp [q_delete_dup, hwf.head_ne, q_delete_dup_loop, this.1]

/-- C13: `q_delete_dup` returns false on a null queue and, with enough fuel, true on every
well-formed one, an empty queue being left unchanged. It keeps an element exactly when its
payload does not compare equal (1024-byte `strncmp`) to the last retained payload, the
retained reference starting as `""`. On a queue in ascending order the result is the first
element of each run of equal payloads, in the original order, without the elements whose
payload is the empty string; the first element is retained whenever its payload is
non-empty. -/
theorem q_delete_dup_keeps_first_of_runs (h : Heap) (head : Ptr) (L : List Ptr) (fuel : Nat)
    (hwf : WF h head L) (hf : L.length < fuel) :
    q_delete_dup fuel h 0 = some (h, false) ∧
    (∃ h', q_delete_dup fuel h head = some (h', true) ∧
      WF h' head (dedupKeep h.value none L) ∧ (∀ x, h'.value x = h.value x) ∧
      (L = [] → h' = h)) ∧
    (∀ (p : Option Ptr) (n : Ptr) (K : List Ptr),
      dedupKeep h.value p (n :: K) =
        if strncmp (h.value n) (q_delete_dup_str h p) 1024 = 0 then dedupKeep h.value p K
        else n :: dedupKeep h.value (some n) K) ∧
    dedupKeep h.value none [] = [] ∧
    (L.Pairwise (fun a b => strncmp (h.value a) (h.value b) 1024 ≤ 0) →
      dedupKeep h.value none L =
        (firstOfRuns h.value none L).filter (fun x => decide (strlen (h.value x) ≠ 0))) ∧
    (∀ x K, L = x :: K → strlen (h.value x) ≠ 0 →
      dedupKeep h.value none L = x :: dedupKeep h.value (some x) K) := by
  obtain ⟨h', e1, e2, e3, _⟩ := q_delete_dup_spec hwf hf
  refine ⟨q_delete_dup_null fuel h, ⟨h', e1, e2, fun x => by rw [e3], ?_⟩, ?_, by simp [dedupKeep],
    ?_, ?_⟩
  · intro hL
    subst hL
    have := q_delete_dup_nil hwf (show 0 < fuel by omega)
    rw [e1] at this
    exact (Prod.mk.inj (Option.some.inj this)).1
  · intro p n K
    rw [dedupKeep_cons, q_delete_dup_str_eq]
    rfl
  · intro hs
    exact dedupKeep_none_eq h.value L none hs (by simp)
  · intro x K hL hx
    subst hL
    rw [dedupKeep_cons, if_neg (fun e => hx ((strncmp_empty_iff _).1 e))]

/-- Witness for C13: from `""`, `"a"`, `"a"`, `"b"` the loop keeps the first `"a"` and `"b"`. -/
theorem q_delete_dup_keeps_first_of_runs_witness :
    WF (tailQueue dups) 1 [2, 3, 4, 5] ∧
      ∃ h', q_delete_dup 5 (tailQueue dups) 1 = some (h', true) ∧ WF h' 1 [3, 5] :=
  ⟨⟨by decide, by decide, by decide, by decide⟩, by
    obtain ⟨_, ⟨h', e1, e2, _⟩, _⟩ :=
      q_delete_dup_keeps_first_of_runs (tailQueue dups) 1 [2, 3, 4, 5] 5
        ⟨by decide, by decide, by decide, by decide⟩ (by decide)
    have hk : dedupKeep (tailQueue dups).value none [2, 3, 4, 5] = [3, 5] := by decide
    rw [hk] at e2
    exact ⟨h', e1, e2⟩⟩

/-! ## The output buffer of the remove operations -/

theorem strncpyBytes_of_lt : ∀ (n : Nat) (s : CStr), strlen s < n →
    strncpyBytes s n =
      s.takeWhile (fun c => decide (c ≠ 0)) ++ List.replicate (n - strlen s) 0
  | 0, _, hn => by omega
  | n + 1, [], _ => by simp [strncpyBytes, strlen]
  | n + 1, c :: s, hn => by
    by_cases hc : c = 0
    · simp [strncpyBytes, strlen, hc]
    · simp only [strlen, hc, if_false] at hn
      have ih := strncpyBytes_of_lt n s (by omega)
      have e : n + 1 - (strlen s + 1) = n - strlen s := by omega
      simp [strncpyBytes, strlen, hc, ih, e]

theorem strncpyBytes_of_ge : ∀ (n : Nat) (s : CStr), n ≤ strlen s →
    strncpyBytes s n = s.take n ∧ 0 ∉ strncpyBytes s n
  | 0, _, _ => by simp [strncpyBytes]
  | n + 1, [], hn => by simp [strlen] at hn
  | n + 1, c :: s, hn => by
    by_cases hc : c = 0
    · simp [strlen, hc] at hn
    · simp only [strlen, hc, if_false] at hn
      obtain ⟨i1, i2⟩ := strncpyBytes_of_ge n s (by omega)
      simp only [strncpyBytes, List.headD_cons, hc, if_false, List.tail_cons, List.take_succ_cons,
        List.mem_cons, not_or]
      exact ⟨by rw [i1], fun e => hc e.symm, i2⟩

/-- What `q_remove_head` leaves in a non-null buffer of at least `bufsize` bytes, for a queue
`x :: K`: when the payload is shorter than `bufsize` its bytes followed by zeros up to
`bufsize`, otherwise its first `bufsize` bytes and no terminator among them. -/
theorem q_remove_head_buffer {h : Heap} {head x : Ptr} {K : List Ptr}
    (hwf : WF h head (x :: K)) (buf : CStr) (bufsize : Nat) :
    (q_remove_head h head (some buf) bufsize).2.2 =
        some (strncpyBytes (h.value x) bufsize ++ buf.drop bufsize) ∧
      (strlen (h.value x) < bufsize →
        strncpyBytes (h.value x) bufsize =
          (h.value x).takeWhile (fun c => decide (c ≠ 0)) ++
            List.replicate (bufsize - strlen (h.value x)) 0) ∧
      (bufsize ≤ strlen (h.value x) →
        strncpyBytes (h.value x) bufsize = (h.value x).take bufsize ∧
          0 ∉ strncpyBytes (h.value x) bufsize) := by
  refine ⟨?_, strncpyBytes_of_lt _ _, strncpyBytes_of_ge _ _⟩
  rw [q_remove_head_cons hwf]
  rfl

/-- C14 (failing input): a queue holding the single payload `"ab"`, removed with a 2-byte
buffer and `bufsize = 2`: both `q_remove_head` and `q_remove_tail` leave the bytes `a`, `b`
in the buffer, with no terminator, where the documented result is `a`, `0`. With the payload
`"x"` the same call leaves `x`, `0`. -/
theorem q_remove_buffer_unterminated :
    (q_remove_head (q_insert_head (q_new emptyHeap 1).1 1 [97, 98, 0] 2 (some [7, 7, 7])).1 1
        (some [7, 7]) 2).2.2 = some [97, 98] ∧
      (q_remove_tail (q_insert_head (q_new emptyHeap 1).1 1 [97, 98, 0] 2 (some [7, 7, 7])).1 1
        (some [7, 7]) 2).2.2 = some [97, 98] ∧
      (q_remove_head (q_insert_head (q_new emptyHeap 1).1 1 [120, 0] 2 (some [7, 7])).1 1
        (some [7, 7]) 2).2.2 = some [120, 0] := by
  decide

/-! ## Failure of the insert operations -/

theorem q_insert_null (h : Heap) (s : CStr) (ele : Ptr) (str : Option CStr) :
    q_insert_head h 0 s ele str = (h, false) ∧ q_insert_tail h 0 s ele str = (h, false) := by
  simp [q_insert_head, q_insert_tail]

theorem q_insert_no_element (h : Heap) (head : Ptr) (s : CStr) (str : Option CStr) :
    q_insert_head h head s 0 str = (h, false) ∧ q_insert_tail h head s 0 str = (h, false) := by
  simp [q_insert_head, q_insert_tail]

/-- When the element allocation succeeds and the string allocation fails, both inserts
return false with the new element linked into the queue. -/
theorem q_insert_string_failure {h : Heap} {head : Ptr} {L : List Ptr} (hwf : WF h head L)
    {ele : Ptr} (h0 : ele ≠ 0) (hfresh : ele ∉ head :: L) (s : CStr) :
    (q_insert_head h head s ele none).2 = false ∧
      WF (q_insert_head h head s ele none).1 head (ele :: L) ∧
      (q_insert_tail h head s ele none).2 = false ∧
      WF (q_insert_tail h head s ele none).1 head (L ++ [ele]) := by
  obtain ⟨a1, a2, _⟩ := q_insert_head_spec hwf h0 hfresh s none
  obtain ⟨b1, b2, _⟩ := q_insert_tail_spec hwf h0 hfresh s none
  exact ⟨a2, a1, b2, b1⟩

/-- C15 (failing input): on a newly created, empty queue, an insert of `"x"` whose element
allocation succeeds and whose string allocation fails returns false, yet the queue is no
longer empty: the new element is its only element and `q_size` went from 0 to 1. This holds
for `q_insert_head` and for `q_insert_tail`. -/
theorem q_insert_failure_not_atomic :
    WF (q_new emptyHeap 1).1 1 [] ∧ q_size 3 (q_new emptyHeap 1).1 1 = some 0 ∧
      (q_insert_head (q_new emptyHeap 1).1 1 [120, 0] 2 none).2 = false ∧
      WF (q_insert_head (q_new emptyHeap 1).1 1 [120, 0] 2 none).1 1 [2] ∧
      q_size 3 (q_insert_head (q_new emptyHeap 1).1 1 [120, 0] 2 none).1 1 = some 1 ∧
      (q_insert_tail (q_new emptyHeap 1).1 1 [120, 0] 2 none).2 = false ∧
      WF (q_insert_tail (q_new emptyHeap 1).1 1 [120, 0] 2 none).1 1 [2] ∧
      q_size 3 (q_insert_tail (q_new emptyHeap 1).1 1 [120, 0] 2 none).1 1 = some 1 :=
  ⟨⟨by decide, by decide, by decide, by decide⟩, by decide, by decide,
    ⟨by decide, by decide, by decide, by decide⟩, by decide, by decide,
    ⟨by decide, by decide, by decide, by decide⟩, by decide⟩

/-- C17 (failing input): on the ascending queue `"a"`, `"a"`, `"b"` the call keeps the first
`"a"` and `"b"`: the payload `"a"`, which occurs twice in the input, still occurs in the
output, where the documented result is `"b"` alone. -/
theorem q_delete_dup_keeps_duplicated :
    WF (tailQueue aab) 1 [2, 3, 4] ∧
      payloads (tailQueue aab) 3 1 = [[97, 0], [97, 0], [98, 0]] ∧
      (q_delete_dup 4 (tailQueue aab) 1).map (fun r => (payloads r.1 2 1, r.1.next 1,
        r.1.next (r.1.next 1), r.1.next (r.1.next (r.1.next 1)), r.2)) =
        some ([[97, 0], [98, 0]], 2, 4, 1, true) := by
  refine ⟨⟨by decide, by decide, by decide, by decide⟩, by decide, by decide⟩

/-! ## The comparison looks only at the first `MAX_STR_SIZE` bytes -/

theorem strncmp_of_take_eq : ∀ (n : Nat) (a b : CStr), a.take n = b.take n → strncmp a b n = 0
  | 0, _, _, _ => by simp [strncmp]
  | n + 1, a, b, hab => by
    rw [strncmp_succ]
    have hh : a.headD 0 = b.headD 0 ∧ a.tail.take n = b.tail.take n := by
      cases a with
      | nil =>
        cases b with
        | nil => simp
        | cons d b => simp at hab
      | cons c a =>
        cases b with
        | nil => simp at hab
        | cons d b =>
          simp only [List.take_succ_cons, List.cons.injEq] at hab
          simpa using hab
    simp only [ne_eq, hh.1, not_true_eq_false, if_false]
    split
    · rfl
    · exact strncmp_of_take_eq n a.tail b.tail hh.2

/-- An element whose payload compares equal to that of the element just before it is
dropped by the loop of `q_delete_dup`, and the rest of the result is as if it were absent. -/
theorem dedupKeep_drop_second (v : Ptr → CStr) (x y : Ptr) (B : List Ptr)
    (hxy : strncmp (v y) (v x) MAX_STR_SIZE = 0) :
    ∀ (A : List Ptr) (p : Option Ptr),
      dedupKeep v p (A ++ x :: y :: B) = dedupKeep v p (A ++ x :: B)
  | [], p => by
    simp only [List.nil_append]
    rw [dedupKeep_cons v p x, dedupKeep_cons v p x]
    split
    · rename_i hx
      rw [dedupKeep_cons, if_pos (strncmp_eq_trans hxy hx)]
    · rw [dedupKeep_cons, if_pos hxy]
  | a :: A, p => by
    simp only [List.cons_append]
    rw [dedupKeep_cons v p a, dedupKeep_cons v p a, dedupKeep_drop_second v x y B hxy A p,
      dedupKeep_drop_second v x y B hxy A (some a)]

theorem pairQueue_wf (a b : CStr) : WF (pairQueue a b) 1 [2, 3] :=
  ⟨by decide, by decide, by decide, by simp [dseg, pairQueue]⟩

set_option maxRecDepth 100000

/-- On a two-element queue whose payloads are `longA` and `longB` in either order, `q_sort`
returns the element at `3` first and the element at `2` second. -/
theorem q_sort_pairQueue_long :
    (q_sort 4 (pairQueue longA longB) 1).map (fun r => (r.next 1, r.next (r.next 1))) =
        some (3, 2) ∧
      (q_sort 4 (pairQueue longB longA) 1).map (fun r => (r.next 1, r.next (r.next 1))) =
        some (3, 2) ∧
      longA.take 1024 = longB.take 1024 ∧ longA ≠ longB :=
  ⟨by decide, by decide, by decide, by decide⟩

set_option maxRecDepth 512

theorem q_sort_pairQueue_payloads (a b : CStr)
    (hd : (q_sort 4 (pairQueue a b) 1).map (fun r => (r.next 1, r.next (r.next 1))) =
      some (3, 2)) :
    ∃ r, q_sort 4 (pairQueue a b) 1 = some r ∧ payloads r 2 1 = [b, a] := by
  obtain ⟨h', M, s1, _, _, _, s5, _⟩ := q_sort_spec (pairQueue_wf a b) (show 2 + 2 ≤ 4 by decide)
  rw [s1] at hd
  simp only [Option.map_some', Option.some.injEq, Prod.mk.injEq] at hd
  obtain ⟨hd1, hd2⟩ := hd
  rw [hd1] at hd2
  refine ⟨h', s1, ?_⟩
  simp only [payloads, hd1, hd2, s5]
  rfl

/-- C16: payload comparison looks only at the first 1024 bytes. If two adjacent elements `x`,
`y` of a well-formed queue have payloads that agree on their first 1024 bytes, then `strncmp`
with bound `MAX_STR_SIZE` returns 0 for them in both directions; `q_delete_dup` removes `y`
(the result is what it would be without `y`); and `q_sort` returns an ascending queue that
holds both, each being below-or-equal the other, so the order they come out in is not fixed
by their bytes. On the two payloads `longA`, `longB`, which differ only in byte 1025,
`q_sort` gives `longB`, `longA` for the queue `longA`, `longB`, and `longA`, `longB` for the
queue `longB`, `longA`. -/
theorem comparison_bounded_by_1024 (h : Heap) (head : Ptr) (A B : List Ptr) (x y : Ptr)
    (fuel : Nat) (hwf : WF h head (A ++ x :: y :: B))
    (hxy : (h.value x).take 1024 = (h.value y).take 1024)
    (hf : (A ++ x :: y :: B).length + 2 ≤ fuel) :
    strncmp (h.value x) (h.value y) MAX_STR_SIZE = 0 ∧
    strncmp (h.value y) (h.value x) MAX_STR_SIZE = 0 ∧
    (∃ h' K, q_delete_dup fuel h head = some (h', true) ∧ WF h' head K ∧ y ∉ K ∧
      K = dedupKeep h.value none (A ++ x :: B)) ∧
    (∃ h' M, q_sort fuel h head = some h' ∧ WF h' head M ∧ x ∈ M ∧ y ∈ M ∧
      M.Chain' (fun a b => strncmp (h'.value a) (h'.value b) 1024 ≤ 0) ∧
      strncmp (h'.value x) (h'.value y) 1024 ≤ 0 ∧ strncmp (h'.value y) (h'.value x) 1024 ≤ 0) ∧
    (longA.take 1024 = longB.take 1024 ∧ longA ≠ longB ∧
      (∃ r, q_sort 4 (pairQueue longA longB) 1 = some r ∧ payloads r 2 1 = [longB, longA]) ∧
      (∃ r, q_sort 4 (pairQueue longB longA) 1 = some r ∧ payloads r 2 1 = [longA, longB])) := by
  have e1 : strncmp (h.value x) (h.value y) MAX_STR_SIZE = 0 := strncmp_of_take_eq _ _ _ hxy
  have e2 : strncmp (h.value y) (h.value x) MAX_STR_SIZE = 0 := strncmp_eq_symm e1
  refine ⟨e1, e2, ?_, ?_, q_sort_pairQueue_long.2.2.1, q_sort_pairQueue_long.2.2.2,
    q_sort_pairQueue_payloads _ _ q_sort_pairQueue_long.1,
    q_sort_pairQueue_payloads _ _ q_sort_pairQueue_long.2.1⟩
  · obtain ⟨h', d1, d2, _⟩ := q_delete_dup_spec hwf (show (A ++ x :: y :: B).length < fuel by omega)
    rw [dedupKeep_drop_second h.value x y B e2 A none] at d2
    refine ⟨h', _, d1, d2, ?_, rfl⟩
    intro hm
    have hsub := (dedupKeep_sublist h.value (A ++ x :: B) none).subset hm
    have hnd := (List.nodup_cons.1 hwf.nodup).2
    have : y ∉ A ++ x :: B := by
      intro hy
      have h3 : (A ++ x :: y :: B).Nodup := hnd
      rw [List.nodup_append] at h3
      rcases List.mem_append.1 hy with hy | hy
      · exact h3.2.2 hy (by simp)
      · have h4 := h3.2.1
        simp only [List.nodup_cons, List.mem_cons, not_or] at h4
        rcases List.mem_cons.1 hy with rfl | hy
        · exact h4.1.1 rfl
        · exact h4.2.1 hy
    exact this hsub
  · obtain ⟨h', M, s1, s2, s3, s4, s5, _⟩ := q_sort_spec hwf hf
    refine ⟨h', M, s1, s2, s3.mem_iff.2 (by simp), s3.mem_iff.2 (by simp), ?_, ?_, ?_⟩
    · rw [s5]; exact List.Pairwise.chain' s4
    · rw [s5]; exact le_of_eq e1
    · rw [s5]; exact le_of_eq e2

/-- Witness for C16 on the queue `longA`, `longB`. -/
theorem comparison_bounded_by_1024_witness :
    WF (pairQueue longA longB) 1 [2, 3] ∧
      ((pairQueue longA longB).value 2).take 1024 =
        ((pairQueue longA longB).value 3).take 1024 ∧
      ∃ h' K, q_delete_dup 4 (pairQueue longA longB) 1 = some (h', true) ∧ WF h' 1 K ∧
        3 ∉ K :=
  ⟨pairQueue_wf longA longB, q_sort_pairQueue_long.2.2.1, by
    obtain ⟨_, _, ⟨h', K, e1, e2, e3, _⟩, _⟩ :=
      comparison_bounded_by_1024 (pairQueue longA longB) 1 [] [] 2 3 4
        (pairQueue_wf longA longB) q_sort_pairQueue_long.2.2.1 (by decide)
    exact ⟨h', K, e1, e2, e3⟩⟩

/-! ## Ties in `mergeTwoLists` -/

/-- C19 (counterexample): two chains of one node each, at `2` and at `3`, whose payloads
compare equal: `mergeTwoLists` returns the chain `3`, `2`, so the node taken first is the
head of the second argument, not the head of `l1`. -/
theorem mergeTwoLists_tie_takes_second :
    lseg tieHeap.next 2 [2] 0 ∧ lseg tieHeap.next 3 [3] 0 ∧
      strncmp (tieHeap.value 2) (tieHeap.value 3) 1024 = 0 ∧
      (mergeTwoLists 3 tieHeap 2 3).map (fun r => (r.2, r.1.next r.2, r.1.next (r.1.next r.2))) =
        some (3, 2, 0) ∧
      ¬ ((mergeTwoLists 3 tieHeap 2 3).map (fun r => r.2) = some 2) := by
  refine ⟨by decide, by decide, by decide, by decide, by decide⟩

/-- C19 (amended): given two null-terminated chains `A` and `B`, each ascending, with enough
fuel `mergeTwoLists` returns a null-terminated chain made of exactly the nodes of both, in
ascending order, with no payload changed; the order is `mergeL`, which repeatedly takes the
head of `A` when it compares strictly below the head of `B` and the head of `B` otherwise.
Ties favor the second sequence: whenever the two current heads compare equal, the node taken
next is the head of the second argument `l2`. -/
theorem mergeTwoLists_ties_favor_second (h : Heap) (l1 l2 : Ptr) (A B : List Ptr) (fuel : Nat)
    (hA : lseg h.next l1 A 0) (hB : lseg h.next l2 B 0) (hA0 : 0 ∉ A) (hB0 : 0 ∉ B)
    (hnd : (A ++ B).Nodup)
    (hsA : A.Pairwise (fun a b => strncmp (h.value a) (h.value b) 1024 ≤ 0))
    (hsB : B.Pairwise (fun a b => strncmp (h.value a) (h.value b) 1024 ≤ 0))
    (hf : A.length + B.length < fuel) :
    (∃ h' r, mergeTwoLists fuel h l1 l2 = some (h', r) ∧
      lseg h'.next r (mergeL h.value A B) 0 ∧ (∀ x, h'.value x = h.value x) ∧
      (∀ a A' b B', A = a :: A' → B = b :: B' →
        strncmp (h.value a) (h.value b) 1024 = 0 → r = l2 ∧ r = b)) ∧
    (mergeL h.value A B).Perm (A ++ B) ∧
    (mergeL h.value A B).Pairwise (fun a b => strncmp (h.value a) (h.value b) 1024 ≤ 0) ∧
    (∀ B', mergeL h.value [] B' = B') ∧ (∀ A', mergeL h.value A' [] = A') ∧
    (∀ a A' b B', strncmp (h.value a) (h.value b) 1024 < 0 →
      mergeL h.value (a :: A') (b :: B') = a :: mergeL h.value A' (b :: B')) ∧
    (∀ a A' b B', 0 < strncmp (h.value a) (h.value b) 1024 →
      mergeL h.value (a :: A') (b :: B') = b :: mergeL h.value (a :: A') B') ∧
    (∀ a A' b B', strncmp (h.value a) (h.value b) 1024 = 0 →
      mergeL h.value (a :: A') (b :: B') = b :: mergeL h.value (a :: A') B') := by
  obtain ⟨h', r, e1, e2, _, _, e5, _⟩ := mergeTwoLists_spec hA hB hA0 hB0 hnd hf
  have hlt : ∀ a A' b B', ¬ strncmp (h.value a) (h.value b) 1024 < 0 →
      mergeL h.value (a :: A') (b :: B') = b :: mergeL h.value (a :: A') B' := by
    intro a A' b B' hc
    rw [mergeL_cons_cons]
    exact if_neg hc
  refine ⟨⟨h', r, e1, e2, fun x => by rw [e5], ?_⟩, mergeL_perm _ _ A B rfl,
    mergeL_sorted _ _ A B rfl hsA hsB, fun _ => mergeL_nil_left _ _, fun _ => mergeL_nil_right _ _,
    ?_, fun a A' b B' hc => hlt a A' b B' (by omega), fun a A' b B' hc => hlt a A' b B' (by omega)⟩
  · intro a A' b B' eA eB hc
    subst eA
    subst eB
    rw [hlt a A' b B' (by omega)] at e2
    have hb : l2 = b := hB.1
    have hr : r = b := e2.1
    exact ⟨by rw [hr, hb], hr⟩
  · intro a A' b B' hc
    rw [mergeL_cons_cons]
    exact if_pos hc

/-- Witness for C19 (amended) on the two one-node chains of `tieHeap`. -/
theorem mergeTwoLists_ties_favor_second_witness :
    lseg tieHeap.next 2 [2] 0 ∧ lseg tieHeap.next 3 [3] 0 ∧
      ∃ h' r, mergeTwoLists 3 tieHeap 2 3 = some (h', r) ∧ r = 3 :=
  ⟨by decide, by decide, by
    obtain ⟨⟨h', r, e1, _, _, e4⟩, _⟩ := mergeTwoLists_ties_favor_second tieHeap 2 3 [2] [3] 3
      (by decide) (by decide) (by decide) (by decide) (by decide) (by simp) (by simp) (by decide)
    exact ⟨h', r, e1, (e4 2 [] 3 [] rfl rfl (by decide)).1⟩⟩

/-! ## The split of `mergesort` -/

/-- The slow/fast traversal of `mergesort` on a chain of at least two nodes stops with `slow`
at index `(n - 1) / 2`, and storing null in `slow->next` cuts the chain into the nodes up to
and including `slow` and the nodes after it. -/
theorem mergesort_split_spec {h : Heap} {head : Ptr} {L : List Ptr}
    (hl : lseg h.next head L 0) (h0 : 0 ∉ L) (hnd : L.Nodup) (h2 : 2 ≤ L.length) {n : Nat}
    (hn : (L.length - 1) / 2 < n) :
    ∃ slow L1 L2, mergesort_loop n h head (h.next head) = some slow ∧ L = L1 ++ slow :: L2 ∧
      L1.length = (L.length - 1) / 2 ∧
      lseg (h.setNext slow 0).next head (L1 ++ [slow]) 0 ∧
      lseg (h.setNext slow 0).next (h.next slow) L2 0 := by
  match L, hl, h0, hnd, h2, hn with
  | a :: b :: L, hl, h0, hnd, _, hn =>
    obtain ⟨ha, _⟩ := lseg_head_ne hl h0
    have hlt : lseg h.next (h.next head) (b :: L) 0 := by rw [ha]; exact hl.2
    obtain ⟨slow, e1, e2⟩ := mergesort_loop_spec h (b :: L) (a :: b :: L) head (h.next head) n
      hlt (fun hm => h0 (List.mem_cons_of_mem _ hm)) hl
      (by simp only [List.length_cons]; omega) (by simpa using hn)
    obtain ⟨L1, L2, eL, hlen⟩ := get?_split e2
    refine ⟨slow, L1, L2, e1, eL, by simpa using hlen, ?_⟩
    rw [eL] at hl hnd
    have hnd' : (L1 ++ [slow] ++ L2).Nodup := by simpa using hnd
    have hdisj := (List.nodup_append.1 hnd').2.2
    have hsl2 : slow ∉ L2 := fun hm => hdisj (by simp) hm
    have hsl1 : slow ∉ L1 := fun hm => by
      have := (List.nodup_append.1 (List.nodup_append.1 hnd').1).2.2
      exact this hm (by simp)
    obtain ⟨m, hm1, hm2⟩ := (lseg_append L1 head (slow :: L2) 0).1 hl
    constructor
    · refine (lseg_append L1 head [slow] 0).2 ⟨m, ?_, ?_⟩
      · refine lseg_congr (f := h.next) L1 head m ?_ hm1
        intro x hx
        have : x ≠ slow := fun e => hsl1 (e ▸ hx)
        simp [this]
      · simp only [lseg] at hm2 ⊢
        exact ⟨hm2.1, by simp⟩
    · refine lseg_congr (f := h.next) L2 _ 0 ?_ hm2.2
      intro x hx
      have : x ≠ slow := fun e => hsl2 (e ▸ hx)
      simp [this]

/-- C20: `mergesort` terminates on every null-terminated chain: with fuel at least `n + 2`
it returns. A chain of 0 or 1 nodes is returned as is, heap unchanged. For a chain of
`n >= 2` nodes the slow/fast traversal returns, and storing null in `slow->next` cuts the
chain into a first part of `ceil(n/2)` nodes ending at `slow` and a second part of
`floor(n/2)` nodes starting at the old `slow->next`, both non-empty and strictly shorter than
`n`. -/
theorem mergesort_terminates (h : Heap) (head : Ptr) (L : List Ptr) (fuel : Nat)
    (hl : lseg h.next head L 0) (h0 : 0 ∉ L) (hnd : L.Nodup) (hf : L.length + 2 ≤ fuel) :
    (∃ h' r, mergesort fuel h head = some (h', r)) ∧
    (L.length ≤ 1 → mergesort fuel h head = some (h, head)) ∧
    (2 ≤ L.length → ∃ slow L1 L2,
      mergesort_loop (fuel - 1) h head (h.next head) = some slow ∧
      L = L1 ++ L2 ∧ L1.getLast? = some slow ∧
      L1.length = (L.length + 1) / 2 ∧ L2.length = L.length / 2 ∧
      0 < L1.length ∧ L1.length < L.length ∧ 0 < L2.length ∧ L2.length < L.length ∧
      lseg (h.setNext slow 0).next head L1 0 ∧
      lseg (h.setNext slow 0).next (h.next slow) L2 0) := by
  obtain ⟨h', r, M, e1, _⟩ := mergesort_spec fuel L h head hl h0 hnd hf
  refine ⟨⟨h', r, e1⟩, ?_, ?_⟩
  · intro hs
    obtain ⟨n, rfl⟩ : ∃ n, fuel = n + 1 := ⟨fuel - 1, by omega⟩
    match L, hs, hl, h0 with
    | [], _, hl, _ =>
      simp only [lseg] at hl
      simp [mergesort, hl]
    | [a], _, hl, h0 =>
      have hz := (lseg_next_zero hl h0).2 rfl
      simp [mergesort, hz]
  · intro h2
    obtain ⟨slow, L1, L2, s1, s2, s3, s4, s5⟩ := mergesort_split_spec hl h0 hnd h2
      (show (L.length - 1) / 2 < fuel - 1 by omega)
    have hlen : L.length = L1.length + 1 + L2.length := by
      rw [s2]; simp only [List.length_append, List.length_cons]; omega
    refine ⟨slow, L1 ++ [slow], L2, s1, by rw [s2]; simp, by simp, ?_, ?_, ?_, ?_, ?_, ?_, s4, s5⟩
    all_goals (try simp only [List.length_append, List.length_singleton])
    all_goals omega

/-- Witness for C20 on the two-node chain `2`, `3`. -/
theorem mergesort_terminates_witness :
    lseg (tieHeap.setNext 2 3).next 2 [2, 3] 0 ∧
      (∃ h' r, mergesort 4 (tieHeap.setNext 2 3) 2 = some (h', r)) ∧
      mergesort_loop 3 (tieHeap.setNext 2 3) 2 ((tieHeap.setNext 2 3).next 2) = some 2 :=
  ⟨by decide,
    (mergesort_terminates (tieHeap.setNext 2 3) 2 [2, 3] 4 (by decide) (by decide) (by decide)
      (by decide)).1, by decide⟩

/-! ## Dropping the counters -/

theorem mergeTwoLists_loop_cost_erase :
    ∀ (fuel : Nat) (h : Heap) (l1 l2 head : Ptr) (ptr : Option Ptr),
      (mergeTwoLists_loop_cost fuel h l1 l2 head ptr).map Prod.fst =
        mergeTwoLists_loop fuel h l1 l2 head ptr
  | 0, _, _, _, _, _ => rfl
  | fuel + 1, h, l1, l2, head, ptr => by
    simp only [mergeTwoLists_loop_cost, mergeTwoLists_loop]
    split
    · split
      · rw [← mergeTwoLists_loop_cost_erase fuel]
        simp [Option.map_map, Function.comp_def]
      · rw [← mergeTwoLists_loop_cost_erase fuel]
        simp [Option.map_map, Function.comp_def]
    · rfl

theorem mergeTwoLists_cost_erase (fuel : Nat) (h : Heap) (l1 l2 : Ptr) :
    (mergeTwoLists_cost fuel h l1 l2).map Prod.fst = mergeTwoLists fuel h l1 l2 :=
  mergeTwoLists_loop_cost_erase fuel h l1 l2 0 none

theorem mergesort_cost_erase :
    ∀ (fuel : Nat) (h : Heap) (head : Ptr),
      (mergesort_cost fuel h head).map Prod.fst = mergesort fuel h head
  | 0, _, _ => rfl
  | fuel + 1, h, head => by
    simp only [mergesort_cost, mergesort]
    split
    · rfl
    · cases hs : mergesort_loop fuel h head (h.next head) with
      | none => rfl
      | some slow =>
        simp only
        rw [← mergesort_cost_erase fuel (h.setNext slow 0) head]
        cases h1 : mergesort_cost fuel (h.setNext slow 0) head with
        | none => rfl
        | some r1 =>
          obtain ⟨⟨h2, left⟩, c1, d1⟩ := r1
          simp only [Option.map_some']
          rw [← mergesort_cost_erase fuel h2 (h.next slow)]
          cases h3 : mergesort_cost fuel h2 (h.next slow) with
          | none => rfl
          | some r2 =>
            obtain ⟨⟨h4, right⟩, c2, d2⟩ := r2
            simp only [Option.map_some']
            rw [← mergeTwoLists_cost_erase]
            simp [Option.map_map, Function.comp_def]

theorem q_sort_cost_erase (fuel : Nat) (h : Heap) (head : Ptr) :
    (q_sort_cost fuel h head).map Prod.fst = q_sort fuel h head := by
  simp only [q_sort_cost, q_sort]
  split
  · rfl
  · rw [← mergesort_cost_erase]
    cases h1 : mergesort_cost fuel (h.setNext (h.prev head) 0)
        ((h.setNext (h.prev head) 0).next head) with
    | none => rfl
    | some r1 =>
      obtain ⟨⟨h2, sorted⟩, c, d⟩ := r1
      simp only [Option.map_some']
      cases h3 : q_sort_loop fuel (h2.setNext head sorted) head with
      | none => rfl
      | some r2 => rfl

theorem Option.exists_of_map_fst {α β : Type} {o : Option (α × β)} {a : α}
    (ho : o.map Prod.fst = some a) : ∃ b, o = some (a, b) := by
  cases o with
  | none => simp at ho
  | some r =>
    obtain ⟨x, y⟩ := r
    simp only [Option.map_some', Option.some.injEq] at ho
    exact ⟨y, by rw [ho]⟩

/-! ## Counting comparisons -/

/-- Each comparison of the merge loop uses one unit of fuel, and so does the final store. -/
theorem mergeTwoLists_loop_cost_lt :
    ∀ (fuel : Nat) (h : Heap) (l1 l2 head : Ptr) (ptr : Option Ptr) (r : Heap × Ptr) (c : Nat),
      mergeTwoLists_loop_cost fuel h l1 l2 head ptr = some (r, c) → c < fuel
  | 0, _, _, _, _, _, _, _, hr => by simp [mergeTwoLists_loop_cost] at hr
  | fuel + 1, h, l1, l2, head, ptr, r, c, hr => by
    simp only [mergeTwoLists_loop_cost] at hr
    split at hr
    · split at hr
      · cases hs : mergeTwoLists_loop_cost fuel (mergeTwoLists_store h head ptr l1).1
            ((mergeTwoLists_store h head ptr l1).1.next l1) l2 (mergeTwoLists_store h head ptr l1).2
            (some (mergeTwoLists_load (mergeTwoLists_store h head ptr l1).1
              (mergeTwoLists_store h head ptr l1).2 ptr)) with
        | none => rw [hs] at hr; simp at hr
        | some r' =>
          obtain ⟨x, c'⟩ := r'
          rw [hs] at hr
          simp only [Option.map_some', Option.some.injEq, Prod.mk.injEq] at hr
          have := mergeTwoLists_loop_cost_lt fuel _ _ _ _ _ _ _ hs
          omega
      · cases hs : mergeTwoLists_loop_cost fuel (mergeTwoLists_store h head ptr l2).1 l1
            ((mergeTwoLists_store h head ptr l2).1.next l2) (mergeTwoLists_store h head ptr l2).2
            (some (mergeTwoLists_load (mergeTwoLists_store h head ptr l2).1
              (mergeTwoLists_store h head ptr l2).2 ptr)) with
        | none => rw [hs] at hr; simp at hr
        | some r' =>
          obtain ⟨x, c'⟩ := r'
          rw [hs] at hr
          simp only [Option.map_some', Option.some.injEq, Prod.mk.injEq] at hr
          have := mergeTwoLists_loop_cost_lt fuel _ _ _ _ _ _ _ hs
          omega
    · simp only [Option.some.injEq, Prod.mk.injEq] at hr
      omega

/-- More fuel does not change what the merge loop returns. -/
theorem mergeTwoLists_loop_cost_mono :
    ∀ (fuel : Nat) (h : Heap) (l1 l2 head : Ptr) (ptr : Option Ptr) (r : (Heap × Ptr) × Nat),
      mergeTwoLists_loop_cost fuel h l1 l2 head ptr = some r →
      ∀ k, mergeTwoLists_loop_cost (fuel + k) h l1 l2 head ptr = some r
  | 0, _, _, _, _, _, _, hr, _ => by simp [mergeTwoLists_loop_cost] at hr
  | fuel + 1, h, l1, l2, head, ptr, r, hr, k => by
    have e : fuel + 1 + k = (fuel + k) + 1 := by omega
    rw [e]
    simp only [mergeTwoLists_loop_cost] at hr ⊢
    split
    · rename_i hc
      rw [if_pos hc] at hr
      split
      · rename_i hlt
        rw [if_pos hlt] at hr
        cases hs : mergeTwoLists_loop_cost fuel (mergeTwoLists_store h head ptr l1).1
            ((mergeTwoLists_store h head ptr l1).1.next l1) l2 (mergeTwoLists_store h head ptr l1).2
            (some (mergeTwoLists_load (mergeTwoLists_store h head ptr l1).1
              (mergeTwoLists_store h head ptr l1).2 ptr)) with
        | none => rw [hs] at hr; simp at hr
        | some r' =>
          rw [hs] at hr
          rw [mergeTwoLists_loop_cost_mono fuel _ _ _ _ _ _ hs k]
          exact hr
      · rename_i hlt
        rw [if_neg hlt] at hr
        cases hs : mergeTwoLists_loop_cost fuel (mergeTwoLists_store h head ptr l2).1 l1
            ((mergeTwoLists_store h head ptr l2).1.next l2) (mergeTwoLists_store h head ptr l2).2
            (some (mergeTwoLists_load (mergeTwoLists_store h head ptr l2).1
              (mergeTwoLists_store h head ptr l2).2 ptr)) with
        | none => rw [hs] at hr; simp at hr
        | some r' =>
          rw [hs] at hr
          rw [mergeTwoLists_loop_cost_mono fuel _ _ _ _ _ _ hs k]
          exact hr
    · rename_i hc
      rw [if_neg hc] at hr
      exact hr

/-- With enough fuel `mergeTwoLists` makes at most `|A| + |B|` comparisons. -/
theorem mergeTwoLists_cost_spec {A B : List Ptr} {h : Heap} {l1 l2 : Ptr} {n : Nat}
    (hA : lseg h.next l1 A 0) (hB : lseg h.next l2 B 0) (hA0 : 0 ∉ A) (hB0 : 0 ∉ B)
    (hnd : (A ++ B).Nodup) (hf : A.length + B.length < n) {r : Heap × Ptr}
    (hr : mergeTwoLists n h l1 l2 = some r) :
    ∃ c, mergeTwoLists_cost n h l1 l2 = some (r, c) ∧ c ≤ A.length + B.length := by
  obtain ⟨h', r', e1, _⟩ := @mergeTwoLists_spec A B h l1 l2 (A.length + B.length + 1) hA hB hA0
    hB0 hnd (by omega)
  obtain ⟨c, hc⟩ := Option.exists_of_map_fst
    ((mergeTwoLists_cost_erase (A.length + B.length + 1) h l1 l2).trans e1)
  have hlt := mergeTwoLists_loop_cost_lt _ _ _ _ _ _ _ _ hc
  have hm := mergeTwoLists_loop_cost_mono _ _ _ _ _ _ _ hc (n - (A.length + B.length + 1))
  have e : A.length + B.length + 1 + (n - (A.length + B.length + 1)) = n := by omega
  rw [e] at hm
  have hr' : mergeTwoLists n h l1 l2 = some (h', r') := by
    rw [← mergeTwoLists_cost_erase]
    show (mergeTwoLists_loop_cost n h l1 l2 0 none).map Prod.fst = _
    rw [hm]
    rfl
  rw [hr] at hr'
  cases hr'
  exact ⟨c, hm, by omega⟩

theorem clog_half (n : Nat) (hn : 2 ≤ n) :
    Nat.clog 2 n = Nat.clog 2 ((n - 1) / 2 + 1) + 1 ∧
      Nat.clog 2 (n - ((n - 1) / 2 + 1)) ≤ Nat.clog 2 ((n - 1) / 2 + 1) := by
  constructor
  · rw [Nat.clog_of_two_le (by decide) hn]
    have : (n + 2 - 1) / 2 = (n - 1) / 2 + 1 := by omega
    rw [this]
  · exact Nat.clog_mono_right 2 (by omega)

/-- With enough fuel `mergesort` on a chain of `n` nodes makes at most `n * ceil(log2 n)`
comparisons and recurses to depth at most `ceil(log2 n) + 1`. -/
theorem mergesort_cost_bound :
    ∀ (fuel : Nat) (L : List Ptr) (h : Heap) (head : Ptr),
      lseg h.next head L 0 → 0 ∉ L → L.Nodup → L.length + 2 ≤ fuel →
      ∀ (r : Heap × Ptr) (c d : Nat), mergesort_cost fuel h head = some (r, c, d) →
        c ≤ L.length * Nat.clog 2 L.length ∧ d ≤ Nat.clog 2 L.length + 1
  | 0, _, _, _, _, _, _, hf, _, _, _, _ => by omega
  | fuel + 1, [], h, head, hl, _, _, _, r, c, d, hres => by
    simp only [lseg] at hl
    simp only [mergesort_cost, hl, true_or, if_true, Option.some.injEq, Prod.mk.injEq] at hres
    obtain ⟨_, rfl, rfl⟩ := hres
    simp
  | fuel + 1, [a], h, head, hl, h0, _, _, r, c, d, hres => by
    have hz := (lseg_next_zero hl h0).2 rfl
    simp only [mergesort_cost, hz, or_true, if_true, Option.some.injEq, Prod.mk.injEq] at hres
    obtain ⟨_, rfl, rfl⟩ := hres
    simp
  | fuel + 1, a :: b :: L, h, head, hl, h0, hnd, hf, r, c, d, hres => by
    obtain ⟨_, hne⟩ := lseg_head_ne hl h0
    have hnz : h.next head ≠ 0 := fun e => by simpa using (lseg_next_zero hl h0).1 e
    have hn2 : 2 ≤ (a :: b :: L).length := by simp
    obtain ⟨slow, L1, L2, s1, eL, s3, s4, s5⟩ := mergesort_split_spec hl h0 hnd hn2
      (show ((a :: b :: L).length - 1) / 2 < fuel by omega)
    have hlen : (a :: b :: L).length = (L1 ++ [slow]).length + L2.length := by
      rw [eL]; simp only [List.length_append, List.length_cons, List.length_nil]; omega
    have hl1 : (L1 ++ [slow]).length = ((a :: b :: L).length - 1) / 2 + 1 := by
      simp only [List.length_append, List.length_singleton, s3]
    generalize (a :: b :: L).length = n at hlen hl1 hf hn2 s3 ⊢
    rw [eL] at h0 hnd
    have hnd' : (L1 ++ [slow] ++ L2).Nodup := by simpa using hnd
    have hdisj := (List.nodup_append.1 hnd').2.2
    have h01 : 0 ∉ L1 ++ [slow] := fun hm => h0 (by simp at hm ⊢; tauto)
    have h02 : 0 ∉ L2 := fun hm => h0 (by simp [hm])
    have hf1 : (L1 ++ [slow]).length + 2 ≤ fuel := by omega
    have hf2 : L2.length + 2 ≤ fuel := by omega
    -- the two recursive calls and the merge, as in `mergesort_spec`
    obtain ⟨h1, left, M1, a1, a2, a3, _, a5, _, _, _⟩ := mergesort_spec fuel (L1 ++ [slow])
      (h.setNext slow 0) head s4 h01 (List.nodup_append.1 hnd').1 hf1
    have hr : lseg h1.next (h.next slow) L2 0 := by
      refine lseg_congr (f := (h.setNext slow 0).next) L2 _ 0 ?_ s5
      intro x hx
      exact a5 x (fun hm => hdisj hm hx)
    obtain ⟨h2, right, M2, b1, b2, b3, _, b5, _, _, _⟩ := mergesort_spec fuel L2 h1
      (h.next slow) hr h02 (List.nodup_append.1 hnd').2.1 hf2
    have hl' : lseg h2.next left M1 0 := by
      refine lseg_congr (f := h1.next) M1 _ 0 ?_ a2
      intro x hx
      exact b5 x (fun hm => hdisj (a3.mem_iff.1 hx) hm)
    have hMnd : (M1 ++ M2).Nodup := (List.Perm.nodup_iff (a3.append b3)).2 hnd'
    have hMlen : M1.length + M2.length = n := by rw [a3.length_eq, b3.length_eq]; omega
    obtain ⟨h3, q, c1, _⟩ := @mergeTwoLists_spec M1 M2 h2 left right fuel hl' b2
      (fun hm => h01 (a3.mem_iff.1 hm)) (fun hm => h02 (b3.mem_iff.1 hm)) hMnd (by omega)
    obtain ⟨cm, ecm, hcm⟩ := mergeTwoLists_cost_spec hl' b2
      (fun hm => h01 (a3.mem_iff.1 hm)) (fun hm => h02 (b3.mem_iff.1 hm)) hMnd
      (show M1.length + M2.length < fuel by omega) c1
    -- the counters of the two recursive calls
    obtain ⟨⟨k1, d1⟩, ec1⟩ := Option.exists_of_map_fst
      ((mergesort_cost_erase fuel (h.setNext slow 0) head).trans a1)
    obtain ⟨⟨k2, d2⟩, ec2⟩ := Option.exists_of_map_fst
      ((mergesort_cost_erase fuel h1 (h.next slow)).trans b1)
    obtain ⟨i1, i2⟩ := mergesort_cost_bound fuel (L1 ++ [slow]) (h.setNext slow 0) head s4 h01
      (List.nodup_append.1 hnd').1 hf1 _ _ _ ec1
    obtain ⟨j1, j2⟩ := mergesort_cost_bound fuel L2 h1 (h.next slow) hr h02
      (List.nodup_append.1 hnd').2.1 hf2 _ _ _ ec2
    simp only [mergesort_cost, hne, hnz, or_self, if_false, s1, ec1, ec2, ecm, Option.map_some',
      Option.some.injEq, Prod.mk.injEq] at hres
    obtain ⟨_, rfl, rfl⟩ := hres
    -- arithmetic
    obtain ⟨g1, g2⟩ := clog_half n hn2
    rw [hl1] at i1 i2
    have hl2 : L2.length = n - ((n - 1) / 2 + 1) := by omega
    rw [hl2] at j1 j2
    generalize Nat.clog 2 ((n - 1) / 2 + 1) = K at g1 g2 i1 i2
    generalize Nat.clog 2 (n - ((n - 1) / 2 + 1)) = K2 at g2 j1 j2
    rw [g1]
    constructor
    · have t1 : (n - ((n - 1) / 2 + 1)) * K2 ≤ (n - ((n - 1) / 2 + 1)) * K :=
        Nat.mul_le_mul_left _ g2
      have t2 : n * (K + 1) =
          ((n - 1) / 2 + 1) * K + (n - ((n - 1) / 2 + 1)) * K + n := by
        have : n = ((n - 1) / 2 + 1) + (n - ((n - 1) / 2 + 1)) := by omega
        conv_lhs => rw [this]
        rw [Nat.add_mul, Nat.mul_add, Nat.mul_add, Nat.mul_one, Nat.mul_one]
        omega
      rw [t2]
      omega
    · have : max d1 d2 ≤ K + 1 := max_le i2 (by omega)
      omega

/-- On a queue of at least two elements `q_sort` does not return early, and storing null in
the last element's `next` leaves a null-terminated chain of all the elements. -/
theorem q_sort_detach {h : Heap} {head : Ptr} {L : List Ptr} (hwf : WF h head L)
    (h2 : 2 ≤ L.length) :
    h.next head ≠ h.prev head ∧
      lseg (h.setNext (h.prev head) 0).next ((h.setNext (h.prev head) 0).next head) L 0 := by
  obtain ⟨a, K, z, rfl⟩ : ∃ a K z, L = a :: (K ++ [z]) := by
    match L, h2 with
    | a :: b :: L, _ =>
      rcases List.eq_nil_or_concat (b :: L) with e | ⟨K, z, e⟩
      · simp at e
      · exact ⟨a, K, z, by rw [e]; simp⟩
  have hnd := hwf.nodup
  have hhL : head ∉ a :: (K ++ [z]) := (List.nodup_cons.1 hnd).1
  have hLnd : (a :: (K ++ [z])).Nodup := (List.nodup_cons.1 hnd).2
  have hnext : h.next head = a := hwf.links.1
  have hprev : h.prev head = z := by
    rw [hwf.prev_head]
    simp [List.getLast_cons]
  have haz : a ≠ z := fun e => by
    rw [e] at hLnd
    simp at hLnd
  have hhz : head ≠ z := fun e => hhL (by simp [e])
  have hzK : z ∉ a :: K := fun hm => by
    have : (a :: K ++ [z]).Nodup := by simpa using hLnd
    exact (List.nodup_append.1 this).2.2 hm (by simp)
  have hl0 : lseg h.next (h.next head) (a :: K ++ [z]) head := by
    have := dseg_lseg _ head head hwf.links
    simpa using this
  obtain ⟨m, hm1, hm2⟩ := (lseg_append (a :: K) (h.next head) [z] head).1 hl0
  refine ⟨by rw [hnext, hprev]; exact haz, ?_⟩
  rw [hprev]
  simp only [Heap.setNext_next, if_neg hhz, hnext]
  have : lseg (h.setNext z 0).next a (a :: K ++ [z]) 0 := by
    refine (lseg_append (a :: K) a [z] 0).2 ⟨m, ?_, ?_⟩
    · rw [hnext] at hm1
      refine lseg_congr (f := h.next) (a :: K) a m ?_ hm1
      intro x hx
      have : x ≠ z := fun e => hzK (e ▸ hx)
      simp [this]
    · simp only [lseg] at hm2 ⊢
      exact ⟨hm2.1, by simp⟩
  simpa using this

theorem q_sort_small_cond {h : Heap} {head : Ptr} {L : List Ptr} (hwf : WF h head L)
    (hL : L.length ≤ 1) : h.next head = h.prev head := by
  match L, hL, hwf with
  | [], _, hwf =>
    have := hwf.links
    simp only [dseg] at this
    rw [this.1, this.2]
  | [a], _, hwf =>
    have := hwf.links
    simp only [dseg] at this
    rw [this.1, this.2.2.2]

/-- C18: for every well-formed queue of `n` elements, with enough fuel `q_sort` returns
having made at most `n * ceil(log2 n)` payload comparisons and having recursed in `mergesort`
to depth at most `ceil(log2 n) + 1`; no element is allocated or released. The counters are
those of `q_sort_cost`, which returns the same heap as `q_sort`. -/
theorem q_sort_cost_bound (h : Heap) (head : Ptr) (L : List Ptr) (fuel : Nat)
    (hwf : WF h head L) (hf : L.length + 2 ≤ fuel) :
    ∃ h' c d, q_sort_cost fuel h head = some (h', c, d) ∧ q_sort fuel h head = some h' ∧
      c ≤ L.length * Nat.clog 2 L.length ∧ d ≤ Nat.clog 2 L.length + 1 ∧
      (∀ x, h'.alloc x = h.alloc x) := by
  obtain ⟨h', M, e1, _, _, _, _, e6, _⟩ := q_sort_spec hwf hf
  obtain ⟨⟨c, d⟩, hc⟩ := Option.exists_of_map_fst ((q_sort_cost_erase fuel h head).trans e1)
  have hc0 := hc
  suffices hb : c ≤ L.length * Nat.clog 2 L.length ∧ d ≤ Nat.clog 2 L.length + 1 from
    ⟨h', c, d, hc0, e1, hb.1, hb.2, fun x => by rw [e6]⟩
  by_cases hs : L.length ≤ 1
  · simp only [q_sort_cost, q_sort_small_cond hwf hs, or_true, if_true, Option.some.injEq,
      Prod.mk.injEq] at hc
    obtain ⟨_, rfl, rfl⟩ := hc
    simp
  · obtain ⟨hne, hl⟩ := q_sort_detach hwf (show 2 ≤ L.length by omega)
    simp only [q_sort_cost, hwf.head_ne, hne, or_self, if_false] at hc
    cases hm : mergesort_cost fuel (h.setNext (h.prev head) 0)
        ((h.setNext (h.prev head) 0).next head) with
    | none => rw [hm] at hc; simp at hc
    | some r =>
      obtain ⟨⟨h2, s⟩, c', d'⟩ := r
      rw [hm] at hc
      simp only at hc
      cases hq : q_sort_loop fuel (h2.setNext head s) head with
      | none => rw [hq] at hc; simp at hc
      | some r2 =>
        rw [hq] at hc
        simp only [Option.some.injEq, Prod.mk.injEq] at hc
        obtain ⟨_, rfl, rfl⟩ := hc
        exact mergesort_cost_bound fuel L _ _ hl hwf.nonnull (List.nodup_cons.1 hwf.nodup).2 hf
          _ _ _ hm

/-- Witness for C18 on the queue banana, apple, cherry: at most `3 * 2` comparisons, depth at
most `3`. -/
theorem q_sort_cost_bound_witness :
    WF (tailQueue fruit) 1 [2, 3, 4] ∧
      (q_sort_cost 5 (tailQueue fruit) 1).map (fun r => r.2) = some (3, 3) ∧
      ∃ h' c d, q_sort_cost 5 (tailQueue fruit) 1 = some (h', c, d) ∧
        c ≤ 3 * Nat.clog 2 3 ∧ d ≤ Nat.clog 2 3 + 1 :=
  ⟨⟨by decide, by decide, by decide, by decide⟩, by decide, by
    obtain ⟨h', c, d, e1, _, e3, e4, _⟩ := q_sort_cost_bound (tailQueue fruit) 1 [2, 3, 4] 5
      ⟨by decide, by decide, by decide, by decide⟩ (by decide)
    exact ⟨h', c, d, e1, e3, e4⟩⟩

end Queue
